import Mathlib

/-!
# Sudoku: a shallow embedding of `board.hpp`, `solver.hpp` and `solvercbc.hpp`

The grid `Board::data_` is an `Eigen::Matrix<int, 9, 9, RowMajor>`: 81 machine integers stored
row by row, so `data_(r, c)` is the element at flat offset `r * 9 + c`.  The board is embedded as a
list of 81 integers, mutation as explicit state passing, C++ exceptions as `Except`, and the one
recursive function (`Solver::solveBacktrack`) with a fuel argument whose exhaustion is the result
`none`.

Conventions of the embedding:

* a C++ `for (int i = 0; i < n; ++i)` loop is a recursion over `List.range n` (or over a counter);
  an early `return` ends the recursion;
* loop counters are natural numbers; they are always inside `[0, 9)`, so the bounds checks of
  `Board::get`, `Board::set`, `rowMap`, `colMap` and `blockMap` that guard accesses made with them
  never throw and the solver reads and writes cells through `Board.cell` and `Board.put`
  (`Board.get_inRange` and `Board.set_inRange` relate them to the checked accessors);
* a `std::string` is a Lean `String`, one `Char` for each C++ `char`.
-/

set_option maxRecDepth 100000

namespace Sudoku

/-- The two exception types thrown by `board.hpp`. -/
inductive Error where
  /-- The exception `std::out_of_range`. -/
  | outOfRange
  /-- The exception `std::invalid_argument`. -/
  | invalidArgument
  deriving DecidableEq, Repr

deriving instance DecidableEq for Except

/-- The grid `Board::data_`: 81 integers in row-major order. -/
structure Board where
  /-- The storage of the matrix, `data_(r, c)` at offset `r * 9 + c`. -/
  data : List Int
  /-- The matrix is 9 by 9. -/
  size_eq : data.length = 81
  deriving DecidableEq, Repr

namespace Board

/-- The method `Board::clear` (and the default constructor): `data_.setZero()`. -/
def clear : Board := ⟨List.replicate 81 0, by simp⟩

/-- Unchecked read `data_(r, c)`. -/
def cell (b : Board) (r c : Nat) : Int := b.data.getD (r * 9 + c) 0

/-- Unchecked write `data_(r, c) = v`. -/
def put (b : Board) (r c : Nat) (v : Int) : Board :=
  ⟨b.data.set (r * 9 + c) v, by simp [b.size_eq]⟩

/-- The method `Board::checkIdx`: throws `std::out_of_range` for an index outside `[0, 9)`. -/
def checkIdx (r c : Int) : Except Error Unit :=
  if r < 0 ∨ r ≥ 9 ∨ c < 0 ∨ c ≥ 9 then .error .outOfRange else .ok ()

/-- The method `Board::set`, as a function from the board before the call to the outcome and the
board after it: both checks come before the write. -/
def set (b : Board) (row col v : Int) : Except Error Unit × Board :=
  match checkIdx row col with
  | .error e => (.error e, b)
  | .ok () =>
    if v < 0 ∨ v > 9 then (.error .outOfRange, b)
    else (.ok (), b.put row.toNat col.toNat v)

/-- The method `Board::get`. -/
def get (b : Board) (row col : Int) : Except Error Int :=
  match checkIdx row col with
  | .error e => .error e
  | .ok () => .ok (b.cell row.toNat col.toNat)

/-- The method `Board::isFilled`: `(data_.array() != 0).all()`. -/
def isFilled (b : Board) : Bool := b.data.all fun v => v != 0

/-- Offset of element `(i, j)` of the view `blockMap(br, bc)`: the view starts at
`&data_(br * 3, bc * 3)` and has `Eigen::Stride<9, 1>` (outer stride 9, inner stride 1). -/
def blockOffset (br bc i j : Nat) : Nat := (br * 3 * 9 + bc * 3) + (i * 9 + j)

/-- The values `data_(r, c)` for `c = 0, ..., 8`, in the order the loops read them. -/
def rowVals (b : Board) (r : Nat) : List Int := (List.range 9).map fun c => b.cell r c

/-- The values `data_(r, c)` for `r = 0, ..., 8`, in the order the loops read them. -/
def colVals (b : Board) (c : Nat) : List Int := (List.range 9).map fun r => b.cell r c

/-- The values `bm(i, j)` of the view `bm = blockMap(br, bc)` for `i, j = 0, 1, 2`, in the order the
loops read them. -/
def blockVals (b : Board) (br bc : Nat) : List Int :=
  (List.range 3).flatMap fun i => (List.range 3).map fun j => b.data.getD (blockOffset br bc i j) 0

/-- The inner loop of `Board::isValid` over the values of one row, column or block, with the local
array `seen` (`std::array<bool, 10>`).  The result `false` is the early `return false`.  The test
`v < 1 || v > 9` is made in the row pass only (`checkRange`); the row pass reads every cell, so the
column and block passes index `seen` only when every cell is in `[0, 9]`
(`Board.isValid_inRange`). -/
def scanUnit (checkRange : Bool) : List Int → List Bool → Bool
  | [], _ => true
  | v :: vs, seen =>
    if v = 0 then scanUnit checkRange vs seen
    else if checkRange && (v < 1 || v > 9) then false
    else if seen.getD v.toNat false then false
    else scanUnit checkRange vs (seen.set v.toNat true)

/-- The method `Board::isValid`: the row pass, then the column pass, then the block pass, each with
a fresh `seen` array for every unit. -/
def isValid (b : Board) : Bool :=
  ((List.range 9).all fun r => scanUnit true (b.rowVals r) (List.replicate 10 false)) &&
  ((List.range 9).all fun c => scanUnit false (b.colVals c) (List.replicate 10 false)) &&
  ((List.range 3).all fun br => (List.range 3).all fun bc =>
    scanUnit false (b.blockVals br bc) (List.replicate 10 false))

/-- The loop of `Board::fromString` with `n` iterations left, at index `i`.  The board reached so
far is returned together with the outcome, because the writes `data_(r, c) = v` made before a
`throw` stay in the object. -/
def fromStringLoop (flat81 : List Char) : Nat → Nat → Board → Except Error Unit × Board
  | 0, _, b => (.ok (), b)
  | n + 1, i, b =>
    let ch := flat81.getD i ' '
    if ch = '.' ∨ ch = '0' then
      fromStringLoop flat81 n (i + 1) (b.put (i / 9) (i % 9) 0)
    else if '1' ≤ ch ∧ ch ≤ '9' then
      fromStringLoop flat81 n (i + 1)
        (b.put (i / 9) (i % 9) ((ch.toNat : Int) - ('0'.toNat : Int)))
    else (.error .invalidArgument, b)

/-- The method `Board::fromString`, as a function from the board before the call to the outcome
and the board after it. -/
def fromString (b : Board) (flat81 : String) : Except Error Unit × Board :=
  if flat81.length ≠ 81 then (.error .invalidArgument, b)
  else fromStringLoop flat81.data 81 0 b

/-- The character written for one cell by `Board::toString`: `v == 0 ? '.' : char('0' + v)`. -/
def cellChar (v : Int) : Char := if v = 0 then '.' else Char.ofNat (('0'.toNat : Int) + v).toNat

/-- The separator line of `Board::toString`. -/
def separator : List Char := "+-------+-------+-------+\n".data

/-- The body of the loop over `r` in `Board::toString`, after the optional separator: one line. -/
def renderRow (b : Board) (r : Nat) : List Char :=
  ((List.range 9).flatMap fun c =>
    (if c % 3 = 0 then "| ".data else []) ++ [cellChar (b.cell r c), ' ']) ++ "|\n".data

/-- The method `Board::toString`. -/
def toString (b : Board) : String :=
  String.mk (((List.range 9).flatMap fun r =>
    (if r % 3 = 0 then separator else []) ++ renderRow b r) ++ separator)

/-- Every cell of the board is in `[0, 9]`. -/
def InRange (b : Board) : Prop := ∀ v ∈ b.data, 0 ≤ v ∧ v ≤ 9

instance (b : Board) : Decidable b.InRange := by
  unfold InRange; infer_instance

/-- No row holds two equal non-zero values. -/
def RowsDistinct (b : Board) : Prop :=
  ∀ r < 9, ∀ c₁ < 9, ∀ c₂ < 9, c₁ ≠ c₂ → b.cell r c₁ ≠ 0 → b.cell r c₁ ≠ b.cell r c₂

/-- No column holds two equal non-zero values. -/
def ColsDistinct (b : Board) : Prop :=
  ∀ c < 9, ∀ r₁ < 9, ∀ r₂ < 9, r₁ ≠ r₂ → b.cell r₁ c ≠ 0 → b.cell r₁ c ≠ b.cell r₂ c

/-- No 3x3 block holds two equal non-zero values: two different cells with the same block
coordinates `(r / 3, c / 3)` differ when non-zero. -/
def BlocksDistinct (b : Board) : Prop :=
  ∀ r₁ < 9, ∀ c₁ < 9, ∀ r₂ < 9, ∀ c₂ < 9, r₁ / 3 = r₂ / 3 → c₁ / 3 = c₂ / 3 →
    (r₁ ≠ r₂ ∨ c₁ ≠ c₂) → b.cell r₁ c₁ ≠ 0 → b.cell r₁ c₁ ≠ b.cell r₂ c₂

/-- The Sudoku uniqueness predicate of the specification. -/
def NoDuplicates (b : Board) : Prop := b.RowsDistinct ∧ b.ColsDistinct ∧ b.BlocksDistinct

/-- The relation the scan checks between an earlier and a later value of a unit. -/
def Differ (a b : Int) : Prop := a ≠ 0 → a ≠ b

/-- Two different cells of one row, one column or one 3x3 block hold the same non-zero value. -/
def HasDuplicate (b : Board) : Prop :=
  ∃ r₁ < 9, ∃ c₁ < 9, ∃ r₂ < 9, ∃ c₂ < 9, (r₁ ≠ r₂ ∨ c₁ ≠ c₂) ∧
    (r₁ = r₂ ∨ c₁ = c₂ ∨ (r₁ / 3 = r₂ / 3 ∧ c₁ / 3 = c₂ / 3)) ∧
    b.cell r₁ c₁ ≠ 0 ∧ b.cell r₁ c₁ = b.cell r₂ c₂

/-- A character of the alphabet of the flat encoding. -/
def LegalChar (ch : Char) : Prop := ch = '.' ∨ ch = '0' ∨ ('1' ≤ ch ∧ ch ≤ '9')

instance (ch : Char) : Decidable (LegalChar ch) := by
  unfold LegalChar; infer_instance

/-- A valid flat encoding: exactly 81 characters of the alphabet. -/
def ValidEncoding (s : String) : Prop := s.length = 81 ∧ ∀ ch ∈ s.data, LegalChar ch

instance (s : String) : Decidable (ValidEncoding s) := by
  unfold ValidEncoding; infer_instance

/-- The cell value a character of the alphabet stands for. -/
def charValue (ch : Char) : Int :=
  if ch = '.' ∨ ch = '0' then 0 else (ch.toNat : Int) - 48

/-- The characters `Board::toString` adds around the cell characters. -/
def frameChars : List Char := ['+', '-', '|', ' ', '\n']

/-- The cell characters of a rendering: what is left once the frame is removed. -/
def stripFrame (s : String) : String := String.mk (s.data.filter fun ch => ch ∉ frameChars)

/-- The flat encoding in which every empty cell is written as a dot. -/
def dotted (s : String) : String := String.mk (s.data.map fun ch => if ch = '0' then '.' else ch)

end Board

/-- The enumeration `Solver::Method`. -/
inductive Method where
  | Backtracking
  | MILP
  deriving DecidableEq, Repr

namespace Solver

/-- The type `Solver::Mask` (`unsigned short`).  The only masks built are sums of `1u << v` with
`v` in `1..9`, so no arithmetic on them leaves 16 bits. -/
abbrev Mask := Nat

/-- The three marking loops of `candidatesFor`: `if (v != 0) seen[v] = true` for each value.  The
solver calls `candidatesFor` on boards that passed `isValid`, whose values index `seen` inside
its ten elements. -/
def markSeen : List Int → List Bool → List Bool
  | [], seen => seen
  | v :: vs, seen => if v ≠ 0 then markSeen vs (seen.set v.toNat true) else markSeen vs seen

/-- The last loop of `candidatesFor`: `if (!seen[v]) m |= (1u << v)`. -/
def maskLoop (seen : List Bool) : List Nat → Mask → Mask
  | [], m => m
  | v :: vs, m =>
    if !(seen.getD v false) then maskLoop seen vs (m ||| (1 <<< v)) else maskLoop seen vs m

/-- The function `Solver::candidatesFor`. -/
def candidatesFor (b : Board) (r c : Nat) : Mask :=
  if b.cell r c ≠ 0 then 0
  else
    let seen := markSeen (b.rowVals r) (List.replicate 10 false)
    let seen := markSeen (b.colVals c) seen
    let seen := markSeen (b.blockVals (r / 3) (c / 3)) seen
    maskLoop seen [1, 2, 3, 4, 5, 6, 7, 8, 9] 0

/-- The function `Solver::popcount9`: `__builtin_popcount` of the mask as a 32-bit unsigned. -/
def popcount9 (m : Mask) : Nat := ((List.range 32).filter fun i => m.testBit i).length

/-- The cells in the order the two nested loops of `chooseCellMRV` visit them. -/
def allCells : List (Nat × Nat) :=
  (List.range 9).flatMap fun r => (List.range 9).map fun c => (r, c)

/-- The loop of `chooseCellMRV` over the cells still to visit.  The state `bestR, bestC, bestMask`
is `best`, with `none` for the initial `bestR == -1`; `bestCount` is the last argument. -/
def chooseLoop (b : Board) :
    List (Nat × Nat) → Option (Nat × Nat × Mask) → Nat → Option (Nat × Nat × Mask)
  | [], best, _ => best
  | (r, c) :: rest, best, bestCount =>
    if b.cell r c ≠ 0 then chooseLoop b rest best bestCount
    else
      let m := candidatesFor b r c
      let cnt := popcount9 m
      if cnt = 0 then none
      else if cnt < bestCount then
        if cnt = 1 then some (r, c, m) else chooseLoop b rest (some (r, c, m)) cnt
      else chooseLoop b rest best bestCount

/-- The function `Solver::chooseCellMRV`. -/
def chooseCellMRV (b : Board) : Option (Nat × Nat × Mask) := chooseLoop b allCells none 100

/-- The loop `for (int v = 1; v <= 9; ++v)` of `solveBacktrack` over the digits still to try, on
the board `b`; `recurse` is the recursive call.  The result is `none` when the recursive call ran
out of fuel, and otherwise the returned flag with the board left behind. -/
def tryDigits (recurse : Board → Option (Bool × Board)) (r c : Nat) (mask : Mask) :
    List Nat → Board → Option (Bool × Board)
  | [], b => some (false, b)
  | v :: vs, b =>
    if mask &&& (1 <<< v) = 0 then tryDigits recurse r c mask vs b
    else
      let b1 := b.put r c v
      match (if b1.isValid then recurse b1 else some (false, b1)) with
      | none => none
      | some (true, b2) => some (true, b2)
      | some (false, b2) => tryDigits recurse r c mask vs (b2.put r c 0)

/-- The function `Solver::solveBacktrack`, with `fuel` bounding the depth of the recursion. -/
def solveBacktrack : Nat → Board → Option (Bool × Board)
  | 0, _ => none
  | fuel + 1, b =>
    match chooseCellMRV b with
    | none => some (b.isFilled, b)
    | some (r, c, mask) =>
      tryDigits (solveBacktrack fuel) r c mask [1, 2, 3, 4, 5, 6, 7, 8, 9] b

/-- The function `Solver::solve` of `solver.hpp`, with the fuel given to the search. -/
def solveFuel (fuel : Nat) (board : Board) (method : Method) : Option (Bool × Board) :=
  if !board.isValid then some (false, board)
  else if method = Method.Backtracking then solveBacktrack fuel board
  else some (false, board)

/-- The function `Solver::solve` of `solver.hpp`.  A board has 81 cells, and 82 levels of recursion
are enough for every board (`solveBacktrack_total`). -/
def solve (board : Board) (method : Method) : Option (Bool × Board) := solveFuel 82 board method

/-- The number of empty cells of a board. -/
def emptyCount (b : Board) : Nat := b.data.count 0

/-- The grid `s` is a solution of the board `b`: it is filled, valid, and agrees with the board on
every non-zero cell. -/
def IsSolutionOf (s b : Board) : Prop :=
  s.isValid = true ∧ s.isFilled = true ∧
    ∀ r < 9, ∀ c < 9, b.cell r c ≠ 0 → s.cell r c = b.cell r c

instance (s b : Board) : Decidable (IsSolutionOf s b) := by
  unfold IsSolutionOf; infer_instance

/-- What a call of the search on the board `b` gives when it does not run out of fuel: a flag
and a board; on `false` the board is `b`; on `true` the board is valid, filled and keeps every
non-zero cell of `b`; and the flag is `true` when `b` has a solution. -/
def SearchResult (b : Board) (res : Option (Bool × Board)) : Prop :=
  ∃ ok b2, res = some (ok, b2) ∧
    (ok = false → b2 = b) ∧
    (ok = true → b2.isValid = true ∧ b2.isFilled = true ∧
      ∀ r < 9, ∀ c < 9, b.cell r c ≠ 0 → b2.cell r c = b.cell r c) ∧
    ((∃ s, IsSolutionOf s b) → ok = true)

end Solver

/-! ## Views -/

/-- An `Eigen::Map` into the storage of `data_`: the offset of the element its pointer points
to, and its two strides. -/
structure View where
  /-- Offset in `data_` of the first element of the view. -/
  start : Nat
  /-- The outer stride: the distance between two rows of a row-major 3x3 view. -/
  outerStride : Nat
  /-- The inner stride: the distance between two consecutive elements. -/
  innerStride : Nat
  deriving DecidableEq, Repr

namespace View

/-- Offset in `data_` of the element `vw(i)` of a vector view. -/
def at1 (vw : View) (i : Nat) : Nat := vw.start + i * vw.innerStride

/-- Offset in `data_` of the element `vw(i, j)` of a row-major matrix view. -/
def at2 (vw : View) (i j : Nat) : Nat := vw.start + i * vw.outerStride + j * vw.innerStride

end View

namespace Board

/-- Read of the storage at an offset: what reading an element of a view does. -/
def peek (b : Board) (off : Nat) : Int := b.data.getD off 0

/-- Write of the storage at an offset: what assigning to an element of a view does. -/
def poke (b : Board) (off : Nat) (v : Int) : Board :=
  ⟨b.data.set off v, by simp [b.size_eq]⟩

/-- The method `Board::rowMap`: the contiguous view `RowMap(&data_(r, 0))`. -/
def rowMap (r : Int) : Except Error View :=
  if r < 0 ∨ r ≥ 9 then .error .outOfRange else .ok ⟨r.toNat * 9 + 0, 9, 1⟩

/-- The method `Board::colMap`: the view `ColMap(&data_(0, c), ColStride())` with
`ColStride = Eigen::Stride<1, 9>` (outer stride 1, inner stride 9). -/
def colMap (c : Int) : Except Error View :=
  if c < 0 ∨ c ≥ 9 then .error .outOfRange else .ok ⟨0 * 9 + c.toNat, 1, 9⟩

/-- The method `Board::blockMap`: the view `BlockMap(&data_(br * 3, bc * 3), Eigen::Stride<9, 1>())`
(outer stride 9, inner stride 1). -/
def blockMap (br bc : Int) : Except Error View :=
  if br < 0 ∨ br ≥ 3 ∨ bc < 0 ∨ bc ≥ 3 then .error .outOfRange
  else .ok ⟨br.toNat * 3 * 9 + bc.toNat * 3, 9, 1⟩

/-- The element of the storage at offset `off` is the cell `(r, c)`: reading it gives what
`get(r, c)` returns, and after writing any value to it `get(r, c)` returns that value and `get`
of every other cell returns what it returned before. -/
def AliasesCell (b : Board) (off : Nat) (r c : Nat) : Prop :=
  b.get r c = .ok (b.peek off) ∧
  ∀ v : Int, (b.poke off v).get r c = .ok v ∧
    ∀ r2 c2 : Int, (r2 ≠ r ∨ c2 ≠ c) → (b.poke off v).get r2 c2 = b.get r2 c2

end Board

namespace Board

/-- The cells `(r₁, c₁)` and `(r₂, c₂)` lie in one row, one column or one 3x3 block. -/
def SameUnit (r₁ c₁ r₂ c₂ : Nat) : Prop :=
  r₁ = r₂ ∨ c₁ = c₂ ∨ (r₁ / 3 = r₂ / 3 ∧ c₁ / 3 = c₂ / 3)

instance (r₁ c₁ r₂ c₂ : Nat) : Decidable (SameUnit r₁ c₁ r₂ c₂) := by
  unfold SameUnit; infer_instance

end Board

/-! ## The exact-cover formulation of `solvercbc.hpp`

The class `Solver` of `solvercbc.hpp` has the `solve` of `solver.hpp` with the MILP branch
calling `solveMilpCbc`.  A C++ `double` is a rational number here: the code only stores the
constants 0 and 1 in the formulation and only compares the values of the solution with 0.5.
The solver library (`OsiClpSolverInterface`, `CbcModel`) is a parameter `backend`: a function
from the formulation loaded to the result of `bestSolution()`, `none` for the null pointer. -/

namespace Solver

/-- The function `Solver::varIndex`, for a digit `v` in `1..9`. -/
def varIndex (r c v : Nat) : Nat := ((r * 9 + c) * 9) + (v - 1)

/-- The values of the loops `for (int v = 1; v <= V; ++v)`. -/
def digits : List Nat := [1, 2, 3, 4, 5, 6, 7, 8, 9]

/-- One constraint: the entries `(index, coefficient)` of the `CoinPackedVector` appended to the
matrix, with the values pushed to `rowLower` and `rowUpper` for it. -/
structure Row where
  /-- The pairs given to `row.insert(idx, 1.0)`. -/
  entries : List (Nat × Rat)
  /-- The value pushed to `rowLower`. -/
  lower : Rat
  /-- The value pushed to `rowUpper`. -/
  upper : Rat
  deriving DecidableEq

/-- What `solveMilpCbc` loads into the solver. -/
structure Formulation where
  /-- The vector `colLower`. -/
  colLower : List Rat
  /-- The vector `colUpper`. -/
  colUpper : List Rat
  /-- The vector `objective`. -/
  objective : List Rat
  /-- The rows of `matrix`, in the order of the calls of `appendRow`. -/
  rows : List Row

/-- The loop over `v` that fixes the nine variables of a pre-filled cell with value `val`. -/
def fixDigits (r c : Nat) (val : Int) : List Nat → List Rat × List Rat → List Rat × List Rat
  | [], bounds => bounds
  | v :: vs, (lo, up) =>
    if (v : Int) = val then
      fixDigits r c val vs (lo.set (varIndex r c v) 1, up.set (varIndex r c v) 1)
    else
      fixDigits r c val vs (lo.set (varIndex r c v) 0, up.set (varIndex r c v) 0)

/-- The loops over `r` and `c` that fix the variables of the pre-filled cells. -/
def fixCells (b : Board) : List (Nat × Nat) → List Rat × List Rat → List Rat × List Rat
  | [], bounds => bounds
  | (r, c) :: rest, bounds =>
    if 1 ≤ b.cell r c ∧ b.cell r c ≤ 9 then
      fixCells b rest (fixDigits r c (b.cell r c) digits bounds)
    else fixCells b rest bounds

/-- A row with coefficient 1.0 on each of the given variables and both bounds 1.0. -/
def unitRow (idxs : List Nat) : Row := ⟨idxs.map fun i => (i, 1), 1, 1⟩

/-- The loops of the cell constraints: for each cell, the sum over `v`. -/
def cellRows : List Row :=
  (List.range 9).flatMap fun r => (List.range 9).map fun c =>
    unitRow (digits.map fun v => varIndex r c v)

/-- The loops of the row-value constraints: for each row and value, the sum over `c`. -/
def rowValueRows : List Row :=
  (List.range 9).flatMap fun r => digits.map fun v =>
    unitRow ((List.range 9).map fun c => varIndex r c v)

/-- The loops of the column-value constraints: for each column and value, the sum over `r`. -/
def colValueRows : List Row :=
  (List.range 9).flatMap fun c => digits.map fun v =>
    unitRow ((List.range 9).map fun r => varIndex r c v)

/-- The loops of the block-value constraints: for each block and value, the sum over the cells
`(br * 3 + i, bc * 3 + j)`. -/
def blockValueRows : List Row :=
  (List.range 3).flatMap fun br => (List.range 3).flatMap fun bc => digits.map fun v =>
    unitRow ((List.range 3).flatMap fun i => (List.range 3).map fun j =>
      varIndex (br * 3 + i) (bc * 3 + j) v)

/-- The formulation `solveMilpCbc` builds for a board. -/
def buildFormulation (b : Board) : Formulation :=
  let bounds := fixCells b allCells (List.replicate 729 0, List.replicate 729 1)
  ⟨bounds.1, bounds.2, List.replicate 729 0,
    cellRows ++ rowValueRows ++ colValueRows ++ blockValueRows⟩

/-- The innermost loop of the result translation: the first `v` with `best[idx] > 0.5`, or 0. -/
def findDigit (best : Nat → Rat) (r c : Nat) : List Nat → Nat
  | [] => 0
  | v :: vs => if best (varIndex r c v) > 1 / 2 then v else findDigit best r c vs

/-- The loops over `r` and `c` of the result translation, on the cells still to visit: the
returned flag and the board left behind. -/
def applySolution (best : Nat → Rat) : List (Nat × Nat) → Board → Bool × Board
  | [], b => (true, b)
  | (r, c) :: rest, b =>
    if findDigit best r c digits = 0 then (false, b)
    else applySolution best rest (b.put r c (findDigit best r c digits))

/-- The function `Solver::solveMilpCbc` compiled with `HAVE_CBC`. -/
def solveMilpCbc (backend : Formulation → Option (Nat → Rat)) (b : Board) : Bool × Board :=
  match backend (buildFormulation b) with
  | none => (false, b)
  | some best => applySolution best allCells b

/-- The function `Solver::solveMilpCbc` compiled without `HAVE_CBC`. -/
def solveMilpCbcUnavailable (b : Board) : Bool × Board := (false, b)

/-- The function `Solver::solve` of `solvercbc.hpp`; `backend` is `none` when the file is
compiled without `HAVE_CBC`. -/
def solveCbc (backend : Option (Formulation → Option (Nat → Rat))) (fuel : Nat)
    (board : Board) (method : Method) : Option (Bool × Board) :=
  if !board.isValid then some (false, board)
  else if method = Method.Backtracking then solveBacktrack fuel board
  else
    match backend with
    | none => some (solveMilpCbcUnavailable board)
    | some cbc => some (solveMilpCbc cbc board)

/-- The digit `v` is selected for the cell `(r, c)` by the solution vector: `best[idx] > 0.5`. -/
def Hot (best : Nat → Rat) (r c v : Nat) : Prop := best (varIndex r c v) > 1 / 2

instance (best : Nat → Rat) (r c v : Nat) : Decidable (Hot best r c v) := by
  unfold Hot; infer_instance

/-- The row is satisfied by the assignment `x`. -/
def Row.Holds (row : Row) (x : Nat → Rat) : Prop :=
  row.lower ≤ (row.entries.map fun e => e.2 * x e.1).sum ∧
    (row.entries.map fun e => e.2 * x e.1).sum ≤ row.upper

/-- The assignment `x` respects the bounds of the 729 variables and satisfies every row. -/
def Feasible (f : Formulation) (x : Nat → Rat) : Prop :=
  (∀ i < 729, f.colLower.getD i 0 ≤ x i ∧ x i ≤ f.colUpper.getD i 0) ∧
    ∀ row ∈ f.rows, row.Holds x

/-- The assignment `x` is a 0/1 assignment of the 729 variables. -/
def Binary (x : Nat → Rat) : Prop := ∀ i < 729, x i = 0 ∨ x i = 1

/-- The assignment `x` is the indicator of the grid `g`: the variable of `(r, c, v)` is 1 when
the cell `(r, c)` of `g` holds `v`, and 0 otherwise. -/
def IsIndicator (x : Nat → Rat) (g : Board) : Prop :=
  ∀ r < 9, ∀ c < 9, ∀ v, 1 ≤ v → v ≤ 9 →
    x (varIndex r c v) = if g.cell r c = (v : Int) then 1 else 0

end Solver

namespace Solver

/-- The cells of row `r`, by their position in the row. -/
def rowUnit (r : Nat) : Nat → Nat × Nat := fun k => (r, k)

/-- The cells of column `c`, by their position in the column. -/
def colUnit (c : Nat) : Nat → Nat × Nat := fun k => (k, c)

/-- The cells of the block `(br, bc)`, by their row-major position in the block. -/
def blockUnit (br bc : Nat) : Nat → Nat × Nat := fun k => (br * 3 + k / 3, bc * 3 + k % 3)

/-- The variables of the digit `v` at the nine cells of a unit. -/
def unitVars (unit : Nat → Nat × Nat) (v : Nat) : List Nat :=
  (List.range 9).map fun k => varIndex (unit k).1 (unit k).2 v

/-- The nine cells of a unit are cells of the grid, and different positions are different
cells. -/
def IsUnit (unit : Nat → Nat × Nat) : Prop :=
  (∀ k < 9, (unit k).1 < 9 ∧ (unit k).2 < 9) ∧
    ∀ k₁ < 9, ∀ k₂ < 9, unit k₁ = unit k₂ → k₁ = k₂

/-- The grid read from an assignment: at each cell the first digit whose variable is above
0.5, as in the result translation. -/
def decode (x : Nat → Rat) : Board :=
  ⟨(List.range 81).map fun i => (findDigit x (i / 9) (i % 9) digits : Int), by simp⟩

end Solver

namespace Solver

/-- The nine cells of a unit hold no non-zero value twice. -/
def UnitDistinct (g : Board) (unit : Nat → Nat × Nat) : Prop :=
  ∀ k₁ < 9, ∀ k₂ < 9, k₁ ≠ k₂ → g.cell (unit k₁).1 (unit k₁).2 ≠ 0 →
    g.cell (unit k₁).1 (unit k₁).2 ≠ g.cell (unit k₂).1 (unit k₂).2

end Solver

/-! ## The recursive calls of the backtracking search -/

namespace Solver

/-- The loop `for (int v = 1; v <= 9; ++v)` of `solveBacktrack` once more, this time collecting
the boards on which it reaches the call `solveBacktrack(b)`, in the order of the calls.  The loop
stops after a call that returns true, and after one that ran out of fuel. -/
def tryDigitsCalls (recurse : Board → Option (Bool × Board)) (r c : Nat) (mask : Mask) :
    List Nat → Board → List Board
  | [], _ => []
  | v :: vs, b =>
    if mask &&& (1 <<< v) = 0 then tryDigitsCalls recurse r c mask vs b
    else
      let b1 := b.put r c v
      if b1.isValid then
        match recurse b1 with
        | none => [b1]
        | some (true, _) => [b1]
        | some (false, b2) => b1 :: tryDigitsCalls recurse r c mask vs (b2.put r c 0)
      else tryDigitsCalls recurse r c mask vs (b1.put r c 0)

/-- The boards on which one activation of `solveBacktrack` on the board `b` calls
`solveBacktrack` itself. -/
def recursiveCalls : Nat → Board → List Board
  | 0, _ => []
  | fuel + 1, b =>
    match chooseCellMRV b with
    | none => []
    | some (r, c, mask) =>
      tryDigitsCalls (solveBacktrack fuel) r c mask [1, 2, 3, 4, 5, 6, 7, 8, 9] b

/-- The depth of the recursion below one activation of `solveBacktrack` on the board `b`: 0 when
it makes no recursive call, and otherwise one more than the greatest depth below a call it
makes. -/
def callDepth : Nat → Board → Nat
  | 0, _ => 0
  | fuel + 1, b =>
    ((recursiveCalls (fuel + 1) b).map fun b1 => callDepth fuel b1 + 1).foldr max 0

end Solver

/-! ## Concrete inputs -/

/-- The puzzle of `board_test.cpp`: a valid encoding of 81 characters. -/
def testPuzzle : String :=
  "...49.2....6.1..47..4.5..9.67.5.14..8...4.7..5498..3.641.96.8.....1.59.4.28.7..65"

/-- An encoding of 81 legal characters with two 5s in row 0. -/
def dupRowEncoding : String :=
  "55..............................................................................."

/-- A string of 81 characters whose character at index 1 is outside the alphabet. -/
def badCharEncoding : String :=
  "1x..............................................................................."

/-- A valid encoding whose first cell is written as the character 0. -/
def zeroEncoding : String :=
  "0................................................................................"

/-- The encoding of the empty grid: 81 dots. -/
def emptyEncoding : String :=
  "................................................................................."

/-- A filled valid grid. -/
def solvedGrid : Board :=
  ⟨[5, 3, 4, 6, 7, 8, 9, 1, 2,
    6, 7, 2, 1, 9, 5, 3, 4, 8,
    1, 9, 8, 3, 4, 2, 5, 6, 7,
    8, 5, 9, 7, 6, 1, 4, 2, 3,
    4, 2, 6, 8, 5, 3, 7, 9, 1,
    7, 1, 3, 9, 2, 4, 8, 5, 6,
    9, 6, 1, 5, 3, 7, 2, 8, 4,
    2, 8, 7, 4, 1, 9, 6, 3, 5,
    3, 4, 5, 2, 8, 6, 1, 7, 9], by decide⟩

/-- The grid `solvedGrid` with the cells (0, 0), (4, 4) and (8, 8) emptied. -/
def almostSolved : Board :=
  ⟨[0, 3, 4, 6, 7, 8, 9, 1, 2,
    6, 7, 2, 1, 9, 5, 3, 4, 8,
    1, 9, 8, 3, 4, 2, 5, 6, 7,
    8, 5, 9, 7, 6, 1, 4, 2, 3,
    4, 2, 6, 8, 0, 3, 7, 9, 1,
    7, 1, 3, 9, 2, 4, 8, 5, 6,
    9, 6, 1, 5, 3, 7, 2, 8, 4,
    2, 8, 7, 4, 1, 9, 6, 3, 5,
    3, 4, 5, 2, 8, 6, 1, 7, 0], by decide⟩

/-- A valid board without solution: the cells (0, 0) and (0, 1) both admit the digit 2 only. -/
def deadEndBoard : Board :=
  ⟨[0, 0, 3, 4, 5, 6, 7, 8, 9,
    1, 0, 0, 0, 0, 0, 0, 0, 0,
    0, 0, 0, 0, 0, 0, 0, 0, 0,
    0, 0, 0, 0, 0, 0, 0, 0, 0,
    0, 0, 0, 0, 0, 0, 0, 0, 0,
    0, 0, 0, 0, 0, 0, 0, 0, 0,
    0, 0, 0, 0, 0, 0, 0, 0, 0,
    0, 0, 0, 0, 0, 0, 0, 0, 0,
    0, 0, 0, 0, 0, 0, 0, 0, 0], by decide⟩

/-- The board of `board_test.cpp`. -/
def testBoard : Board := (Board.clear.fromString testPuzzle).2

/-- A solution of the board of `board_test.cpp`. -/
def testSolution : Board :=
  ⟨[1, 5, 7, 4, 9, 6, 2, 3, 8,
    3, 9, 6, 2, 1, 8, 5, 4, 7,
    2, 8, 4, 7, 5, 3, 6, 9, 1,
    6, 7, 2, 5, 3, 1, 4, 8, 9,
    8, 3, 1, 6, 4, 9, 7, 5, 2,
    5, 4, 9, 8, 2, 7, 3, 1, 6,
    4, 1, 5, 9, 6, 2, 8, 7, 3,
    7, 6, 3, 1, 8, 5, 9, 2, 4,
    9, 2, 8, 3, 7, 4, 1, 6, 5], by decide⟩

/-- The board with two 5s in row 0 and no other digit. -/
def dupRowBoard : Board := (Board.clear.fromString dupRowEncoding).2

/-- A valid board whose cell (0, 1) has no candidate while the cell (0, 0) before it has exactly
one, the digit 2. -/
def maskedDeadEnd : Board :=
  ⟨[0, 0, 3, 4, 5, 6, 7, 8, 9,
    1, 0, 0, 0, 0, 0, 0, 0, 0,
    0, 0, 0, 0, 0, 0, 0, 0, 0,
    0, 0, 0, 0, 0, 0, 0, 0, 0,
    0, 0, 0, 0, 0, 0, 0, 0, 0,
    0, 2, 0, 0, 0, 0, 0, 0, 0,
    0, 0, 0, 0, 0, 0, 0, 0, 0,
    0, 0, 0, 0, 0, 0, 0, 0, 0,
    0, 0, 0, 0, 0, 0, 0, 0, 0], by decide⟩

/-- A valid board whose first cell has no candidate. -/
def firstCellDead : Board :=
  ⟨[0, 1, 2, 3, 4, 5, 6, 7, 8,
    9, 0, 0, 0, 0, 0, 0, 0, 0,
    0, 0, 0, 0, 0, 0, 0, 0, 0,
    0, 0, 0, 0, 0, 0, 0, 0, 0,
    0, 0, 0, 0, 0, 0, 0, 0, 0,
    0, 0, 0, 0, 0, 0, 0, 0, 0,
    0, 0, 0, 0, 0, 0, 0, 0, 0,
    0, 0, 0, 0, 0, 0, 0, 0, 0,
    0, 0, 0, 0, 0, 0, 0, 0, 0], by decide⟩

/-- A solution vector with every variable at 1. -/
def allOnes : Nat → Rat := fun _ => 1

/-- A solution vector with the variable of the digit 5 at the cell (0, 0) at 1 and every other
variable at 0. -/
def oneHot : Nat → Rat := fun i => if i = Solver.varIndex 0 0 5 then 1 else 0

/-- The board with 1 in every cell. -/
def onesBoard : Board := ⟨List.replicate 81 1, by decide⟩

/-- The string of concrete scenario 1 of the specification: 78 characters. -/
def scenarioString : String :=
  "53..7....6..195....98....6.8...6...34..8..3..17..2...6....28...419..5....8..79"

/-- The puzzle of `qt-test.cpp`, the classical puzzle the scenario abbreviates: 81 characters. -/
def classicPuzzle : String :=
  "53..7....6..195....98....6.8...6...34..8.3..17...2...6.6....28....419..5....8..79"

/-- The board of `qt-test.cpp`. -/
def classicBoard : Board := (Board.clear.fromString classicPuzzle).2

/-! ## Cells and writes -/

namespace Board

theorem data_put (b : Board) (r c : Nat) (v : Int) (j : Nat) (h : r * 9 + c < 81) :
    (b.put r c v).data.getD j 0 = if j = r * 9 + c then v else b.data.getD j 0 := by
  have hlen := b.size_eq
  simp only [put, List.getD_eq_getElem?_getD, List.getElem?_set]
  by_cases hj : r * 9 + c = j
  · subst hj
    simp [hlen, h]
  · have hj2 : ¬ j = r * 9 + c := fun e => hj e.symm
    simp [hj, hj2]

theorem cell_put (b : Board) (r c : Nat) (v : Int) (r2 c2 : Nat) (hr : r < 9) (hc : c < 9)
    (hc2 : c2 < 9) :
    (b.put r c v).cell r2 c2 = if r2 = r ∧ c2 = c then v else b.cell r2 c2 := by
  unfold cell
  rw [data_put b r c v _ (by omega)]
  by_cases h : r2 = r ∧ c2 = c
  · obtain ⟨h1, h2⟩ := h
    subst h1 h2
    simp
  · have : ¬ r2 * 9 + c2 = r * 9 + c := by omega
    simp [h, this]

theorem ext_data (a b : Board) (h : ∀ j < 81, a.data.getD j 0 = b.data.getD j 0) : a = b := by
  cases a with
  | mk da ha =>
    cases b with
    | mk db hb =>
      have : da = db := by
        apply List.ext_getElem (by rw [ha, hb])
        intro n h1 h2
        have := h n (by rw [← ha]; exact h1)
        simpa [List.getD_eq_getElem?_getD, h1, h2] using this
      subst this
      rfl

theorem ext_cell (a b : Board) (h : ∀ r < 9, ∀ c < 9, a.cell r c = b.cell r c) : a = b := by
  apply ext_data
  intro j hj
  have := h (j / 9) (by omega) (j % 9) (by omega)
  unfold cell at this
  have e : j / 9 * 9 + j % 9 = j := by omega
  rwa [e] at this

theorem set_inRange (b : Board) (r c : Nat) (v : Int) (hr : r < 9) (hc : c < 9)
    (hv : 0 ≤ v ∧ v ≤ 9) : b.set r c v = (.ok (), b.put r c v) := by
  have h1 : ¬ ((r : Int) < 0 ∨ (r : Int) ≥ 9 ∨ (c : Int) < 0 ∨ (c : Int) ≥ 9) := by omega
  have h2 : ¬ (v < 0 ∨ v > 9) := by omega
  simp only [set, checkIdx, if_neg h1, if_neg h2, Int.toNat_ofNat]

theorem get_inRange (b : Board) (r c : Nat) (hr : r < 9) (hc : c < 9) :
    b.get r c = .ok (b.cell r c) := by
  have h1 : ¬ ((r : Int) < 0 ∨ (r : Int) ≥ 9 ∨ (c : Int) < 0 ∨ (c : Int) ≥ 9) := by omega
  simp only [get, checkIdx, if_neg h1, Int.toNat_ofNat]

theorem inRange_cell (b : Board) (h : b.InRange) (r c : Nat) (hr : r < 9) (hc : c < 9) :
    0 ≤ b.cell r c ∧ b.cell r c ≤ 9 := by
  have hlen := b.size_eq
  have hi : r * 9 + c < b.data.length := by omega
  have : b.cell r c = b.data[r * 9 + c] := by
    simp [cell, List.getD_eq_getElem?_getD, hi]
  rw [this]
  exact h _ (List.getElem_mem hi)

theorem inRange_of_cell (b : Board) (h : ∀ r < 9, ∀ c < 9, 0 ≤ b.cell r c ∧ b.cell r c ≤ 9) :
    b.InRange := by
  intro v hv
  obtain ⟨i, hi, rfl⟩ := List.getElem_of_mem hv
  have hlen := b.size_eq
  have := h (i / 9) (by omega) (i % 9) (by omega)
  have e : i / 9 * 9 + i % 9 = i := by omega
  simpa [cell, e, List.getD_eq_getElem?_getD, hi] using this

end Board

/-! ## Parsing the flat encoding -/

namespace Board

theorem fromStringLoop_spec (s : List Char) : ∀ (n i : Nat) (b : Board) (k : Nat),
    i + n ≤ 81 → i ≤ k → k ≤ i + n →
    (∀ j, i ≤ j → j < k → LegalChar (s.getD j ' ')) →
    (k < i + n → ¬ LegalChar (s.getD k ' ')) →
    (fromStringLoop s n i b).1 = (if k = i + n then .ok () else .error .invalidArgument) ∧
    ∀ j, (fromStringLoop s n i b).2.data.getD j 0 =
      if i ≤ j ∧ j < k then charValue (s.getD j ' ') else b.data.getD j 0 := by
  intro n
  induction n with
  | zero =>
    intro i b k _ hik hk _ _
    have : k = i := by omega
    subst this
    refine ⟨by simp [fromStringLoop], ?_⟩
    intro j
    have : ¬ (k ≤ j ∧ j < k) := by omega
    simp [fromStringLoop, this]
  | succ n ih =>
    intro i b k hin hik hk hlegal hbad
    have hidx : i / 9 * 9 + i % 9 = i := by omega
    by_cases hki : k = i
    · subst hki
      have hb := hbad (by omega)
      have h1 : ¬ (s.getD k ' ' = '.' ∨ s.getD k ' ' = '0') := by
        intro h
        apply hb
        rcases h with h | h
        · exact Or.inl h
        · exact Or.inr (Or.inl h)
      have h2 : ¬ ('1' ≤ s.getD k ' ' ∧ s.getD k ' ' ≤ '9') := fun h => hb (Or.inr (Or.inr h))
      have h3 : ¬ k = k + (n + 1) := by omega
      refine ⟨by simp only [fromStringLoop, if_neg h1, if_neg h2, if_neg h3], ?_⟩
      intro j
      have : ¬ (k ≤ j ∧ j < k) := by omega
      simp only [fromStringLoop, if_neg h1, if_neg h2, if_neg this]
    · have hl := hlegal i (le_refl _) (by omega)
      have hrec : ∀ v : Int, charValue (s.getD i ' ') = v →
          (fromStringLoop s n (i + 1) (b.put (i / 9) (i % 9) v)).1 =
            (if k = i + (n + 1) then .ok () else .error .invalidArgument) ∧
          ∀ j, (fromStringLoop s n (i + 1) (b.put (i / 9) (i % 9) v)).2.data.getD j 0 =
            if i ≤ j ∧ j < k then charValue (s.getD j ' ') else b.data.getD j 0 := by
        intro v hv
        obtain ⟨e1, e2⟩ := ih (i + 1) (b.put (i / 9) (i % 9) v) k (by omega) (by omega)
          (by omega) (fun j h1 h2 => hlegal j (by omega) h2) (fun h => hbad (by omega))
        refine ⟨?_, ?_⟩
        · rw [e1]
          have : (k = i + 1 + n) ↔ (k = i + (n + 1)) := by omega
          simp only [this]
        · intro j
          rw [e2 j, data_put b _ _ v j (by omega), hidx]
          by_cases hj : j = i
          · subst hj
            have a1 : ¬ (j + 1 ≤ j ∧ j < k) := by omega
            have a2 : j ≤ j ∧ j < k := by omega
            simp only [if_neg a1, if_pos a2, if_true, hv]
          · by_cases hj2 : i + 1 ≤ j ∧ j < k
            · have a2 : i ≤ j ∧ j < k := by omega
              simp only [if_pos hj2, if_pos a2]
            · have a2 : ¬ (i ≤ j ∧ j < k) := by omega
              simp only [if_neg hj2, if_neg a2, if_neg hj]
      by_cases h1 : s.getD i ' ' = '.' ∨ s.getD i ' ' = '0'
      · have := hrec 0 (by simp only [charValue, if_pos h1])
        simpa only [fromStringLoop, if_pos h1] using this
      · have h2 : '1' ≤ s.getD i ' ' ∧ s.getD i ' ' ≤ '9' := by
          rcases hl with h | h | h
          · exact absurd (Or.inl h) h1
          · exact absurd (Or.inr h) h1
          · exact h
        have := hrec ((s.getD i ' ').toNat - ('0'.toNat : Int))
          (by simp only [charValue, if_neg h1]; rfl)
        simpa only [fromStringLoop, if_neg h1, if_pos h2] using this

theorem legal_getD_of_mem (s : List Char) (h : ∀ ch ∈ s, LegalChar ch) (j : Nat)
    (hj : j < s.length) : LegalChar (s.getD j ' ') := by
  have : s.getD j ' ' = s[j] := List.getD_eq_getElem _ _ hj
  rw [this]
  exact h _ (List.getElem_mem hj)

/-- The index of the first character outside the alphabet, or the length when there is none. -/
theorem exists_first_illegal (s : List Char) (n : Nat) :
    ∃ k, k ≤ n ∧ (∀ j, j < k → LegalChar (s.getD j ' ')) ∧
      (k < n → ¬ LegalChar (s.getD k ' ')) := by
  induction n with
  | zero => exact ⟨0, le_refl _, fun j hj => absurd hj (by omega), fun h => absurd h (by omega)⟩
  | succ n ih =>
    obtain ⟨k, hk, h1, h2⟩ := ih
    by_cases hkn : k < n
    · exact ⟨k, by omega, h1, fun _ => h2 hkn⟩
    · have hkn2 : k = n := by omega
      subst hkn2
      by_cases hl : LegalChar (s.getD k ' ')
      · refine ⟨k + 1, le_refl _, ?_, fun h => absurd h (by omega)⟩
        intro j hj
        by_cases hjk : j < k
        · exact h1 j hjk
        · have : j = k := by omega
          subst this
          exact hl
      · exact ⟨k, by omega, h1, fun _ => hl⟩

theorem fromString_of_first_illegal (b : Board) (s : String) (k : Nat) (hlen : s.length = 81)
    (hk : k ≤ 81) (h1 : ∀ j, j < k → LegalChar (s.data.getD j ' '))
    (h2 : k < 81 → ¬ LegalChar (s.data.getD k ' ')) :
    (b.fromString s).1 = (if k = 81 then .ok () else .error .invalidArgument) ∧
    ∀ j, (b.fromString s).2.data.getD j 0 =
      if j < k then charValue (s.data.getD j ' ') else b.data.getD j 0 := by
  have hne : ¬ s.length ≠ 81 := by simp [hlen]
  obtain ⟨e1, e2⟩ := fromStringLoop_spec s.data 81 0 b k (by omega) (by omega) (by omega)
    (fun j _ hj => h1 j hj) (fun h => h2 (by omega))
  simp only [fromString, if_neg hne]
  refine ⟨by simpa using e1, ?_⟩
  intro j
  rw [e2 j]
  simp

theorem fromString_valid (b : Board) (s : String) (h : ValidEncoding s) :
    (b.fromString s).1 = .ok () ∧
    ∀ j < 81, (b.fromString s).2.data.getD j 0 = charValue (s.data.getD j ' ') := by
  obtain ⟨hlen, hleg⟩ := h
  have hlen2 : s.data.length = 81 := hlen
  obtain ⟨e1, e2⟩ := fromString_of_first_illegal b s 81 hlen (le_refl _)
    (fun j hj => legal_getD_of_mem s.data hleg j (by omega)) (fun h => absurd h (by omega))
  refine ⟨by simpa using e1, ?_⟩
  intro j hj
  rw [e2 j, if_pos hj]

theorem fromString_error_iff (b : Board) (s : String) :
    (b.fromString s).1 = .error .invalidArgument ↔
      (s.length ≠ 81 ∨ ∃ ch ∈ s.data, ¬ LegalChar ch) := by
  by_cases hlen : s.length = 81
  · have hlen2 : s.data.length = 81 := hlen
    obtain ⟨k, hk, h1, h2⟩ := exists_first_illegal s.data 81
    obtain ⟨e1, _⟩ := fromString_of_first_illegal b s k hlen hk h1 h2
    rw [e1]
    constructor
    · intro h
      have hk2 : k < 81 := by
        by_contra hc
        have : k = 81 := by omega
        simp [this] at h
      refine Or.inr ⟨s.data.getD k ' ', ?_, h2 hk2⟩
      have : s.data.getD k ' ' = s.data[k] := List.getD_eq_getElem _ _ (by omega)
      rw [this]
      exact List.getElem_mem _
    · rintro (h | ⟨ch, hmem, hbad⟩)
      · exact absurd hlen h
      · have hk2 : k ≠ 81 := by
          intro hk3
          subst hk3
          obtain ⟨i, hi, rfl⟩ := List.getElem_of_mem hmem
          apply hbad
          have := h1 i (by omega)
          have e : s.data.getD i ' ' = s.data[i] := List.getD_eq_getElem _ _ hi
          rwa [e] at this
        simp [hk2]
  · have : s.length ≠ 81 := hlen
    simp [fromString, this]

theorem fromString_outcome (b : Board) (s : String) :
    (b.fromString s).1 = .ok () ∨ (b.fromString s).1 = .error .invalidArgument := by
  by_cases hlen : s.length = 81
  · obtain ⟨k, hk, h1, h2⟩ := exists_first_illegal s.data 81
    obtain ⟨e1, _⟩ := fromString_of_first_illegal b s k hlen hk h1 h2
    rw [e1]
    by_cases hk2 : k = 81
    · simp [hk2]
    · simp [hk2]
  · have : s.length ≠ 81 := hlen
    simp [fromString, this]

end Board

/-! ## Rendering -/

namespace Board

theorem flatMap_congr_mem {α β : Type} (l : List α) (f g : α → List β)
    (h : ∀ a ∈ l, f a = g a) : l.flatMap f = l.flatMap g := by
  induction l with
  | nil => rfl
  | cons a l ih =>
    rw [List.flatMap_cons, List.flatMap_cons, h a (List.mem_cons_self a l),
      ih (fun x hx => h x (List.mem_cons_of_mem a hx))]

theorem filter_frame_cell (c : Nat) (x : Char) (hx : x ∉ frameChars) :
    List.filter (fun ch => decide (ch ∉ frameChars))
      ((if c % 3 = 0 then "| ".data else []) ++ [x, ' ']) = [x] := by
  have h1 : List.filter (fun ch => decide (ch ∉ frameChars)) "| ".data = [] := by decide
  have h2 : List.filter (fun ch => decide (ch ∉ frameChars)) [x, ' '] = [x] := by
    have : decide (' ' ∉ frameChars) = false := by decide
    simp only [List.filter_cons, hx, this, not_false_eq_true, decide_True, if_true,
      List.filter_nil]
    simp
  rw [List.filter_append, h2]
  split
  · rw [h1]; rfl
  · rfl

theorem filter_frame_renderRow (b : Board) (r : Nat)
    (h : ∀ c < 9, cellChar (b.cell r c) ∉ frameChars) :
    List.filter (fun ch => decide (ch ∉ frameChars)) (renderRow b r) =
      (List.range 9).map fun c => cellChar (b.cell r c) := by
  have h1 : List.filter (fun ch => decide (ch ∉ frameChars)) "|\n".data = [] := by decide
  unfold renderRow
  rw [List.filter_append, List.filter_flatMap, h1, List.append_nil,
    flatMap_congr_mem (List.range 9) _ (fun c => [cellChar (b.cell r c)])
      (fun c hc => filter_frame_cell c _ (h c (List.mem_range.mp hc)))]
  rfl

theorem stripFrame_toString (b : Board)
    (h : ∀ r < 9, ∀ c < 9, cellChar (b.cell r c) ∉ frameChars) :
    (stripFrame b.toString).data = (List.range 81).map fun i => cellChar (b.data.getD i 0) := by
  have h1 : List.filter (fun ch => decide (ch ∉ frameChars)) separator = [] := by decide
  have hrow : ∀ r ∈ List.range 9,
      List.filter (fun ch => decide (ch ∉ frameChars))
        ((if r % 3 = 0 then separator else []) ++ renderRow b r) =
      (List.range 9).map fun c => cellChar (b.data.getD (r * 9 + c) 0) := by
    intro r hr
    rw [List.filter_append, filter_frame_renderRow b r (h r (List.mem_range.mp hr))]
    split
    · rw [h1]; rfl
    · rfl
  unfold stripFrame toString
  simp only []
  rw [List.filter_append, List.filter_flatMap, h1, List.append_nil,
    flatMap_congr_mem (List.range 9) _ _ hrow]
  rfl

theorem legalChar_iff_mem (ch : Char) :
    LegalChar ch ↔ ch ∈ ['.', '0', '1', '2', '3', '4', '5', '6', '7', '8', '9'] := by
  constructor
  · rintro (h | h | ⟨h1, h2⟩)
    · subst h; decide
    · subst h; decide
    · have a1 : 49 ≤ ch.toNat := h1
      have a2 : ch.toNat ≤ 57 := h2
      have e : ch = Char.ofNat ch.toNat := (Char.ofNat_toNat ch).symm
      generalize ch.toNat = n at a1 a2 e
      subst e
      interval_cases n <;> decide
  · intro h
    simp only [List.mem_cons, List.mem_singleton, List.not_mem_nil, or_false] at h
    rcases h with h | h | h | h | h | h | h | h | h | h | h <;> subst h <;> decide

theorem cellChar_charValue (ch : Char) (h : LegalChar ch) :
    cellChar (charValue ch) = (if ch = '0' then '.' else ch) ∧
      cellChar (charValue ch) ∉ frameChars := by
  rw [legalChar_iff_mem] at h
  simp only [List.mem_cons, List.mem_singleton, List.not_mem_nil, or_false] at h
  rcases h with h | h | h | h | h | h | h | h | h | h | h <;> subst h <;> decide

theorem charValue_range (ch : Char) (h : LegalChar ch) :
    0 ≤ charValue ch ∧ charValue ch ≤ 9 := by
  rw [legalChar_iff_mem] at h
  simp only [List.mem_cons, List.mem_singleton, List.not_mem_nil, or_false] at h
  rcases h with h | h | h | h | h | h | h | h | h | h | h <;> subst h <;> decide

theorem stripFrame_fromString (b : Board) (s : String) (h : ValidEncoding s) :
    stripFrame (b.fromString s).2.toString = dotted s := by
  obtain ⟨_, hdata⟩ := fromString_valid b s h
  obtain ⟨hlen, hleg⟩ := h
  have hlen2 : s.data.length = 81 := hlen
  have hcell : ∀ r < 9, ∀ c < 9,
      cellChar ((b.fromString s).2.cell r c) ∉ frameChars := by
    intro r hr c hc
    unfold cell
    rw [hdata _ (by omega)]
    exact (cellChar_charValue _ (legal_getD_of_mem s.data hleg _ (by omega))).2
  have e := stripFrame_toString (b.fromString s).2 hcell
  have e2 : (dotted s).data =
      (List.range 81).map fun i => cellChar ((b.fromString s).2.data.getD i 0) := by
    apply List.ext_getElem
    · simp [dotted, hlen2]
    · intro n h1 h2
      have hn : n < 81 := by simpa [dotted, hlen2] using h1
      have hn2 : n < s.data.length := by omega
      simp only [dotted, List.getElem_map, List.getElem_range]
      rw [hdata n hn, (cellChar_charValue _ (legal_getD_of_mem s.data hleg n hn2)).1,
        List.getD_eq_getElem _ _ hn2]
  have : (stripFrame (b.fromString s).2.toString).data = (dotted s).data := by rw [e, e2]
  exact String.ext this

theorem dotted_eq_self (s : String) (h : ∀ ch ∈ s.data, ch ≠ '0') : dotted s = s := by
  apply String.ext
  unfold dotted
  simp only []
  conv_rhs => rw [← List.map_id s.data]
  apply List.map_congr_left
  intro ch hch
  simp [h ch hch]

end Board

/-! ## The validity check -/

namespace Board

theorem seen_getD_set (seen : List Bool) (i j : Nat) (hi : i < seen.length) :
    (seen.set i true).getD j false = if j = i then true else seen.getD j false := by
  simp only [List.getD_eq_getElem?_getD, List.getElem?_set]
  by_cases h : i = j
  · subst h
    simp [hi]
  · have h2 : ¬ j = i := fun e => h e.symm
    simp [h, h2]

theorem scanUnit_range (vs : List Int) : ∀ seen : List Bool,
    scanUnit true vs seen = true → ∀ v ∈ vs, 0 ≤ v ∧ v ≤ 9 := by
  induction vs with
  | nil => intro _ _ v hv; cases hv
  | cons a vs ih =>
    intro seen h v hv
    unfold scanUnit at h
    by_cases ha : a = 0
    · rw [if_pos ha] at h
      rcases List.mem_cons.mp hv with e | e
      · subst e; omega
      · exact ih seen h v e
    · rw [if_neg ha] at h
      by_cases hr : a < 1 ∨ a > 9
      · have : (true && (decide (a < 1) || decide (a > 9))) = true := by simpa using hr
        rw [if_pos this] at h
        cases h
      · have : ¬ (true && (decide (a < 1) || decide (a > 9))) = true := by simpa using hr
        rw [if_neg this] at h
        by_cases hs : seen.getD a.toNat false = true
        · rw [if_pos hs] at h; cases h
        · rw [if_neg hs] at h
          rcases List.mem_cons.mp hv with e | e
          · subst e; omega
          · exact ih _ h v e

theorem scanUnit_iff (ck : Bool) (vs : List Int) : ∀ seen : List Bool, seen.length = 10 →
    (∀ v ∈ vs, 0 ≤ v ∧ v ≤ 9) →
    (scanUnit ck vs seen = true ↔
      vs.Pairwise Differ ∧ ∀ v ∈ vs, v ≠ 0 → seen.getD v.toNat false = false) := by
  induction vs with
  | nil => intro seen _ _; simp [scanUnit]
  | cons a vs ih =>
    intro seen hlen hrange
    have hra := hrange a (List.mem_cons_self a vs)
    have hrvs : ∀ v ∈ vs, 0 ≤ v ∧ v ≤ 9 := fun v hv => hrange v (List.mem_cons_of_mem a hv)
    unfold scanUnit
    rw [List.pairwise_cons]
    by_cases ha : a = 0
    · rw [if_pos ha, ih seen hlen hrvs]
      subst ha
      constructor
      · rintro ⟨h1, h2⟩
        refine ⟨⟨fun w _ h0 => absurd rfl h0, h1⟩, ?_⟩
        intro v hv hv0
        rcases List.mem_cons.mp hv with e | e
        · exact absurd e hv0
        · exact h2 v e hv0
      · rintro ⟨⟨_, h1⟩, h2⟩
        exact ⟨h1, fun v hv hv0 => h2 v (List.mem_cons_of_mem 0 hv) hv0⟩
    · rw [if_neg ha]
      have hck : ¬ (ck && (decide (a < 1) || decide (a > 9))) = true := by
        have h1 : ¬ a < 1 := by omega
        have h2 : ¬ a > 9 := by omega
        simp [h1, h2]
      rw [if_neg hck]
      by_cases hs : seen.getD a.toNat false = true
      · rw [if_pos hs]
        constructor
        · intro h; cases h
        · rintro ⟨_, h2⟩
          have := h2 a (List.mem_cons_self a vs) ha
          rw [hs] at this
          cases this
      · rw [if_neg hs, ih (seen.set a.toNat true) (by simpa using hlen) hrvs]
        have hs2 : seen.getD a.toNat false = false := by simpa using hs
        have hset : ∀ w : Int, 0 ≤ w → (seen.set a.toNat true).getD w.toNat false =
            if w = a then true else seen.getD w.toNat false := by
          intro w hw
          rw [seen_getD_set seen a.toNat w.toNat (by omega)]
          have : (w.toNat = a.toNat) ↔ (w = a) := by omega
          simp only [this]
        constructor
        · rintro ⟨h1, h2⟩
          refine ⟨⟨?_, h1⟩, ?_⟩
          · intro w hw _ e
            have hw0 : w ≠ 0 := by rw [← e]; exact ha
            have := h2 w hw hw0
            rw [hset w (hrvs w hw).1, if_pos e.symm] at this
            cases this
          · intro v hv hv0
            rcases List.mem_cons.mp hv with e | e
            · rw [e]; exact hs2
            · have := h2 v e hv0
              rw [hset v (hrvs v e).1] at this
              by_cases hva : v = a
              · rw [if_pos hva] at this; cases this
              · rwa [if_neg hva] at this
        · rintro ⟨⟨h0, h1⟩, h2⟩
          refine ⟨h1, ?_⟩
          intro v hv hv0
          rw [hset v (hrvs v hv).1]
          have hva : ¬ v = a := fun e => h0 v hv ha e.symm
          rw [if_neg hva]
          exact h2 v (List.mem_cons_of_mem a hv) hv0

theorem replicate_getD (n i : Nat) : (List.replicate n false).getD i false = false := by
  simp only [List.getD_eq_getElem?_getD, List.getElem?_replicate]
  split <;> rfl

theorem pairwise_map_range (f : Nat → Int) (n : Nat) :
    ((List.range n).map f).Pairwise Differ ↔
      ∀ i < n, ∀ j < n, i ≠ j → f i ≠ 0 → f i ≠ f j := by
  rw [List.pairwise_map, List.pairwise_iff_getElem]
  simp only [List.length_range, List.getElem_range]
  constructor
  · intro h i hi j hj hij h0 e
    rcases Nat.lt_or_gt_of_ne hij with hlt | hgt
    · exact h i j hi hj hlt h0 e
    · exact h j i hj hi hgt (by rw [← e]; exact h0) e.symm
  · intro h i j hi hj hij h0
    exact h i hi j hj (by omega) h0

/-- The scan of the values `f 0, ..., f 8` of one unit from a fresh `seen` array. -/
theorem scanUnit_unit (ck : Bool) (f : Nat → Int) (hf : ∀ i < 9, 0 ≤ f i ∧ f i ≤ 9) :
    scanUnit ck ((List.range 9).map f) (List.replicate 10 false) = true ↔
      ∀ i < 9, ∀ j < 9, i ≠ j → f i ≠ 0 → f i ≠ f j := by
  have hr : ∀ v ∈ (List.range 9).map f, 0 ≤ v ∧ v ≤ 9 := by
    intro v hv
    obtain ⟨i, hi, rfl⟩ := List.mem_map.mp hv
    exact hf i (List.mem_range.mp hi)
  rw [scanUnit_iff ck _ _ (by simp) hr, pairwise_map_range]
  constructor
  · exact fun h => h.1
  · exact fun h => ⟨h, fun v _ _ => replicate_getD 10 _⟩

theorem blockVals_eq (b : Board) (br bc : Nat) :
    b.blockVals br bc =
      (List.range 9).map fun k => b.cell (br * 3 + k / 3) (bc * 3 + k % 3) := by
  have h : ∀ i j, b.data.getD (blockOffset br bc i j) 0 = b.cell (br * 3 + i) (bc * 3 + j) := by
    intro i j
    unfold cell blockOffset
    congr 1
    omega
  unfold blockVals
  simp only [h]
  rfl

theorem all_range_iff (n : Nat) (p : Nat → Bool) :
    (List.range n).all p = true ↔ ∀ i < n, p i = true := by
  simp [List.all_eq_true]

theorem isValid_inRange (b : Board) (h : b.isValid = true) : b.InRange := by
  unfold isValid at h
  simp only [Bool.and_eq_true] at h
  have hrows := (all_range_iff 9 _).mp h.1.1
  apply inRange_of_cell
  intro r hr c hc
  apply scanUnit_range _ _ (hrows r hr)
  exact List.mem_map.mpr ⟨c, List.mem_range.mpr hc, rfl⟩

theorem isValid_iff (b : Board) (h : b.InRange) : b.isValid = true ↔ b.NoDuplicates := by
  have hc := inRange_cell b h
  unfold isValid NoDuplicates
  simp only [Bool.and_eq_true, all_range_iff]
  have hrow : (∀ r < 9, scanUnit true (b.rowVals r) (List.replicate 10 false) = true) ↔
      b.RowsDistinct := by
    unfold RowsDistinct
    constructor
    · intro hs r hr
      exact (scanUnit_unit true (fun c => b.cell r c) (fun i hi => hc r i hr hi)).mp (hs r hr)
    · intro hs r hr
      exact (scanUnit_unit true (fun c => b.cell r c) (fun i hi => hc r i hr hi)).mpr (hs r hr)
  have hcol : (∀ c < 9, scanUnit false (b.colVals c) (List.replicate 10 false) = true) ↔
      b.ColsDistinct := by
    unfold ColsDistinct
    constructor
    · intro hs c hcc
      exact (scanUnit_unit false (fun r => b.cell r c) (fun i hi => hc i c hi hcc)).mp (hs c hcc)
    · intro hs c hcc
      exact (scanUnit_unit false (fun r => b.cell r c) (fun i hi => hc i c hi hcc)).mpr (hs c hcc)
  have hblock : (∀ br < 3, ∀ bc < 3,
      scanUnit false (b.blockVals br bc) (List.replicate 10 false) = true) ↔
      b.BlocksDistinct := by
    have hunit : ∀ br < 3, ∀ bc < 3,
        (scanUnit false (b.blockVals br bc) (List.replicate 10 false) = true ↔
          ∀ i < 9, ∀ j < 9, i ≠ j → b.cell (br * 3 + i / 3) (bc * 3 + i % 3) ≠ 0 →
            b.cell (br * 3 + i / 3) (bc * 3 + i % 3) ≠
              b.cell (br * 3 + j / 3) (bc * 3 + j % 3)) := by
      intro br hbr bc hbc
      rw [blockVals_eq]
      exact scanUnit_unit false (fun k => b.cell (br * 3 + k / 3) (bc * 3 + k % 3))
        (fun i hi => hc _ _ (by omega) (by omega))
    unfold BlocksDistinct
    constructor
    · intro hs r₁ hr₁ c₁ hc₁ r₂ hr₂ c₂ hc₂ er ec hne h0
      have := (hunit (r₁ / 3) (by omega) (c₁ / 3) (by omega)).mp
        (hs (r₁ / 3) (by omega) (c₁ / 3) (by omega))
        (r₁ % 3 * 3 + c₁ % 3) (by omega) (r₂ % 3 * 3 + c₂ % 3) (by omega) (by omega)
      have e1 : r₁ / 3 * 3 + (r₁ % 3 * 3 + c₁ % 3) / 3 = r₁ := by omega
      have e2 : c₁ / 3 * 3 + (r₁ % 3 * 3 + c₁ % 3) % 3 = c₁ := by omega
      have e3 : r₁ / 3 * 3 + (r₂ % 3 * 3 + c₂ % 3) / 3 = r₂ := by omega
      have e4 : c₁ / 3 * 3 + (r₂ % 3 * 3 + c₂ % 3) % 3 = c₂ := by omega
      rw [e1, e2, e3, e4] at this
      exact this h0
    · intro hs br hbr bc hbc
      rw [hunit br hbr bc hbc]
      intro i hi j hj hij h0
      exact hs _ (by omega) _ (by omega) _ (by omega) _ (by omega) (by omega) (by omega)
        (by omega) h0
  rw [hrow, hcol, hblock, and_assoc]

end Board

/-! ## Candidate masks -/

namespace Solver

open Board

theorem markSeen_length (vs : List Int) : ∀ seen : List Bool,
    (markSeen vs seen).length = seen.length := by
  induction vs with
  | nil => intro seen; rfl
  | cons a vs ih =>
    intro seen
    unfold markSeen
    split
    · rw [ih]; simp
    · exact ih seen

theorem markSeen_getD (vs : List Int) : ∀ seen : List Bool, seen.length = 10 →
    (∀ v ∈ vs, 0 ≤ v ∧ v ≤ 9) → ∀ k : Nat,
    ((markSeen vs seen).getD k false = true ↔
      (seen.getD k false = true ∨ (k ≠ 0 ∧ (k : Int) ∈ vs))) := by
  induction vs with
  | nil => intro seen _ _ k; simp [markSeen]
  | cons a vs ih =>
    intro seen hlen hrange k
    have hra := hrange a (List.mem_cons_self a vs)
    have hrvs : ∀ v ∈ vs, 0 ≤ v ∧ v ≤ 9 := fun v hv => hrange v (List.mem_cons_of_mem a hv)
    unfold markSeen
    by_cases ha : a = 0
    · have : ¬ a ≠ 0 := by simpa using ha
      rw [if_neg this, ih seen hlen hrvs k]
      subst ha
      constructor
      · rintro (h | ⟨h0, h⟩)
        · exact Or.inl h
        · exact Or.inr ⟨h0, List.mem_cons_of_mem 0 h⟩
      · rintro (h | ⟨h0, h⟩)
        · exact Or.inl h
        · rcases List.mem_cons.mp h with e | e
          · exact absurd (by exact_mod_cast e) h0
          · exact Or.inr ⟨h0, e⟩
    · rw [if_pos ha, ih (seen.set a.toNat true) (by simpa using hlen) hrvs k,
        seen_getD_set seen a.toNat k (by omega)]
      have hka : (k = a.toNat) ↔ ((k : Int) = a) := by omega
      constructor
      · rintro (h | ⟨h0, h⟩)
        · by_cases e : k = a.toNat
          · refine Or.inr ⟨by omega, ?_⟩
            rw [hka.mp e]
            exact List.mem_cons_self a vs
          · rw [if_neg e] at h
            exact Or.inl h
        · exact Or.inr ⟨h0, List.mem_cons_of_mem a h⟩
      · rintro (h | ⟨h0, h⟩)
        · by_cases e : k = a.toNat
          · rw [if_pos e]; exact Or.inl rfl
          · rw [if_neg e]; exact Or.inl h
        · rcases List.mem_cons.mp h with e | e
          · rw [if_pos (hka.mpr e)]; exact Or.inl rfl
          · exact Or.inr ⟨h0, e⟩

theorem maskLoop_testBit (seen : List Bool) (vs : List Nat) : ∀ (m : Mask) (k : Nat),
    ((maskLoop seen vs m).testBit k = true ↔
      (m.testBit k = true ∨ (k ∈ vs ∧ seen.getD k false = false))) := by
  induction vs with
  | nil => intro m k; simp [maskLoop]
  | cons a vs ih =>
    intro m k
    unfold maskLoop
    by_cases hs : seen.getD a false = true
    · have : ¬ (!seen.getD a false) = true := by rw [hs]; decide
      rw [if_neg this, ih m k]
      constructor
      · rintro (h | ⟨h1, h2⟩)
        · exact Or.inl h
        · exact Or.inr ⟨List.mem_cons_of_mem a h1, h2⟩
      · rintro (h | ⟨h1, h2⟩)
        · exact Or.inl h
        · rcases List.mem_cons.mp h1 with e | e
          · subst e; rw [hs] at h2; cases h2
          · exact Or.inr ⟨e, h2⟩
    · have hs2 : seen.getD a false = false := Bool.eq_false_iff.mpr hs
      have : (!seen.getD a false) = true := by rw [hs2]; rfl
      rw [if_pos this, ih (m ||| (1 <<< a)) k, Nat.testBit_lor, Nat.one_shiftLeft,
        Nat.testBit_two_pow]
      simp only [Bool.or_eq_true, decide_eq_true_eq]
      constructor
      · rintro ((h | h) | ⟨h1, h2⟩)
        · exact Or.inl h
        · subst h; exact Or.inr ⟨List.mem_cons_self a vs, hs2⟩
        · exact Or.inr ⟨List.mem_cons_of_mem a h1, h2⟩
      · rintro (h | ⟨h1, h2⟩)
        · exact Or.inl (Or.inl h)
        · rcases List.mem_cons.mp h1 with e | e
          · exact Or.inl (Or.inr e.symm)
          · exact Or.inr ⟨e, h2⟩

theorem rowVals_range (b : Board) (h : b.InRange) (r : Nat) (hr : r < 9) :
    ∀ v ∈ b.rowVals r, 0 ≤ v ∧ v ≤ 9 := by
  intro v hv
  obtain ⟨c, hc, rfl⟩ := List.mem_map.mp hv
  exact inRange_cell b h r c hr (List.mem_range.mp hc)

theorem colVals_range (b : Board) (h : b.InRange) (c : Nat) (hc : c < 9) :
    ∀ v ∈ b.colVals c, 0 ≤ v ∧ v ≤ 9 := by
  intro v hv
  obtain ⟨r, hr, rfl⟩ := List.mem_map.mp hv
  exact inRange_cell b h r c (List.mem_range.mp hr) hc

theorem blockVals_range (b : Board) (h : b.InRange) (br bc : Nat) (hbr : br < 3) (hbc : bc < 3) :
    ∀ v ∈ b.blockVals br bc, 0 ≤ v ∧ v ≤ 9 := by
  intro v hv
  rw [blockVals_eq] at hv
  obtain ⟨k, hk, rfl⟩ := List.mem_map.mp hv
  have := List.mem_range.mp hk
  exact inRange_cell b h _ _ (by omega) (by omega)

/-- Bit `k` of the mask of an empty cell: set exactly for the digits `1..9` that occur neither in
the row, nor in the column, nor in the block of the cell. -/
theorem candidatesFor_testBit (b : Board) (h : b.InRange) (r c : Nat) (hr : r < 9) (hc : c < 9)
    (he : b.cell r c = 0) (k : Nat) :
    (candidatesFor b r c).testBit k = true ↔
      (1 ≤ k ∧ k ≤ 9 ∧ (k : Int) ∉ b.rowVals r ∧ (k : Int) ∉ b.colVals c ∧
        (k : Int) ∉ b.blockVals (r / 3) (c / 3)) := by
  have hne : ¬ b.cell r c ≠ 0 := by simpa using he
  unfold candidatesFor
  rw [if_neg hne]
  simp only []
  rw [maskLoop_testBit]
  have hl1 := markSeen_length (b.rowVals r) (List.replicate 10 false)
  have hl2 := markSeen_length (b.colVals c) (markSeen (b.rowVals r) (List.replicate 10 false))
  have h3 := markSeen_getD (b.blockVals (r / 3) (c / 3)) _ (by rw [hl2, hl1]; simp)
    (blockVals_range b h _ _ (by omega) (by omega)) k
  have h2 := markSeen_getD (b.colVals c) _ (by rw [hl1]; simp) (colVals_range b h c hc) k
  have h1 := markSeen_getD (b.rowVals r) (List.replicate 10 false) (by simp)
    (rowVals_range b h r hr) k
  rw [replicate_getD] at h1
  have hmem : k ∈ [1, 2, 3, 4, 5, 6, 7, 8, 9] ↔ (1 ≤ k ∧ k ≤ 9) := by
    simp only [List.mem_cons, List.mem_singleton, List.not_mem_nil, or_false]
    omega
  rw [hmem, Nat.zero_testBit]
  constructor
  · rintro (h0 | ⟨⟨hk1, hk9⟩, hs⟩)
    · cases h0
    · have hs3 : ¬ _ := fun hh => by rw [h3.mpr hh] at hs; cases hs
      have hs2 : ¬ _ := fun hh => hs3 (Or.inl (h2.mpr hh))
      have hs1 : ¬ _ := fun hh => hs2 (Or.inl (h1.mpr hh))
      have hk0 : k ≠ 0 := by omega
      exact ⟨hk1, hk9, fun hh => hs1 (Or.inr ⟨hk0, hh⟩), fun hh => hs2 (Or.inr ⟨hk0, hh⟩),
        fun hh => hs3 (Or.inr ⟨hk0, hh⟩)⟩
  · rintro ⟨hk1, hk9, n1, n2, n3⟩
    refine Or.inr ⟨⟨hk1, hk9⟩, ?_⟩
    have a1 : ¬ (markSeen (b.rowVals r) (List.replicate 10 false)).getD k false = true := by
      rw [h1]
      rintro (hh | ⟨_, hh⟩)
      · cases hh
      · exact n1 hh
    have a2 : ¬ (markSeen (b.colVals c)
        (markSeen (b.rowVals r) (List.replicate 10 false))).getD k false = true := by
      rw [h2]
      rintro (hh | ⟨_, hh⟩)
      · exact a1 hh
      · exact n2 hh
    have a3 : ¬ (markSeen (b.blockVals (r / 3) (c / 3)) (markSeen (b.colVals c)
        (markSeen (b.rowVals r) (List.replicate 10 false)))).getD k false = true := by
      rw [h3]
      rintro (hh | ⟨_, hh⟩)
      · exact a2 hh
      · exact n3 hh
    simpa using a3

theorem mask_test_iff (m : Mask) (v : Nat) : m &&& (1 <<< v) = 0 ↔ m.testBit v = false := by
  rw [Nat.one_shiftLeft]
  constructor
  · intro h
    have := congrArg (fun x => x.testBit v) h
    simpa [Nat.testBit_land, Nat.testBit_two_pow] using this
  · intro h
    apply Nat.eq_of_testBit_eq
    intro i
    rw [Nat.testBit_land, Nat.testBit_two_pow, Nat.zero_testBit]
    by_cases e : v = i
    · subst e; simp [h]
    · simp [e]

theorem popcount9_eq_zero_iff (m : Mask) : popcount9 m = 0 ↔ ∀ i < 32, m.testBit i = false := by
  unfold popcount9
  rw [List.length_eq_zero, List.filter_eq_nil_iff]
  simp [List.mem_range]

end Solver

/-! ## The choice of the next cell -/

namespace Solver

open Board

theorem popcount9_le (m : Mask) : popcount9 m ≤ 32 := by
  unfold popcount9
  have := List.length_filter_le (fun i => m.testBit i) (List.range 32)
  simpa using this

theorem mem_allCells (p : Nat × Nat) : p ∈ allCells ↔ p.1 < 9 ∧ p.2 < 9 := by
  unfold allCells
  simp only [List.mem_flatMap, List.mem_map, List.mem_range]
  constructor
  · rintro ⟨r, hr, c, hc, rfl⟩
    exact ⟨hr, hc⟩
  · rintro ⟨h1, h2⟩
    exact ⟨p.1, h1, p.2, h2, rfl⟩

theorem chooseLoop_some (b : Board) : ∀ (cells : List (Nat × Nat))
    (best : Option (Nat × Nat × Mask)) (n : Nat) (x : Nat × Nat × Mask),
    chooseLoop b cells best n = some x →
    best = some x ∨
      ∃ p ∈ cells, b.cell p.1 p.2 = 0 ∧ x = (p.1, p.2, candidatesFor b p.1 p.2) := by
  intro cells
  induction cells with
  | nil => intro best n x h; exact Or.inl h
  | cons p cells ih =>
    intro best n x h
    obtain ⟨r, c⟩ := p
    unfold chooseLoop at h
    have lift : ∀ best2 n2, chooseLoop b cells best2 n2 = some x →
        (best2 = some x ∨ ∃ p ∈ (r, c) :: cells, b.cell p.1 p.2 = 0 ∧
          x = (p.1, p.2, candidatesFor b p.1 p.2)) := by
      intro best2 n2 h2
      rcases ih best2 n2 x h2 with e | ⟨p, hp, hp2⟩
      · exact Or.inl e
      · exact Or.inr ⟨p, List.mem_cons_of_mem _ hp, hp2⟩
    by_cases h0 : b.cell r c ≠ 0
    · rw [if_pos h0] at h
      exact lift _ _ h
    · rw [if_neg h0] at h
      have h0' : b.cell r c = 0 := by simpa using h0
      simp only [] at h
      have here : ∃ p ∈ (r, c) :: cells, b.cell p.1 p.2 = 0 ∧
          (r, c, candidatesFor b r c) = (p.1, p.2, candidatesFor b p.1 p.2) :=
        ⟨(r, c), List.mem_cons_self _ _, h0', rfl⟩
      split at h
      · cases h
      · split at h
        · split at h
          · cases h
            exact Or.inr here
          · rcases lift _ _ h with e | e
            · cases e
              exact Or.inr here
            · exact Or.inr e
        · exact lift _ _ h

theorem chooseLoop_none (b : Board) : ∀ (cells : List (Nat × Nat))
    (best : Option (Nat × Nat × Mask)) (n : Nat), (best = none → 32 < n) →
    chooseLoop b cells best n = none →
    (best = none ∧ ∀ p ∈ cells, b.cell p.1 p.2 ≠ 0) ∨
      ∃ p ∈ cells, b.cell p.1 p.2 = 0 ∧ popcount9 (candidatesFor b p.1 p.2) = 0 := by
  intro cells
  induction cells with
  | nil =>
    intro best n _ h
    exact Or.inl ⟨h, fun p hp => by cases hp⟩
  | cons p cells ih =>
    intro best n hn h
    obtain ⟨r, c⟩ := p
    unfold chooseLoop at h
    have lift : (∃ p ∈ cells, b.cell p.1 p.2 = 0 ∧ popcount9 (candidatesFor b p.1 p.2) = 0) →
        ∃ p ∈ (r, c) :: cells, b.cell p.1 p.2 = 0 ∧
          popcount9 (candidatesFor b p.1 p.2) = 0 := by
      rintro ⟨p, hp, hp2⟩
      exact ⟨p, List.mem_cons_of_mem _ hp, hp2⟩
    by_cases h0 : b.cell r c ≠ 0
    · rw [if_pos h0] at h
      rcases ih best n hn h with ⟨e, hall⟩ | e
      · refine Or.inl ⟨e, ?_⟩
        intro p hp
        rcases List.mem_cons.mp hp with e2 | e2
        · subst e2; exact h0
        · exact hall p e2
      · exact Or.inr (lift e)
    · rw [if_neg h0] at h
      have h0' : b.cell r c = 0 := by simpa using h0
      simp only [] at h
      split at h
      · rename_i hcnt
        exact Or.inr ⟨(r, c), List.mem_cons_self _ _, h0', hcnt⟩
      · split at h
        · split at h
          · cases h
          · rcases ih _ _ (fun e => by cases e) h with ⟨e, _⟩ | e
            · cases e
            · exact Or.inr (lift e)
        · rename_i hcnt hlt
          have hle := popcount9_le (candidatesFor b r c)
          rcases ih best n hn h with ⟨e, _⟩ | e
          · have := hn e
            omega
          · exact Or.inr (lift e)

theorem chooseCellMRV_some (b : Board) (r c : Nat) (m : Mask)
    (h : chooseCellMRV b = some (r, c, m)) :
    r < 9 ∧ c < 9 ∧ b.cell r c = 0 ∧ m = candidatesFor b r c := by
  rcases chooseLoop_some b allCells none 100 _ h with e | ⟨p, hp, h0, e⟩
  · cases e
  · have := (mem_allCells p).mp hp
    cases e
    exact ⟨this.1, this.2, h0, rfl⟩

theorem chooseCellMRV_none (b : Board) (h : chooseCellMRV b = none) :
    (∀ r < 9, ∀ c < 9, b.cell r c ≠ 0) ∨
      ∃ r < 9, ∃ c < 9, b.cell r c = 0 ∧ popcount9 (candidatesFor b r c) = 0 := by
  rcases chooseLoop_none b allCells none 100 (fun _ => by omega) h with ⟨_, hall⟩ | ⟨p, hp, h0, e⟩
  · exact Or.inl fun r hr c hc => hall (r, c) ((mem_allCells _).mpr ⟨hr, hc⟩)
  · have := (mem_allCells p).mp hp
    exact Or.inr ⟨p.1, this.1, p.2, this.2, h0, e⟩

end Solver

/-! ## The backtracking search -/

namespace Solver

open Board

theorem isFilled_iff (b : Board) : b.isFilled = true ↔ ∀ r < 9, ∀ c < 9, b.cell r c ≠ 0 := by
  have hlen := b.size_eq
  unfold isFilled
  rw [List.all_eq_true]
  constructor
  · intro h r hr c hc
    have hi : r * 9 + c < b.data.length := by omega
    have := h _ (List.getElem_mem hi)
    unfold cell
    rw [List.getD_eq_getElem _ _ hi]
    simpa using this
  · intro h v hv
    obtain ⟨i, hi, rfl⟩ := List.getElem_of_mem hv
    have := h (i / 9) (by omega) (i % 9) (by omega)
    have e : i / 9 * 9 + i % 9 = i := by omega
    unfold cell at this
    rw [e, List.getD_eq_getElem _ _ hi] at this
    simpa using this

theorem put_put (b : Board) (r c : Nat) (v : Int) (hr : r < 9) (hc : c < 9)
    (he : b.cell r c = 0) : (b.put r c v).put r c 0 = b := by
  apply ext_cell
  intro r2 _ c2 hc2
  rw [cell_put _ r c 0 r2 c2 hr hc hc2, cell_put _ r c v r2 c2 hr hc hc2]
  by_cases h : r2 = r ∧ c2 = c
  · rw [if_pos h, h.1, h.2, he]
  · rw [if_neg h, if_neg h]

theorem emptyCount_put (b : Board) (r c : Nat) (v : Int) (hr : r < 9) (hc : c < 9)
    (he : b.cell r c = 0) (hv : v ≠ 0) : emptyCount (b.put r c v) + 1 = emptyCount b := by
  have hlen := b.size_eq
  have hi : r * 9 + c < b.data.length := by omega
  have h0 : b.data[r * 9 + c] = 0 := by
    unfold cell at he
    rwa [List.getD_eq_getElem _ _ hi] at he
  have hpos : 0 < b.data.count 0 := by
    apply List.count_pos_iff.mpr
    rw [← h0]
    exact List.getElem_mem hi
  unfold emptyCount put
  simp only []
  rw [List.count_set _ _ _ _ hi]
  have e1 : (if (b.data[r * 9 + c] == 0) = true then 1 else 0) = 1 := by simp [h0]
  have e2 : (if (v == 0) = true then 1 else 0) = 0 := by simp [hv]
  rw [e1, e2]
  omega

theorem emptyCount_le (b : Board) : emptyCount b ≤ 81 := by
  have := List.count_le_length 0 b.data
  rw [b.size_eq] at this
  exact this

theorem solution_cell (s b : Board) (h : IsSolutionOf s b) (r c : Nat) (hr : r < 9)
    (hc : c < 9) : 1 ≤ s.cell r c ∧ s.cell r c ≤ 9 := by
  have h1 := inRange_cell s (isValid_inRange s h.1) r c hr hc
  have h2 := (isFilled_iff s).mp h.2.1 r hr c hc
  omega

/-- A board that a filled valid grid extends is valid. -/
theorem solution_isValid (s b : Board) (h : IsSolutionOf s b) : b.isValid = true := by
  have hs := (isValid_iff s (isValid_inRange s h.1)).mp h.1
  have hag := h.2.2
  have hb : b.InRange := by
    apply inRange_of_cell
    intro r hr c hc
    by_cases h0 : b.cell r c = 0
    · omega
    · have := solution_cell s b h r c hr hc
      rw [← hag r hr c hc h0]
      omega
  have key : ∀ r₁ < 9, ∀ c₁ < 9, ∀ r₂ < 9, ∀ c₂ < 9, b.cell r₁ c₁ ≠ 0 →
      s.cell r₁ c₁ ≠ s.cell r₂ c₂ → b.cell r₁ c₁ ≠ b.cell r₂ c₂ := by
    intro r₁ hr₁ c₁ hc₁ r₂ hr₂ c₂ hc₂ h0 hne e
    have h0' : b.cell r₂ c₂ ≠ 0 := by rw [← e]; exact h0
    rw [← hag r₁ hr₁ c₁ hc₁ h0, ← hag r₂ hr₂ c₂ hc₂ h0'] at e
    exact hne e
  have hs0 : ∀ r < 9, ∀ c < 9, s.cell r c ≠ 0 := (isFilled_iff s).mp h.2.1
  rw [isValid_iff b hb]
  refine ⟨?_, ?_, ?_⟩
  · intro r hr c₁ hc₁ c₂ hc₂ hne h0
    exact key r hr c₁ hc₁ r hr c₂ hc₂ h0 (hs.1 r hr c₁ hc₁ c₂ hc₂ hne (hs0 r hr c₁ hc₁))
  · intro c hc r₁ hr₁ r₂ hr₂ hne h0
    exact key r₁ hr₁ c hc r₂ hr₂ c hc h0 (hs.2.1 c hc r₁ hr₁ r₂ hr₂ hne (hs0 r₁ hr₁ c hc))
  · intro r₁ hr₁ c₁ hc₁ r₂ hr₂ c₂ hc₂ er ec hne h0
    exact key r₁ hr₁ c₁ hc₁ r₂ hr₂ c₂ hc₂ h0
      (hs.2.2 r₁ hr₁ c₁ hc₁ r₂ hr₂ c₂ hc₂ er ec hne (hs0 r₁ hr₁ c₁ hc₁))

/-- The digit a solution has at an empty cell is in the candidate mask of the cell. -/
theorem solution_candidate (s b : Board) (h : IsSolutionOf s b) (r c : Nat) (hr : r < 9)
    (hc : c < 9) (he : b.cell r c = 0) :
    (candidatesFor b r c).testBit (s.cell r c).toNat = true := by
  have hb := isValid_inRange b (solution_isValid s b h)
  have hs := (isValid_iff s (isValid_inRange s h.1)).mp h.1
  have hag := h.2.2
  have hsc := solution_cell s b h r c hr hc
  have hcast : (((s.cell r c).toNat : Nat) : Int) = s.cell r c := by omega
  have key : ∀ r₂ < 9, ∀ c₂ < 9, s.cell r c ≠ s.cell r₂ c₂ → s.cell r c ≠ b.cell r₂ c₂ := by
    intro r₂ hr₂ c₂ hc₂ hne e
    have h0 : b.cell r₂ c₂ ≠ 0 := by rw [← e]; omega
    rw [← hag r₂ hr₂ c₂ hc₂ h0] at e
    exact hne e
  have hs0 : s.cell r c ≠ 0 := by omega
  rw [candidatesFor_testBit b hb r c hr hc he, hcast]
  refine ⟨by omega, by omega, ?_, ?_, ?_⟩
  · intro hmem
    obtain ⟨c₂, hc₂, e⟩ := List.mem_map.mp hmem
    have hc₂ := List.mem_range.mp hc₂
    have hne : c ≠ c₂ := by
      intro e2
      subst e2
      rw [he] at e
      exact hs0 e.symm
    exact key r hr c₂ hc₂ (hs.1 r hr c hc c₂ hc₂ hne hs0) e.symm
  · intro hmem
    obtain ⟨r₂, hr₂, e⟩ := List.mem_map.mp hmem
    have hr₂ := List.mem_range.mp hr₂
    have hne : r ≠ r₂ := by
      intro e2
      subst e2
      rw [he] at e
      exact hs0 e.symm
    exact key r₂ hr₂ c hc (hs.2.1 c hc r hr r₂ hr₂ hne hs0) e.symm
  · intro hmem
    rw [blockVals_eq] at hmem
    obtain ⟨k, hk, e⟩ := List.mem_map.mp hmem
    have hk := List.mem_range.mp hk
    have hne : r ≠ r / 3 * 3 + k / 3 ∨ c ≠ c / 3 * 3 + k % 3 := by
      by_contra hcon
      have e1 : r / 3 * 3 + k / 3 = r := by omega
      have e2 : c / 3 * 3 + k % 3 = c := by omega
      rw [e1, e2, he] at e
      exact hs0 e.symm
    exact key _ (by omega) _ (by omega)
      (hs.2.2 r hr c hc _ (by omega) _ (by omega) (by omega) (by omega) hne hs0) e.symm

/-- A solution of the board stays one when its digit is placed at an empty cell. -/
theorem solution_put (s b : Board) (h : IsSolutionOf s b) (r c : Nat) (hr : r < 9)
    (hc : c < 9) : IsSolutionOf s (b.put r c (s.cell r c)) := by
  refine ⟨h.1, h.2.1, ?_⟩
  intro r2 hr2 c2 hc2
  rw [cell_put b r c _ r2 c2 hr hc hc2]
  by_cases e : r2 = r ∧ c2 = c
  · rw [if_pos e, e.1, e.2]
    exact fun _ => rfl
  · rw [if_neg e]
    exact h.2.2 r2 hr2 c2 hc2

end Solver

namespace Solver

open Board

theorem tryDigits_spec (recurse : Board → Option (Bool × Board)) (n : Nat)
    (hrec : ∀ b1, emptyCount b1 < n → b1.isValid = true → SearchResult b1 (recurse b1))
    (b : Board) (hcount : emptyCount b < n + 1) (r c : Nat) (hr : r < 9) (hc : c < 9)
    (he : b.cell r c = 0) :
    ∀ vs : List Nat, (∀ v ∈ vs, 1 ≤ v ∧ v ≤ 9) →
    ∃ ok b2, tryDigits recurse r c (candidatesFor b r c) vs b = some (ok, b2) ∧
      (ok = false → b2 = b) ∧
      (ok = true → b2.isValid = true ∧ b2.isFilled = true ∧
        ∀ r2 < 9, ∀ c2 < 9, b.cell r2 c2 ≠ 0 → b2.cell r2 c2 = b.cell r2 c2) ∧
      (∀ s, IsSolutionOf s b → (s.cell r c).toNat ∈ vs → ok = true) := by
  intro vs
  induction vs with
  | nil =>
    intro _
    exact ⟨false, b, rfl, fun _ => rfl, (fun h => by cases h), (fun s _ hmem => by cases hmem)⟩
  | cons v vs ih =>
    intro hvs
    obtain ⟨ok, b2, e, hf, ht, hsol⟩ := ih (fun w hw => hvs w (List.mem_cons_of_mem v hw))
    have hv := hvs v (List.mem_cons_self v vs)
    have hplace : ∀ s, IsSolutionOf s b → (s.cell r c).toNat = v →
        IsSolutionOf s (b.put r c v) := by
      intro s hs ev
      have hsc := solution_cell s b hs r c hr hc
      have : (v : Int) = s.cell r c := by omega
      rw [this]
      exact solution_put s b hs r c hr hc
    rw [tryDigits]
    by_cases hbit : candidatesFor b r c &&& (1 <<< v) = 0
    · rw [if_pos hbit]
      refine ⟨ok, b2, e, hf, ht, ?_⟩
      intro s hs hmem
      rcases List.mem_cons.mp hmem with e2 | e2
      · have h1 := solution_candidate s b hs r c hr hc he
        rw [e2, (mask_test_iff _ _).mp hbit] at h1
        cases h1
      · exact hsol s hs e2
    · rw [if_neg hbit]
      simp only []
      have hv0 : (v : Int) ≠ 0 := by omega
      have hcnt : emptyCount (b.put r c v) < n := by
        have := emptyCount_put b r c v hr hc he hv0
        omega
      have hrestore : (b.put r c v).put r c 0 = b := put_put b r c v hr hc he
      by_cases hval : (b.put r c v).isValid = true
      · rw [if_pos hval]
        obtain ⟨ok1, b3, e1, hf1, ht1, hs1⟩ := hrec _ hcnt hval
        rw [e1]
        cases ok1
        · simp only []
          rw [hf1 rfl, hrestore]
          refine ⟨ok, b2, e, hf, ht, ?_⟩
          intro s hs hmem
          rcases List.mem_cons.mp hmem with e2 | e2
          · have := hs1 ⟨s, hplace s hs e2⟩
            cases this
          · exact hsol s hs e2
        · simp only []
          obtain ⟨hv3, hf3, hp3⟩ := ht1 rfl
          refine ⟨true, b3, rfl, (fun h => by cases h), fun _ => ⟨hv3, hf3, ?_⟩, fun _ _ _ => rfl⟩
          intro r2 hr2 c2 hc2 h0
          have hne : ¬ (r2 = r ∧ c2 = c) := by
            rintro ⟨e1, e2⟩
            subst e1 e2
            exact h0 he
          have hcell := cell_put b r c v r2 c2 hr hc hc2
          rw [if_neg hne] at hcell
          rw [← hcell]
          apply hp3 r2 hr2 c2 hc2
          rw [hcell]
          exact h0
      · rw [if_neg hval]
        simp only []
        rw [hrestore]
        refine ⟨ok, b2, e, hf, ht, ?_⟩
        intro s hs hmem
        rcases List.mem_cons.mp hmem with e2 | e2
        · exact absurd (solution_isValid s _ (hplace s hs e2)) hval
        · exact hsol s hs e2

/-- The search on a valid board, with more fuel than the board has empty cells. -/
theorem solveBacktrack_spec : ∀ (fuel : Nat) (b : Board), emptyCount b < fuel →
    b.isValid = true → SearchResult b (solveBacktrack fuel b) := by
  intro fuel
  induction fuel with
  | zero => intro b h _; omega
  | succ n ih =>
    intro b hcount hvalid
    rw [solveBacktrack]
    cases hch : chooseCellMRV b with
    | none =>
      simp only []
      refine ⟨b.isFilled, b, rfl, fun _ => rfl, fun h => ⟨hvalid, h, fun _ _ _ _ _ => rfl⟩, ?_⟩
      rintro ⟨s, hs⟩
      rcases chooseCellMRV_none b hch with hall | ⟨r, hr, c, hc, h0, hpop⟩
      · exact (isFilled_iff b).mpr hall
      · have h1 := solution_candidate s b hs r c hr hc h0
        have hsc := solution_cell s b hs r c hr hc
        rw [(popcount9_eq_zero_iff _).mp hpop _ (by omega)] at h1
        cases h1
    | some x =>
      obtain ⟨r, c, mask⟩ := x
      obtain ⟨hr, hc, h0, hm⟩ := chooseCellMRV_some b r c mask hch
      subst hm
      simp only []
      obtain ⟨ok, b2, e, hf, ht, hsol⟩ := tryDigits_spec (solveBacktrack n) n ih b hcount r c
        hr hc h0 [1, 2, 3, 4, 5, 6, 7, 8, 9] (by
          intro v hv
          simp only [List.mem_cons, List.mem_singleton, List.not_mem_nil, or_false] at hv
          omega)
      refine ⟨ok, b2, e, hf, ht, ?_⟩
      rintro ⟨s, hs⟩
      apply hsol s hs
      have hsc := solution_cell s b hs r c hr hc
      have : (s.cell r c).toNat ∈ [1, 2, 3, 4, 5, 6, 7, 8, 9] ↔
          (1 ≤ (s.cell r c).toNat ∧ (s.cell r c).toNat ≤ 9) := by
        simp only [List.mem_cons, List.mem_singleton, List.not_mem_nil, or_false]
        omega
      rw [this]
      omega

/-- The search never runs out of fuel in `solve`: what `solve` returns on any board. -/
theorem solve_spec (b : Board) (m : Method) :
    (b.isValid = false ∧ solve b m = some (false, b)) ∨
    (b.isValid = true ∧ m = Method.MILP ∧ solve b m = some (false, b)) ∨
    (b.isValid = true ∧ m = Method.Backtracking ∧ SearchResult b (solve b m)) := by
  unfold solve solveFuel
  by_cases hv : b.isValid = true
  · right
    have h1 : ¬ (!b.isValid) = true := by rw [hv]; decide
    rw [if_neg h1]
    cases m with
    | Backtracking =>
      right
      refine ⟨hv, rfl, ?_⟩
      rw [if_pos rfl]
      exact solveBacktrack_spec 82 b (by have := emptyCount_le b; omega) hv
    | MILP =>
      left
      refine ⟨hv, rfl, ?_⟩
      rw [if_neg (by decide)]
  · left
    have hv2 : b.isValid = false := Bool.eq_false_iff.mpr hv
    have h1 : (!b.isValid) = true := by rw [hv2]; rfl
    rw [if_pos h1]
    exact ⟨hv2, rfl⟩

end Solver

/-! ## Accessors and views -/

namespace Board

theorem get_eq (b : Board) (row col : Int) :
    b.get row col = if row < 0 ∨ row ≥ 9 ∨ col < 0 ∨ col ≥ 9 then .error .outOfRange
      else .ok (b.cell row.toNat col.toNat) := by
  by_cases h : row < 0 ∨ row ≥ 9 ∨ col < 0 ∨ col ≥ 9
  · simp only [get, checkIdx, if_pos h]
  · simp only [get, checkIdx, if_neg h]

theorem set_eq (b : Board) (row col v : Int) :
    b.set row col v =
      if row < 0 ∨ row ≥ 9 ∨ col < 0 ∨ col ≥ 9 then (.error .outOfRange, b)
      else if v < 0 ∨ v > 9 then (.error .outOfRange, b)
      else (.ok (), b.put row.toNat col.toNat v) := by
  by_cases h : row < 0 ∨ row ≥ 9 ∨ col < 0 ∨ col ≥ 9
  · simp only [set, checkIdx, if_pos h]
  · simp only [set, checkIdx, if_neg h]

/-- Reading the cell `(r2, c2)` after a write to the cell `(r, c)`, through `get`. -/
theorem get_put (b : Board) (r c : Nat) (v : Int) (hr : r < 9) (hc : c < 9) (r2 c2 : Int) :
    (b.put r c v).get r2 c2 =
      if r2 = r ∧ c2 = c then .ok v else b.get r2 c2 := by
  rw [get_eq, get_eq]
  by_cases hout : r2 < 0 ∨ r2 ≥ 9 ∨ c2 < 0 ∨ c2 ≥ 9
  · have hne : ¬ (r2 = r ∧ c2 = c) := by omega
    rw [if_pos hout, if_neg hne, if_pos hout]
  · rw [if_neg hout, if_neg hout, cell_put b r c v _ _ hr hc (by omega)]
    have hiff : (r2.toNat = r ∧ c2.toNat = c) ↔ (r2 = r ∧ c2 = c) := by omega
    by_cases h : r2 = r ∧ c2 = c
    · rw [if_pos h, if_pos (hiff.mpr h)]
    · rw [if_neg h, if_neg (fun h2 => h (hiff.mp h2))]

theorem aliasesCell (b : Board) (r c : Nat) (hr : r < 9) (hc : c < 9) (off : Nat)
    (hoff : off = r * 9 + c) : b.AliasesCell off r c := by
  subst hoff
  have hpoke : ∀ v, b.poke (r * 9 + c) v = b.put r c v := fun _ => rfl
  refine ⟨get_inRange b r c hr hc, fun v => ?_⟩
  rw [hpoke]
  refine ⟨?_, ?_⟩
  · rw [get_put b r c v hr hc, if_pos ⟨rfl, rfl⟩]
  · intro r2 c2 hne
    rw [get_put b r c v hr hc, if_neg (by omega)]

end Board

/-! ## Masks and placements -/

namespace Solver

open Board

theorem noDuplicates_iff (b : Board) :
    b.NoDuplicates ↔ ∀ r₁ < 9, ∀ c₁ < 9, ∀ r₂ < 9, ∀ c₂ < 9, (r₁ ≠ r₂ ∨ c₁ ≠ c₂) →
      SameUnit r₁ c₁ r₂ c₂ → b.cell r₁ c₁ ≠ 0 → b.cell r₁ c₁ ≠ b.cell r₂ c₂ := by
  constructor
  · rintro ⟨h1, h2, h3⟩ r₁ hr₁ c₁ hc₁ r₂ hr₂ c₂ hc₂ hne hu h0
    rcases hu with e | e | ⟨e1, e2⟩
    · subst e
      exact h1 r₁ hr₁ c₁ hc₁ c₂ hc₂ (by omega) h0
    · subst e
      exact h2 c₁ hc₁ r₁ hr₁ r₂ hr₂ (by omega) h0
    · exact h3 r₁ hr₁ c₁ hc₁ r₂ hr₂ c₂ hc₂ e1 e2 hne h0
  · intro h
    refine ⟨?_, ?_, ?_⟩
    · intro r hr c₁ hc₁ c₂ hc₂ hne h0
      exact h r hr c₁ hc₁ r hr c₂ hc₂ (Or.inr hne) (Or.inl rfl) h0
    · intro c hc r₁ hr₁ r₂ hr₂ hne h0
      exact h r₁ hr₁ c hc r₂ hr₂ c hc (Or.inl hne) (Or.inr (Or.inl rfl)) h0
    · intro r₁ hr₁ c₁ hc₁ r₂ hr₂ c₂ hc₂ e1 e2 hne h0
      exact h r₁ hr₁ c₁ hc₁ r₂ hr₂ c₂ hc₂ hne (Or.inr (Or.inr ⟨e1, e2⟩)) h0

theorem not_mem_rowVals (b : Board) (r : Nat) (x : Int) :
    x ∉ b.rowVals r ↔ ∀ c₂ < 9, b.cell r c₂ ≠ x := by
  unfold rowVals
  simp only [List.mem_map, List.mem_range, not_exists, not_and]

theorem not_mem_colVals (b : Board) (c : Nat) (x : Int) :
    x ∉ b.colVals c ↔ ∀ r₂ < 9, b.cell r₂ c ≠ x := by
  unfold colVals
  simp only [List.mem_map, List.mem_range, not_exists, not_and]

theorem not_mem_blockVals (b : Board) (r c : Nat) (hr : r < 9) (hc : c < 9) (x : Int) :
    x ∉ b.blockVals (r / 3) (c / 3) ↔
      ∀ r₂ < 9, ∀ c₂ < 9, r / 3 = r₂ / 3 → c / 3 = c₂ / 3 → b.cell r₂ c₂ ≠ x := by
  rw [blockVals_eq]
  simp only [List.mem_map, List.mem_range, not_exists, not_and]
  constructor
  · intro h r₂ hr₂ c₂ hc₂ e1 e2
    have := h (r₂ % 3 * 3 + c₂ % 3) (by omega)
    have a1 : r / 3 * 3 + (r₂ % 3 * 3 + c₂ % 3) / 3 = r₂ := by omega
    have a2 : c / 3 * 3 + (r₂ % 3 * 3 + c₂ % 3) % 3 = c₂ := by omega
    rwa [a1, a2] at this
  · intro h k hk
    exact h _ (by omega) _ (by omega) (by omega) (by omega)

/-- Bit `k` of the mask of an empty cell, in terms of the cells that share a unit with it. -/
theorem candidatesFor_testBit_unit (b : Board) (h : b.InRange) (r c : Nat) (hr : r < 9)
    (hc : c < 9) (he : b.cell r c = 0) (k : Nat) :
    (candidatesFor b r c).testBit k = true ↔
      (1 ≤ k ∧ k ≤ 9 ∧ ∀ r₂ < 9, ∀ c₂ < 9, SameUnit r c r₂ c₂ → b.cell r₂ c₂ ≠ (k : Int)) := by
  rw [candidatesFor_testBit b h r c hr hc he, not_mem_rowVals, not_mem_colVals,
    not_mem_blockVals b r c hr hc]
  constructor
  · rintro ⟨h1, h9, hrow, hcol, hblock⟩
    refine ⟨h1, h9, ?_⟩
    intro r₂ hr₂ c₂ hc₂ hu
    rcases hu with e | e | ⟨e1, e2⟩
    · subst e; exact hrow c₂ hc₂
    · subst e; exact hcol r₂ hr₂
    · exact hblock r₂ hr₂ c₂ hc₂ e1 e2
  · rintro ⟨h1, h9, hu⟩
    exact ⟨h1, h9, fun c₂ hc₂ => hu r hr c₂ hc₂ (Or.inl rfl),
      fun r₂ hr₂ => hu r₂ hr₂ c hc (Or.inr (Or.inl rfl)),
      fun r₂ hr₂ c₂ hc₂ e1 e2 => hu r₂ hr₂ c₂ hc₂ (Or.inr (Or.inr ⟨e1, e2⟩))⟩

theorem candidatesFor_of_filled (b : Board) (r c : Nat) (h : b.cell r c ≠ 0) :
    candidatesFor b r c = 0 := by
  unfold candidatesFor
  rw [if_pos h]

theorem inRange_put (b : Board) (h : b.InRange) (r c : Nat) (hr : r < 9) (hc : c < 9) (v : Int)
    (hv : 0 ≤ v ∧ v ≤ 9) : (b.put r c v).InRange := by
  apply inRange_of_cell
  intro r2 hr2 c2 hc2
  rw [cell_put b r c v r2 c2 hr hc hc2]
  split
  · exact hv
  · exact inRange_cell b h r2 c2 hr2 hc2

/-- The board with the digit `v` placed at an empty cell of a valid board is valid exactly when
bit `v` of the candidate mask of the cell is set. -/
theorem isValid_put_iff (b : Board) (hvalid : b.isValid = true) (r c : Nat) (hr : r < 9)
    (hc : c < 9) (he : b.cell r c = 0) (v : Nat) (hv1 : 1 ≤ v) (hv9 : v ≤ 9) :
    (b.put r c v).isValid = true ↔ (candidatesFor b r c).testBit v = true := by
  have hb := isValid_inRange b hvalid
  have hnd := (noDuplicates_iff b).mp ((isValid_iff b hb).mp hvalid)
  have hb2 : (b.put r c v).InRange := inRange_put b hb r c hr hc v (by omega)
  have hcell : ∀ r₂ c₂, c₂ < 9 → (b.put r c v).cell r₂ c₂ =
      if r₂ = r ∧ c₂ = c then (v : Int) else b.cell r₂ c₂ :=
    fun r₂ c₂ hc₂ => cell_put b r c v r₂ c₂ hr hc hc₂
  rw [isValid_iff _ hb2, noDuplicates_iff, candidatesFor_testBit_unit b hb r c hr hc he]
  constructor
  · intro h
    refine ⟨hv1, hv9, ?_⟩
    intro r₂ hr₂ c₂ hc₂ hu
    by_cases e : r₂ = r ∧ c₂ = c
    · rw [e.1, e.2, he]
      omega
    · have := h r hr c hc r₂ hr₂ c₂ hc₂ (by omega) hu
      rw [hcell r c hc, hcell r₂ c₂ hc₂, if_pos ⟨rfl, rfl⟩, if_neg e] at this
      exact fun e2 => this (by omega) e2.symm
  · rintro ⟨_, _, hmask⟩ r₁ hr₁ c₁ hc₁ r₂ hr₂ c₂ hc₂ hne hu h0
    rw [hcell r₁ c₁ hc₁, hcell r₂ c₂ hc₂] at *
    by_cases e1 : r₁ = r ∧ c₁ = c
    · have e2 : ¬ (r₂ = r ∧ c₂ = c) := by omega
      rw [if_pos e1, if_neg e2]
      have hu2 : SameUnit r c r₂ c₂ := by rw [← e1.1, ← e1.2]; exact hu
      exact fun e => hmask r₂ hr₂ c₂ hc₂ hu2 e.symm
    · rw [if_neg e1] at h0 ⊢
      by_cases e2 : r₂ = r ∧ c₂ = c
      · rw [if_pos e2]
        have hu2 : SameUnit r c r₁ c₁ := by
          rw [← e2.1, ← e2.2]
          unfold SameUnit at hu ⊢
          omega
        exact hmask r₁ hr₁ c₁ hc₁ hu2
      · rw [if_neg e2]
        exact hnd r₁ hr₁ c₁ hc₁ r₂ hr₂ c₂ hc₂ hne hu h0

end Solver

/-! ## The order of the scan -/

namespace Solver

open Board

theorem allCells_eq : allCells = (List.range 81).map fun i => (i / 9, i % 9) := by
  decide

theorem allCells_getElem? (i : Nat) (p : Nat × Nat) :
    allCells[i]? = some p ↔ (i < 81 ∧ p = (i / 9, i % 9)) := by
  rw [allCells_eq, List.getElem?_map]
  by_cases hi : i < 81
  · rw [List.getElem?_range hi]
    simp only [Option.map_some', Option.some.injEq, hi, true_and]
    exact eq_comm
  · rw [List.getElem?_eq_none (by simpa using hi)]
    simp [hi]

/-- A cell without candidate that no empty cell with exactly one candidate precedes in the
list ends the scan with no choice. -/
theorem chooseLoop_dead_end (b : Board) : ∀ (cells : List (Nat × Nat))
    (best : Option (Nat × Nat × Mask)) (n i : Nat) (p : Nat × Nat),
    cells[i]? = some p → b.cell p.1 p.2 = 0 → popcount9 (candidatesFor b p.1 p.2) = 0 →
    (∀ (j : Nat) (q : Nat × Nat), j < i → cells[j]? = some q → b.cell q.1 q.2 = 0 →
      popcount9 (candidatesFor b q.1 q.2) ≠ 1) →
    chooseLoop b cells best n = none := by
  intro cells
  induction cells with
  | nil => intro best n i p h; simp at h
  | cons q cells ih =>
    intro best n i p hp h0 hdead hbefore
    obtain ⟨r, c⟩ := q
    unfold chooseLoop
    cases i with
    | zero =>
      simp only [List.getElem?_cons_zero, Option.some.injEq] at hp
      subst hp
      have : ¬ b.cell r c ≠ 0 := by simpa using h0
      rw [if_neg this]
      simp only []
      rw [if_pos hdead]
    | succ i =>
      simp only [List.getElem?_cons_succ] at hp
      have hrest : ∀ best2 n2, chooseLoop b cells best2 n2 = none := by
        intro best2 n2
        apply ih best2 n2 i p hp h0 hdead
        intro j q hj hq
        exact hbefore (j + 1) q (by omega) (by simpa using hq)
      by_cases hz : b.cell r c ≠ 0
      · rw [if_pos hz]
        exact hrest _ _
      · rw [if_neg hz]
        simp only []
        have hz' : b.cell r c = 0 := by simpa using hz
        have hone : popcount9 (candidatesFor b r c) ≠ 1 :=
          hbefore 0 (r, c) (by omega) (by simp) hz'
        by_cases hcnt : popcount9 (candidatesFor b r c) = 0
        · rw [if_pos hcnt]
        · rw [if_neg hcnt]
          by_cases hlt : popcount9 (candidatesFor b r c) < n
          · rw [if_pos hlt, if_neg hone]
            exact hrest _ _
          · rw [if_neg hlt]
            exact hrest _ _

/-- What the scan returns when it returns a cell: the state it started from, or a cell of the
list with fewer candidates than any before it. -/
theorem chooseLoop_mrv (b : Board) : ∀ (cells : List (Nat × Nat))
    (best : Option (Nat × Nat × Mask)) (n : Nat) (x : Nat × Nat × Mask),
    chooseLoop b cells best n = some x →
    (best = some x ∧ ∀ (j : Nat) (q : Nat × Nat), cells[j]? = some q → b.cell q.1 q.2 = 0 →
      n ≤ popcount9 (candidatesFor b q.1 q.2)) ∨
    (∃ i, cells[i]? = some (x.1, x.2.1) ∧ b.cell x.1 x.2.1 = 0 ∧
      x.2.2 = candidatesFor b x.1 x.2.1 ∧ popcount9 x.2.2 ≠ 0 ∧ popcount9 x.2.2 < n ∧
      (∀ (j : Nat) (q : Nat × Nat), j < i → cells[j]? = some q → b.cell q.1 q.2 = 0 →
        popcount9 x.2.2 < popcount9 (candidatesFor b q.1 q.2)) ∧
      (popcount9 x.2.2 = 1 ∨ ∀ (j : Nat) (q : Nat × Nat), cells[j]? = some q → b.cell q.1 q.2 = 0 →
        popcount9 x.2.2 ≤ popcount9 (candidatesFor b q.1 q.2))) := by
  intro cells
  induction cells with
  | nil =>
    intro best n x h
    exact Or.inl ⟨h, fun j q hq => by simp at hq⟩
  | cons q0 cells ih =>
    intro best n x h
    obtain ⟨r, c⟩ := q0
    unfold chooseLoop at h
    -- the head cell against a bound that holds on the rest
    have whole : ∀ (k : Nat), (b.cell r c = 0 → k ≤ popcount9 (candidatesFor b r c)) →
        (∀ (j : Nat) (q : Nat × Nat), cells[j]? = some q → b.cell q.1 q.2 = 0 →
          k ≤ popcount9 (candidatesFor b q.1 q.2)) →
        ∀ (j : Nat) (q : Nat × Nat), ((r, c) :: cells)[j]? = some q → b.cell q.1 q.2 = 0 →
          k ≤ popcount9 (candidatesFor b q.1 q.2) := by
      intro k hhead hrest j q hq hq0
      cases j with
      | zero =>
        simp only [List.getElem?_cons_zero, Option.some.injEq] at hq
        subst hq
        exact hhead hq0
      | succ j =>
        simp only [List.getElem?_cons_succ] at hq
        exact hrest j q hq hq0
    -- a cell found in the rest, with the head cell above it
    have later : ∀ (n2 : Nat), n2 ≤ n →
        (b.cell r c = 0 → n2 ≤ popcount9 (candidatesFor b r c)) →
        (∃ i, cells[i]? = some (x.1, x.2.1) ∧ b.cell x.1 x.2.1 = 0 ∧
          x.2.2 = candidatesFor b x.1 x.2.1 ∧ popcount9 x.2.2 ≠ 0 ∧ popcount9 x.2.2 < n2 ∧
          (∀ (j : Nat) (q : Nat × Nat), j < i → cells[j]? = some q → b.cell q.1 q.2 = 0 →
            popcount9 x.2.2 < popcount9 (candidatesFor b q.1 q.2)) ∧
          (popcount9 x.2.2 = 1 ∨ ∀ (j : Nat) (q : Nat × Nat), cells[j]? = some q → b.cell q.1 q.2 = 0 →
            popcount9 x.2.2 ≤ popcount9 (candidatesFor b q.1 q.2))) →
        (∃ i, ((r, c) :: cells)[i]? = some (x.1, x.2.1) ∧ b.cell x.1 x.2.1 = 0 ∧
          x.2.2 = candidatesFor b x.1 x.2.1 ∧ popcount9 x.2.2 ≠ 0 ∧ popcount9 x.2.2 < n ∧
          (∀ (j : Nat) (q : Nat × Nat), j < i → ((r, c) :: cells)[j]? = some q → b.cell q.1 q.2 = 0 →
            popcount9 x.2.2 < popcount9 (candidatesFor b q.1 q.2)) ∧
          (popcount9 x.2.2 = 1 ∨ ∀ (j : Nat) (q : Nat × Nat), ((r, c) :: cells)[j]? = some q → b.cell q.1 q.2 = 0 →
            popcount9 x.2.2 ≤ popcount9 (candidatesFor b q.1 q.2))) := by
      rintro n2 hn2 hhead ⟨i, hi, h0, hm, hpos, hlt, hbefore, hall⟩
      refine ⟨i + 1, by simpa using hi, h0, hm, hpos, by omega, ?_, ?_⟩
      · intro j q hj hq hq0
        cases j with
        | zero =>
          simp only [List.getElem?_cons_zero, Option.some.injEq] at hq
          subst hq
          have := hhead hq0
          show popcount9 x.2.2 < popcount9 (candidatesFor b r c)
          omega
        | succ j =>
          simp only [List.getElem?_cons_succ] at hq
          exact hbefore j q (by omega) hq hq0
      · rcases hall with h1 | hall
        · exact Or.inl h1
        · exact Or.inr (whole _ (fun hz => by have := hhead hz; omega) hall)
    by_cases hz : b.cell r c ≠ 0
    · rw [if_pos hz] at h
      rcases ih best n x h with ⟨e, hall⟩ | hex
      · exact Or.inl ⟨e, whole n (fun hz2 => absurd hz2 hz) hall⟩
      · exact Or.inr (later n (le_refl _) (fun hz2 => absurd hz2 hz) hex)
    · rw [if_neg hz] at h
      have hz' : b.cell r c = 0 := by simpa using hz
      simp only [] at h
      split at h
      · cases h
      · rename_i hcnt
        split at h
        · rename_i hlt
          split at h
          · rename_i hone
            cases h
            refine Or.inr ⟨0, by simp, hz', rfl, hcnt, hlt, ?_, Or.inl hone⟩
            intro j q hj
            omega
          · rcases ih _ _ x h with ⟨e, hall⟩ | hex
            · cases e
              refine Or.inr ⟨0, by simp, hz', rfl, hcnt, hlt, ?_, Or.inr ?_⟩
              · intro j q hj
                omega
              · exact whole _ (fun _ => le_refl _) hall
            · exact Or.inr (later _ (by omega) (fun _ => le_refl _) hex)
        · rename_i hge
          rcases ih best n x h with ⟨e, hall⟩ | hex
          · exact Or.inl ⟨e, whole n (fun _ => by omega) hall⟩
          · exact Or.inr (later n (le_refl _) (fun _ => by omega) hex)

end Solver

namespace Solver

open Board

theorem candidatesFor_bits (b : Board) (r c k : Nat)
    (h : (candidatesFor b r c).testBit k = true) : 1 ≤ k ∧ k ≤ 9 := by
  unfold candidatesFor at h
  split at h
  · rw [Nat.zero_testBit] at h
    cases h
  · simp only [] at h
    rw [maskLoop_testBit, Nat.zero_testBit] at h
    rcases h with h | ⟨h, _⟩
    · cases h
    · simp only [List.mem_cons, List.mem_singleton, List.not_mem_nil, or_false] at h
      omega

theorem popcount9_candidatesFor_eq_zero (b : Board) (r c : Nat) :
    popcount9 (candidatesFor b r c) = 0 ↔ candidatesFor b r c = 0 := by
  constructor
  · intro h
    apply Nat.eq_of_testBit_eq
    intro i
    rw [Nat.zero_testBit]
    by_cases hi : i < 32
    · exact (popcount9_eq_zero_iff _).mp h i hi
    · apply Bool.eq_false_iff.mpr
      intro hbit
      have := candidatesFor_bits b r c i hbit
      omega
  · intro h
    rw [h]
    decide

/-- A valid board with an empty cell without candidate: the search fails and restores it. -/
theorem solveBacktrack_dead_end (b : Board) (hvalid : b.isValid = true) (r c : Nat)
    (hr : r < 9) (hc : c < 9) (he : b.cell r c = 0) (hmask : candidatesFor b r c = 0)
    (fuel : Nat) (hfuel : emptyCount b < fuel) : solveBacktrack fuel b = some (false, b) := by
  obtain ⟨ok, b2, e, hf, ht, _⟩ := solveBacktrack_spec fuel b hfuel hvalid
  cases ok with
  | false => rw [e, hf rfl]
  | true =>
    obtain ⟨h1, h2, h3⟩ := ht rfl
    have hs : IsSolutionOf b2 b := ⟨h1, h2, h3⟩
    have := solution_candidate b2 b hs r c hr hc he
    rw [hmask, Nat.zero_testBit] at this
    cases this

/-- No choice of cell: the search returns at once, with any fuel left for the recursion. -/
theorem solveBacktrack_of_none (b : Board) (h : chooseCellMRV b = none) (fuel : Nat) :
    solveBacktrack (fuel + 1) b = some (b.isFilled, b) := by
  rw [solveBacktrack, h]

theorem chooseCellMRV_dead_end (b : Board) (r c : Nat) (hr : r < 9) (hc : c < 9)
    (he : b.cell r c = 0) (hmask : candidatesFor b r c = 0)
    (hfirst : ∀ r₂ < 9, ∀ c₂ < 9, r₂ * 9 + c₂ < r * 9 + c → b.cell r₂ c₂ = 0 →
      popcount9 (candidatesFor b r₂ c₂) ≠ 1) : chooseCellMRV b = none := by
  unfold chooseCellMRV
  apply chooseLoop_dead_end b allCells none 100 (r * 9 + c) (r, c)
  · rw [allCells_getElem?]
    refine ⟨by omega, ?_⟩
    have e1 : (r * 9 + c) / 9 = r := by omega
    have e2 : (r * 9 + c) % 9 = c := by omega
    rw [e1, e2]
  · exact he
  · exact (popcount9_candidatesFor_eq_zero b r c).mpr hmask
  · intro j q hj hq
    obtain ⟨hj81, rfl⟩ := (allCells_getElem? j q).mp hq
    apply hfirst _ (by omega) _ (by omega)
    omega

theorem chooseCellMRV_mrv (b : Board) (r c : Nat) (m : Mask)
    (h : chooseCellMRV b = some (r, c, m)) :
    popcount9 m ≠ 0 ∧
    (∀ r₂ < 9, ∀ c₂ < 9, b.cell r₂ c₂ = 0 → candidatesFor b r₂ c₂ ≠ 0 →
      popcount9 m ≤ popcount9 (candidatesFor b r₂ c₂)) ∧
    (∀ r₂ < 9, ∀ c₂ < 9, r₂ * 9 + c₂ < r * 9 + c → b.cell r₂ c₂ = 0 →
      popcount9 m < popcount9 (candidatesFor b r₂ c₂)) := by
  have hcell : ∀ r₂ < 9, ∀ c₂ < 9, allCells[r₂ * 9 + c₂]? = some (r₂, c₂) := by
    intro r₂ hr₂ c₂ hc₂
    rw [allCells_getElem?]
    refine ⟨by omega, ?_⟩
    have e1 : (r₂ * 9 + c₂) / 9 = r₂ := by omega
    have e2 : (r₂ * 9 + c₂) % 9 = c₂ := by omega
    rw [e1, e2]
  rcases chooseLoop_mrv b allCells none 100 (r, c, m) h with
    ⟨e, _⟩ | ⟨i, hi, _, _, hpos, _, hbefore, hall⟩
  · cases e
  · simp only [] at hi hpos hbefore hall
    obtain ⟨hi81, hrc⟩ := (allCells_getElem? i (r, c)).mp hi
    have hr : r = i / 9 := congrArg Prod.fst hrc
    have hc : c = i % 9 := congrArg Prod.snd hrc
    refine ⟨hpos, ?_, ?_⟩
    · intro r₂ hr₂ c₂ hc₂ hz hne
      have hne2 : popcount9 (candidatesFor b r₂ c₂) ≠ 0 :=
        fun e => hne ((popcount9_candidatesFor_eq_zero b r₂ c₂).mp e)
      rcases hall with h1 | hall
      · omega
      · exact hall (r₂ * 9 + c₂) (r₂, c₂) (hcell r₂ hr₂ c₂ hc₂) hz
    · intro r₂ hr₂ c₂ hc₂ hlt hz
      exact hbefore (r₂ * 9 + c₂) (r₂, c₂) (by omega) (hcell r₂ hr₂ c₂ hc₂) hz

end Solver

/-! ## The translation of the solution vector -/

namespace Solver

open Board

theorem exists_first_not (P : Nat → Prop) (n : Nat) :
    ∃ k, k ≤ n ∧ (∀ j, j < k → P j) ∧ (k < n → ¬ P k) := by
  induction n with
  | zero => exact ⟨0, le_refl _, fun j hj => absurd hj (by omega), fun h => absurd h (by omega)⟩
  | succ n ih =>
    obtain ⟨k, hk, h1, h2⟩ := ih
    by_cases hkn : k < n
    · exact ⟨k, by omega, h1, fun _ => h2 hkn⟩
    · have hkn2 : k = n := by omega
      subst hkn2
      by_cases hl : P k
      · refine ⟨k + 1, le_refl _, ?_, fun h => absurd h (by omega)⟩
        intro j hj
        by_cases hjk : j < k
        · exact h1 j hjk
        · have : j = k := by omega
          subst this
          exact hl
      · exact ⟨k, by omega, h1, fun _ => hl⟩

/-- The search for the first selected digit among `a, a + 1, ..., a + n - 1`. -/
theorem findDigit_range' (best : Nat → Rat) (r c : Nat) : ∀ (n a : Nat), 1 ≤ a →
    ((findDigit best r c (List.range' a n) = 0 ↔
        ∀ w, a ≤ w → w < a + n → ¬ Hot best r c w) ∧
      (findDigit best r c (List.range' a n) ≠ 0 →
        a ≤ findDigit best r c (List.range' a n) ∧
        findDigit best r c (List.range' a n) < a + n ∧
        Hot best r c (findDigit best r c (List.range' a n)) ∧
        ∀ w, a ≤ w → w < findDigit best r c (List.range' a n) → ¬ Hot best r c w)) := by
  intro n
  induction n with
  | zero =>
    intro a _
    have e : findDigit best r c (List.range' a 0) = 0 := rfl
    rw [e]
    exact ⟨⟨fun _ w h1 h2 => absurd h1 (by omega), fun _ => rfl⟩, fun h => absurd rfl h⟩
  | succ n ih =>
    intro a ha
    obtain ⟨ih1, ih2⟩ := ih (a + 1) (by omega)
    simp only [List.range', findDigit]
    by_cases hhot : best (varIndex r c a) > 1 / 2
    · rw [if_pos hhot]
      refine ⟨⟨fun h => absurd h (by omega), fun h => absurd hhot (h a (le_refl _) (by omega))⟩,
        fun _ => ⟨le_refl _, by omega, hhot, fun w h1 h2 => absurd h1 (by omega)⟩⟩
    · rw [if_neg hhot]
      constructor
      · rw [ih1]
        constructor
        · intro h w h1 h2
          by_cases e : w = a
          · subst e; exact hhot
          · exact h w (by omega) (by omega)
        · intro h w h1 h2
          exact h w (by omega) (by omega)
      · intro hne
        obtain ⟨h1, h2, h3, h4⟩ := ih2 hne
        refine ⟨by omega, by omega, h3, ?_⟩
        intro w hw1 hw2
        by_cases e : w = a
        · subst e; exact hhot
        · exact h4 w (by omega) hw2

theorem findDigit_digits (best : Nat → Rat) (r c : Nat) :
    (findDigit best r c digits = 0 ↔ ∀ w, 1 ≤ w → w ≤ 9 → ¬ Hot best r c w) ∧
    (findDigit best r c digits ≠ 0 →
      1 ≤ findDigit best r c digits ∧ findDigit best r c digits ≤ 9 ∧
      Hot best r c (findDigit best r c digits) ∧
      ∀ w, 1 ≤ w → w < findDigit best r c digits → ¬ Hot best r c w) := by
  have hd : digits = List.range' 1 9 := by decide
  rw [hd]
  obtain ⟨h1, h2⟩ := findDigit_range' best r c 9 1 (le_refl _)
  refine ⟨?_, ?_⟩
  · rw [h1]
    constructor
    · intro h w hw1 hw9
      exact h w hw1 (by omega)
    · intro h w hw1 hw9
      exact h w hw1 (by omega)
  · intro hne
    obtain ⟨a1, a2, a3, a4⟩ := h2 hne
    exact ⟨a1, by omega, a3, a4⟩

/-- The translation loop stopped at the index `k` of the list of cells: the flag, and each cell
of the board left behind. -/
theorem applySolution_spec (best : Nat → Rat) : ∀ (cells : List (Nat × Nat)) (b : Board)
    (k : Nat), (∀ p ∈ cells, p.1 < 9 ∧ p.2 < 9) → k ≤ cells.length →
    (∀ (j : Nat) (p : Nat × Nat), j < k → cells[j]? = some p →
      findDigit best p.1 p.2 digits ≠ 0) →
    (∀ p : Nat × Nat, cells[k]? = some p → findDigit best p.1 p.2 digits = 0) →
    (applySolution best cells b).1 = decide (k = cells.length) ∧
    ∀ r < 9, ∀ c < 9, (applySolution best cells b).2.cell r c =
      if (∃ j, j < k ∧ cells[j]? = some (r, c)) then (findDigit best r c digits : Int)
      else b.cell r c := by
  intro cells
  induction cells with
  | nil =>
    intro b k _ hk _ _
    have : k = 0 := by simpa using hk
    subst this
    refine ⟨by simp [applySolution], ?_⟩
    intro r _ c _
    have : ¬ ∃ j, j < 0 ∧ ([] : List (Nat × Nat))[j]? = some (r, c) := by
      rintro ⟨j, hj, _⟩
      omega
    rw [if_neg this]
    rfl
  | cons p cells ih =>
    intro b k hcells hk hbefore hat
    obtain ⟨r0, c0⟩ := p
    have hp := hcells (r0, c0) (List.mem_cons_self _ _)
    rw [applySolution]
    cases k with
    | zero =>
      have h0 := hat (r0, c0) (by simp)
      rw [if_pos h0]
      refine ⟨by simp, ?_⟩
      intro r _ c _
      have : ¬ ∃ j, j < 0 ∧ ((r0, c0) :: cells)[j]? = some (r, c) := by
        rintro ⟨j, hj, _⟩
        omega
      rw [if_neg this]
    | succ k =>
      have h0 := hbefore 0 (r0, c0) (by omega) (by simp)
      rw [if_neg h0]
      obtain ⟨e1, e2⟩ := ih (b.put r0 c0 (findDigit best r0 c0 digits)) k
        (fun q hq => hcells q (List.mem_cons_of_mem _ hq))
        (by simpa using hk)
        (fun j q hj hq => hbefore (j + 1) q (by omega) (by simpa using hq))
        (fun q hq => hat q (by simpa using hq))
      refine ⟨?_, ?_⟩
      · rw [e1]
        simp
      · intro r hr c hc
        rw [e2 r hr c hc, cell_put b r0 c0 _ r c hp.1 hp.2 hc]
        by_cases hex : ∃ j, j < k ∧ cells[j]? = some (r, c)
        · have hex2 : ∃ j, j < k + 1 ∧ ((r0, c0) :: cells)[j]? = some (r, c) := by
            obtain ⟨j, hj, hq⟩ := hex
            exact ⟨j + 1, by omega, by simpa using hq⟩
          rw [if_pos hex, if_pos hex2]
        · rw [if_neg hex]
          by_cases hrc : r = r0 ∧ c = c0
          · have hex2 : ∃ j, j < k + 1 ∧ ((r0, c0) :: cells)[j]? = some (r, c) :=
              ⟨0, by omega, by simp [hrc.1, hrc.2]⟩
            rw [if_pos hrc, if_pos hex2, hrc.1, hrc.2]
          · have hex2 : ¬ ∃ j, j < k + 1 ∧ ((r0, c0) :: cells)[j]? = some (r, c) := by
              rintro ⟨j, hj, hq⟩
              cases j with
              | zero =>
                simp only [List.getElem?_cons_zero, Option.some.injEq, Prod.mk.injEq] at hq
                exact hrc ⟨hq.1.symm, hq.2.symm⟩
              | succ j =>
                simp only [List.getElem?_cons_succ] at hq
                exact hex ⟨j, by omega, hq⟩
            rw [if_neg hrc, if_neg hex2]

/-- The translation loop over the 81 cells, stopped at the first cell `k` (in row-major order)
without selected digit, or run to the end (`k = 81`). -/
theorem applySolution_allCells (best : Nat → Rat) (b : Board) (k : Nat) (hk : k ≤ 81)
    (hbefore : ∀ j, j < k → findDigit best (j / 9) (j % 9) digits ≠ 0)
    (hat : k < 81 → findDigit best (k / 9) (k % 9) digits = 0) :
    (applySolution best allCells b).1 = decide (k = 81) ∧
    ∀ r < 9, ∀ c < 9, (applySolution best allCells b).2.cell r c =
      if r * 9 + c < k then (findDigit best r c digits : Int) else b.cell r c := by
  have hlen : allCells.length = 81 := by decide
  obtain ⟨e1, e2⟩ := applySolution_spec best allCells b k
    (fun p hp => (mem_allCells p).mp hp) (by omega)
    (by
      intro j p hj hp
      obtain ⟨_, rfl⟩ := (allCells_getElem? j p).mp hp
      exact hbefore j hj)
    (by
      intro p hp
      obtain ⟨h81, rfl⟩ := (allCells_getElem? k p).mp hp
      exact hat h81)
  rw [hlen] at e1
  refine ⟨e1, ?_⟩
  intro r hr c hc
  rw [e2 r hr c hc]
  have hiff : (∃ j, j < k ∧ allCells[j]? = some (r, c)) ↔ r * 9 + c < k := by
    constructor
    · rintro ⟨j, hj, hq⟩
      obtain ⟨_, e⟩ := (allCells_getElem? j (r, c)).mp hq
      have e1 : r = j / 9 := congrArg Prod.fst e
      have e2 : c = j % 9 := congrArg Prod.snd e
      omega
    · intro h
      refine ⟨r * 9 + c, h, ?_⟩
      rw [allCells_getElem?]
      refine ⟨by omega, ?_⟩
      have e1 : (r * 9 + c) / 9 = r := by omega
      have e2 : (r * 9 + c) % 9 = c := by omega
      rw [e1, e2]
  by_cases h : r * 9 + c < k
  · rw [if_pos h, if_pos (hiff.mpr h)]
  · rw [if_neg h, if_neg (fun hh => h (hiff.mp hh))]

end Solver

/-! ## The variables and bounds of the formulation -/

namespace Solver

open Board

theorem varIndex_lt (r c v : Nat) (hr : r < 9) (hc : c < 9) (hv1 : 1 ≤ v) (hv9 : v ≤ 9) :
    varIndex r c v < 729 := by
  unfold varIndex
  omega

theorem varIndex_inj (r c v r₂ c₂ v₂ : Nat) (hc : c < 9) (hv1 : 1 ≤ v) (hv9 : v ≤ 9)
    (hc₂ : c₂ < 9) (hw1 : 1 ≤ v₂) (hw9 : v₂ ≤ 9)
    (h : varIndex r c v = varIndex r₂ c₂ v₂) : r = r₂ ∧ c = c₂ ∧ v = v₂ := by
  unfold varIndex at h
  omega

theorem varIndex_onto (i : Nat) (hi : i < 729) :
    ∃ r < 9, ∃ c < 9, ∃ v, 1 ≤ v ∧ v ≤ 9 ∧ varIndex r c v = i := by
  refine ⟨i / 81, by omega, i / 9 % 9, by omega, i % 9 + 1, by omega, by omega, ?_⟩
  unfold varIndex
  omega

theorem list_getD_set {α : Type} (l : List α) (i j : Nat) (a d : α) (hi : i < l.length) :
    (l.set i a).getD j d = if j = i then a else l.getD j d := by
  simp only [List.getD_eq_getElem?_getD, List.getElem?_set]
  by_cases h : i = j
  · subst h
    simp [hi]
  · have h2 : ¬ j = i := fun e => h e.symm
    simp [h, h2]

theorem replicate_getD_of_lt {α : Type} (n i : Nat) (a d : α) (h : i < n) :
    (List.replicate n a).getD i d = a := by
  rw [List.getD_eq_getElem?_getD, List.getElem?_replicate, if_pos h]
  rfl

/-- The bounds after the loop over the digits `vs` for the pre-filled cell `(r, c)`. -/
theorem fixDigits_spec (r c : Nat) (hr : r < 9) (hc : c < 9) (val : Int) :
    ∀ (vs : List Nat) (lo up : List Rat), (∀ v ∈ vs, 1 ≤ v ∧ v ≤ 9) →
    lo.length = 729 → up.length = 729 →
    (fixDigits r c val vs (lo, up)).1.length = 729 ∧
    (fixDigits r c val vs (lo, up)).2.length = 729 ∧
    ∀ j, ((fixDigits r c val vs (lo, up)).1.getD j 0 =
        if j / 9 = r * 9 + c ∧ j % 9 + 1 ∈ vs then
          (if ((j % 9 + 1 : Nat) : Int) = val then 1 else 0)
        else lo.getD j 0) ∧
      ((fixDigits r c val vs (lo, up)).2.getD j 0 =
        if j / 9 = r * 9 + c ∧ j % 9 + 1 ∈ vs then
          (if ((j % 9 + 1 : Nat) : Int) = val then 1 else 0)
        else up.getD j 0) := by
  intro vs
  induction vs with
  | nil =>
    intro lo up _ hlo hup
    refine ⟨hlo, hup, fun j => ?_⟩
    simp [fixDigits]
  | cons v vs ih =>
    intro lo up hvs hlo hup
    have hv := hvs v (List.mem_cons_self v vs)
    have hidx : varIndex r c v < 729 := varIndex_lt r c v hr hc hv.1 hv.2
    have key : ∀ a : Rat, ((v : Int) = val → a = 1) → (¬ (v : Int) = val → a = 0) →
        (fixDigits r c val vs (lo.set (varIndex r c v) a, up.set (varIndex r c v) a)).1.length
          = 729 ∧
        (fixDigits r c val vs (lo.set (varIndex r c v) a, up.set (varIndex r c v) a)).2.length
          = 729 ∧
        ∀ j, ((fixDigits r c val vs
            (lo.set (varIndex r c v) a, up.set (varIndex r c v) a)).1.getD j 0 =
          if j / 9 = r * 9 + c ∧ j % 9 + 1 ∈ v :: vs then
            (if ((j % 9 + 1 : Nat) : Int) = val then 1 else 0)
          else lo.getD j 0) ∧
        ((fixDigits r c val vs
            (lo.set (varIndex r c v) a, up.set (varIndex r c v) a)).2.getD j 0 =
          if j / 9 = r * 9 + c ∧ j % 9 + 1 ∈ v :: vs then
            (if ((j % 9 + 1 : Nat) : Int) = val then 1 else 0)
          else up.getD j 0) := by
      intro a ha1 ha0
      obtain ⟨l1, l2, hj⟩ := ih (lo.set (varIndex r c v) a) (up.set (varIndex r c v) a)
        (fun w hw => hvs w (List.mem_cons_of_mem v hw)) (by simpa using hlo) (by simpa using hup)
      refine ⟨l1, l2, fun j => ?_⟩
      obtain ⟨e1, e2⟩ := hj j
      rw [e1, e2, list_getD_set lo _ j a 0 (by omega), list_getD_set up _ j a 0 (by omega)]
      have hjv : j = varIndex r c v ↔ (j / 9 = r * 9 + c ∧ j % 9 + 1 = v) := by
        unfold varIndex
        omega
      by_cases hin : j / 9 = r * 9 + c ∧ j % 9 + 1 ∈ vs
      · have hin2 : j / 9 = r * 9 + c ∧ j % 9 + 1 ∈ v :: vs :=
          ⟨hin.1, List.mem_cons_of_mem v hin.2⟩
        constructor <;> rw [if_pos hin, if_pos hin2]
      · by_cases hjeq : j = varIndex r c v
        · have h2 := hjv.mp hjeq
          have hin2 : j / 9 = r * 9 + c ∧ j % 9 + 1 ∈ v :: vs := by
            refine ⟨h2.1, ?_⟩
            rw [h2.2]
            exact List.mem_cons_self v vs
          by_cases hval : (v : Int) = val
          · have hval2 : ((j % 9 + 1 : Nat) : Int) = val := by rw [h2.2]; exact hval
            constructor <;>
              rw [if_neg hin, if_pos hjeq, if_pos hin2, if_pos hval2, ha1 hval]
          · have hval2 : ¬ ((j % 9 + 1 : Nat) : Int) = val := by rw [h2.2]; exact hval
            constructor <;>
              rw [if_neg hin, if_pos hjeq, if_pos hin2, if_neg hval2, ha0 hval]
        · have hin2 : ¬ (j / 9 = r * 9 + c ∧ j % 9 + 1 ∈ v :: vs) := by
            rintro ⟨h1, h2⟩
            rcases List.mem_cons.mp h2 with e | e
            · exact hjeq (hjv.mpr ⟨h1, e⟩)
            · exact hin ⟨h1, e⟩
          constructor <;> rw [if_neg hin, if_neg hjeq, if_neg hin2]
    rw [fixDigits]
    by_cases hval : (v : Int) = val
    · rw [if_pos hval]
      exact key 1 (fun _ => rfl) (fun h => absurd hval h)
    · rw [if_neg hval]
      exact key 0 (fun h => absurd h hval) (fun _ => rfl)

/-- The bounds after the loops over the cells. -/
theorem fixCells_spec (b : Board) : ∀ (cells : List (Nat × Nat)) (lo up : List Rat),
    (∀ p ∈ cells, p.1 < 9 ∧ p.2 < 9) → lo.length = 729 → up.length = 729 →
    (fixCells b cells (lo, up)).1.length = 729 ∧
    (fixCells b cells (lo, up)).2.length = 729 ∧
    ∀ j, ((fixCells b cells (lo, up)).1.getD j 0 =
        if (j / 81, j / 9 % 9) ∈ cells ∧
            1 ≤ b.cell (j / 81) (j / 9 % 9) ∧ b.cell (j / 81) (j / 9 % 9) ≤ 9 then
          (if ((j % 9 + 1 : Nat) : Int) = b.cell (j / 81) (j / 9 % 9) then 1 else 0)
        else lo.getD j 0) ∧
      ((fixCells b cells (lo, up)).2.getD j 0 =
        if (j / 81, j / 9 % 9) ∈ cells ∧
            1 ≤ b.cell (j / 81) (j / 9 % 9) ∧ b.cell (j / 81) (j / 9 % 9) ≤ 9 then
          (if ((j % 9 + 1 : Nat) : Int) = b.cell (j / 81) (j / 9 % 9) then 1 else 0)
        else up.getD j 0) := by
  intro cells
  induction cells with
  | nil =>
    intro lo up _ hlo hup
    refine ⟨hlo, hup, fun j => ?_⟩
    simp [fixCells]
  | cons p cells ih =>
    intro lo up hcells hlo hup
    obtain ⟨r, c⟩ := p
    have hp := hcells (r, c) (List.mem_cons_self _ _)
    have hrest : ∀ q ∈ cells, q.1 < 9 ∧ q.2 < 9 :=
      fun q hq => hcells q (List.mem_cons_of_mem _ hq)
    have hcellj : ∀ j : Nat, ((j / 81, j / 9 % 9) = (r, c)) ↔ j / 9 = r * 9 + c := by
      intro j
      simp only [Prod.mk.injEq]
      have := hp.1
      have := hp.2
      omega
    rw [fixCells]
    by_cases hpre : 1 ≤ b.cell r c ∧ b.cell r c ≤ 9
    · rw [if_pos hpre]
      obtain ⟨d1, d2, hd⟩ := fixDigits_spec r c hp.1 hp.2 (b.cell r c) digits lo up
        (by
          intro v hv
          simp only [digits, List.mem_cons, List.mem_singleton, List.not_mem_nil,
            or_false] at hv
          omega) hlo hup
      obtain ⟨l1, l2, hj⟩ := ih _ _ hrest d1 d2
      refine ⟨l1, l2, fun j => ?_⟩
      obtain ⟨e1, e2⟩ := hj j
      obtain ⟨f1, f2⟩ := hd j
      rw [e1, e2, f1, f2]
      have hdig : j % 9 + 1 ∈ digits := by
        simp only [digits, List.mem_cons, List.mem_singleton, List.not_mem_nil, or_false]
        omega
      by_cases hin : (j / 81, j / 9 % 9) ∈ cells ∧
          1 ≤ b.cell (j / 81) (j / 9 % 9) ∧ b.cell (j / 81) (j / 9 % 9) ≤ 9
      · have hin2 : (j / 81, j / 9 % 9) ∈ (r, c) :: cells ∧
            1 ≤ b.cell (j / 81) (j / 9 % 9) ∧ b.cell (j / 81) (j / 9 % 9) ≤ 9 :=
          ⟨List.mem_cons_of_mem _ hin.1, hin.2⟩
        constructor <;> rw [if_pos hin, if_pos hin2]
      · by_cases hhere : j / 9 = r * 9 + c
        · have hrc := (hcellj j).mpr hhere
          have e81 : j / 81 = r := congrArg Prod.fst hrc
          have e9 : j / 9 % 9 = c := congrArg Prod.snd hrc
          have hin2 : (j / 81, j / 9 % 9) ∈ (r, c) :: cells ∧
              1 ≤ b.cell (j / 81) (j / 9 % 9) ∧ b.cell (j / 81) (j / 9 % 9) ≤ 9 := by
            rw [e81, e9]
            exact ⟨List.mem_cons_self _ _, hpre⟩
          constructor <;> rw [if_neg hin, if_pos ⟨hhere, hdig⟩, if_pos hin2, e81, e9]
        · have hin2 : ¬ ((j / 81, j / 9 % 9) ∈ (r, c) :: cells ∧
              1 ≤ b.cell (j / 81) (j / 9 % 9) ∧ b.cell (j / 81) (j / 9 % 9) ≤ 9) := by
            rintro ⟨h1, h2⟩
            rcases List.mem_cons.mp h1 with e | e
            · exact hhere ((hcellj j).mp e)
            · exact hin ⟨e, h2⟩
          constructor <;> rw [if_neg hin, if_neg (fun h => hhere h.1), if_neg hin2]
    · rw [if_neg hpre]
      obtain ⟨l1, l2, hj⟩ := ih lo up hrest hlo hup
      refine ⟨l1, l2, fun j => ?_⟩
      obtain ⟨e1, e2⟩ := hj j
      rw [e1, e2]
      by_cases hin : (j / 81, j / 9 % 9) ∈ cells ∧
          1 ≤ b.cell (j / 81) (j / 9 % 9) ∧ b.cell (j / 81) (j / 9 % 9) ≤ 9
      · have hin2 : (j / 81, j / 9 % 9) ∈ (r, c) :: cells ∧
            1 ≤ b.cell (j / 81) (j / 9 % 9) ∧ b.cell (j / 81) (j / 9 % 9) ≤ 9 :=
          ⟨List.mem_cons_of_mem _ hin.1, hin.2⟩
        constructor <;> rw [if_pos hin, if_pos hin2]
      · have hin2 : ¬ ((j / 81, j / 9 % 9) ∈ (r, c) :: cells ∧
            1 ≤ b.cell (j / 81) (j / 9 % 9) ∧ b.cell (j / 81) (j / 9 % 9) ≤ 9) := by
          rintro ⟨h1, h2⟩
          rcases List.mem_cons.mp h1 with e | e
          · have hrc := e
            have e81 : j / 81 = r := congrArg Prod.fst hrc
            have e9 : j / 9 % 9 = c := congrArg Prod.snd hrc
            rw [e81, e9] at h2
            exact hpre h2
          · exact hin ⟨e, h2⟩
        constructor <;> rw [if_neg hin, if_neg hin2]

/-- The bounds of the variable of `(r, c, v)` in the formulation built for the board. -/
theorem buildFormulation_bounds (b : Board) (r c v : Nat) (hr : r < 9) (hc : c < 9)
    (hv1 : 1 ≤ v) (hv9 : v ≤ 9) :
    ((buildFormulation b).colLower.getD (varIndex r c v) 0 =
      if 1 ≤ b.cell r c ∧ b.cell r c ≤ 9 then (if (v : Int) = b.cell r c then 1 else 0)
      else 0) ∧
    ((buildFormulation b).colUpper.getD (varIndex r c v) 0 =
      if 1 ≤ b.cell r c ∧ b.cell r c ≤ 9 then (if (v : Int) = b.cell r c then 1 else 0)
      else 1) := by
  obtain ⟨_, _, hj⟩ := fixCells_spec b allCells (List.replicate 729 0) (List.replicate 729 1)
    (fun p hp => (mem_allCells p).mp hp) (by simp) (by simp)
  obtain ⟨e1, e2⟩ := hj (varIndex r c v)
  have hidx := varIndex_lt r c v hr hc hv1 hv9
  have d1 : varIndex r c v / 81 = r := by unfold varIndex; omega
  have d2 : varIndex r c v / 9 % 9 = c := by unfold varIndex; omega
  have d3 : varIndex r c v % 9 + 1 = v := by unfold varIndex; omega
  rw [d1, d2, d3] at e1 e2
  have hmem : (r, c) ∈ allCells := (mem_allCells (r, c)).mpr ⟨hr, hc⟩
  have g0 : (List.replicate 729 (0 : Rat)).getD (varIndex r c v) 0 = 0 :=
    replicate_getD_of_lt 729 _ 0 0 hidx
  have g1 : (List.replicate 729 (1 : Rat)).getD (varIndex r c v) 0 = 1 :=
    replicate_getD_of_lt 729 _ 1 0 hidx
  unfold buildFormulation
  simp only []
  rw [e1, e2, g0, g1]
  by_cases hpre : 1 ≤ b.cell r c ∧ b.cell r c ≤ 9
  · constructor <;> rw [if_pos ⟨hmem, hpre⟩, if_pos hpre]
  · constructor <;> rw [if_neg (fun h => hpre h.2), if_neg hpre]

end Solver

/-! ## The rows of the formulation -/

namespace Solver

open Board

theorem sum01_nonneg (x : Nat → Rat) (l : List Nat) (h01 : ∀ i ∈ l, x i = 0 ∨ x i = 1) :
    0 ≤ (l.map x).sum := by
  induction l with
  | nil => simp
  | cons a t ih =>
    have := ih (fun i hi => h01 i (List.mem_cons_of_mem a hi))
    rw [List.map_cons, List.sum_cons]
    rcases h01 a (List.mem_cons_self a t) with h | h <;> rw [h] <;> linarith

theorem sum01_eq_zero (x : Nat → Rat) (l : List Nat) (h01 : ∀ i ∈ l, x i = 0 ∨ x i = 1) :
    (l.map x).sum = 0 ↔ ∀ i ∈ l, x i = 0 := by
  induction l with
  | nil => simp
  | cons a t ih =>
    have h01t : ∀ i ∈ t, x i = 0 ∨ x i = 1 := fun i hi => h01 i (List.mem_cons_of_mem a hi)
    have hnn := sum01_nonneg x t h01t
    rw [List.map_cons, List.sum_cons]
    constructor
    · intro h i hi
      rcases h01 a (List.mem_cons_self a t) with ha | ha
      · rw [ha] at h
        rcases List.mem_cons.mp hi with e | e
        · rw [e]; exact ha
        · exact (ih h01t).mp (by linarith) i e
      · rw [ha] at h
        linarith
    · intro h
      rw [h a (List.mem_cons_self a t), (ih h01t).mpr (fun i hi => h i (List.mem_cons_of_mem a hi))]
      norm_num

/-- A sum of 0/1 values over different indices is 1 exactly when one of them is 1. -/
theorem sum01_eq_one (x : Nat → Rat) (l : List Nat) (hnd : l.Nodup)
    (h01 : ∀ i ∈ l, x i = 0 ∨ x i = 1) :
    (l.map x).sum = 1 ↔ ∃ i ∈ l, x i = 1 ∧ ∀ j ∈ l, x j = 1 → j = i := by
  induction l with
  | nil =>
    simp
  | cons a t ih =>
    have h01t : ∀ i ∈ t, x i = 0 ∨ x i = 1 := fun i hi => h01 i (List.mem_cons_of_mem a hi)
    obtain ⟨hat, hndt⟩ := List.nodup_cons.mp hnd
    rw [List.map_cons, List.sum_cons]
    rcases h01 a (List.mem_cons_self a t) with ha | ha
    · rw [ha, zero_add, ih hndt h01t]
      constructor
      · rintro ⟨i, hi, hx, huniq⟩
        refine ⟨i, List.mem_cons_of_mem a hi, hx, ?_⟩
        intro j hj hxj
        rcases List.mem_cons.mp hj with e | e
        · rw [e, ha] at hxj
          norm_num at hxj
        · exact huniq j e hxj
      · rintro ⟨i, hi, hx, huniq⟩
        rcases List.mem_cons.mp hi with e | e
        · rw [e, ha] at hx
          norm_num at hx
        · exact ⟨i, e, hx, fun j hj hxj => huniq j (List.mem_cons_of_mem a hj) hxj⟩
    · rw [ha]
      constructor
      · intro h
        have h0 : (t.map x).sum = 0 := by linarith
        have hz := (sum01_eq_zero x t h01t).mp h0
        refine ⟨a, List.mem_cons_self a t, ha, ?_⟩
        intro j hj hxj
        rcases List.mem_cons.mp hj with e | e
        · exact e
        · rw [hz j e] at hxj
          norm_num at hxj
      · rintro ⟨i, hi, hx, huniq⟩
        have hia : a = i := huniq a (List.mem_cons_self a t) ha
        have hz : ∀ j ∈ t, x j = 0 := by
          intro j hj
          rcases h01t j hj with h | h
          · exact h
          · have := huniq j (List.mem_cons_of_mem a hj) h
            rw [← hia] at this
            rw [this] at hj
            exact absurd hj hat
        rw [(sum01_eq_zero x t h01t).mpr hz]
        norm_num

theorem unitRow_holds (x : Nat → Rat) (idxs : List Nat) :
    (unitRow idxs).Holds x ↔ (idxs.map x).sum = 1 := by
  unfold Row.Holds unitRow
  simp only [List.map_map]
  have : ((fun e : Nat × Rat => e.2 * x e.1) ∘ fun i => (i, (1 : Rat))) = x := by
    funext i
    simp
  rw [this]
  constructor
  · rintro ⟨h1, h2⟩
    exact le_antisymm h2 h1
  · intro h
    rw [h]
    exact ⟨le_refl _, le_refl _⟩

theorem mem_digits (v : Nat) : v ∈ digits ↔ (1 ≤ v ∧ v ≤ 9) := by
  simp only [digits, List.mem_cons, List.mem_singleton, List.not_mem_nil, or_false]
  omega

theorem blockVars_eq (br bc v : Nat) :
    ((List.range 3).flatMap fun i => (List.range 3).map fun j =>
      varIndex (br * 3 + i) (bc * 3 + j) v) = unitVars (blockUnit br bc) v := by
  rfl

/-- The rows of the formulation: one for each cell, and one for each digit and each row,
column and block. -/
theorem mem_rows (b : Board) (row : Row) :
    row ∈ (buildFormulation b).rows ↔
      ((∃ r < 9, ∃ c < 9, row = unitRow (digits.map fun v => varIndex r c v)) ∨
      (∃ r < 9, ∃ v, (1 ≤ v ∧ v ≤ 9) ∧ row = unitRow (unitVars (rowUnit r) v)) ∨
      (∃ c < 9, ∃ v, (1 ≤ v ∧ v ≤ 9) ∧ row = unitRow (unitVars (colUnit c) v)) ∨
      (∃ br < 3, ∃ bc < 3, ∃ v, (1 ≤ v ∧ v ≤ 9) ∧
        row = unitRow (unitVars (blockUnit br bc) v))) := by
  have hrows : (buildFormulation b).rows =
      cellRows ++ rowValueRows ++ colValueRows ++ blockValueRows := rfl
  rw [hrows]
  simp only [List.mem_append, cellRows, rowValueRows, colValueRows, blockValueRows,
    List.mem_flatMap, List.mem_map, List.mem_range, blockVars_eq, mem_digits, or_assoc]
  constructor
  · rintro (⟨r, hr, c, hc, e⟩ | ⟨r, hr, v, hv, e⟩ | ⟨c, hc, v, hv, e⟩ |
      ⟨br, hbr, bc, hbc, v, hv, e⟩)
    · exact Or.inl ⟨r, hr, c, hc, e.symm⟩
    · exact Or.inr (Or.inl ⟨r, hr, v, hv, e.symm⟩)
    · exact Or.inr (Or.inr (Or.inl ⟨c, hc, v, hv, e.symm⟩))
    · exact Or.inr (Or.inr (Or.inr ⟨br, hbr, bc, hbc, v, hv, e.symm⟩))
  · rintro (⟨r, hr, c, hc, e⟩ | ⟨r, hr, v, hv, e⟩ | ⟨c, hc, v, hv, e⟩ |
      ⟨br, hbr, bc, hbc, v, hv, e⟩)
    · exact Or.inl ⟨r, hr, c, hc, e.symm⟩
    · exact Or.inr (Or.inl ⟨r, hr, v, hv, e.symm⟩)
    · exact Or.inr (Or.inr (Or.inl ⟨c, hc, v, hv, e.symm⟩))
    · exact Or.inr (Or.inr (Or.inr ⟨br, hbr, bc, hbc, v, hv, e.symm⟩))

theorem isUnit_row (r : Nat) (hr : r < 9) : IsUnit (rowUnit r) := by
  refine ⟨fun k hk => ⟨hr, hk⟩, fun k₁ _ k₂ _ h => ?_⟩
  exact congrArg Prod.snd h

theorem isUnit_col (c : Nat) (hc : c < 9) : IsUnit (colUnit c) := by
  refine ⟨fun k hk => ⟨hk, hc⟩, fun k₁ _ k₂ _ h => ?_⟩
  exact congrArg Prod.fst h

theorem isUnit_block (br bc : Nat) (hbr : br < 3) (hbc : bc < 3) : IsUnit (blockUnit br bc) := by
  refine ⟨fun k hk => ?_, fun k₁ _ k₂ _ h => ?_⟩
  · simp only [blockUnit]
    omega
  · have h1 : br * 3 + k₁ / 3 = br * 3 + k₂ / 3 := congrArg Prod.fst h
    have h2 : bc * 3 + k₁ % 3 = bc * 3 + k₂ % 3 := congrArg Prod.snd h
    omega

/-- Nine different values in `1..9` are all of `1..9`. -/
theorem unit_surjective (f : Nat → Int) (hrange : ∀ k < 9, 1 ≤ f k ∧ f k ≤ 9)
    (hinj : ∀ k₁ < 9, ∀ k₂ < 9, f k₁ = f k₂ → k₁ = k₂) (v : Nat) (hv1 : 1 ≤ v) (hv9 : v ≤ 9) :
    ∃ k < 9, f k = (v : Int) := by
  let h : Fin 9 → Fin 9 := fun k =>
    ⟨(f k.val - 1).toNat, by have := hrange k.val k.isLt; omega⟩
  have hinj2 : Function.Injective h := by
    intro k₁ k₂ e
    have e2 : (f k₁.val - 1).toNat = (f k₂.val - 1).toNat := congrArg Fin.val e
    have r1 := hrange k₁.val k₁.isLt
    have r2 := hrange k₂.val k₂.isLt
    have : f k₁.val = f k₂.val := by omega
    exact Fin.ext (hinj _ k₁.isLt _ k₂.isLt this)
  have hsurj : Function.Surjective h := Finite.injective_iff_surjective.mp hinj2
  obtain ⟨k, hk⟩ := hsurj ⟨v - 1, by omega⟩
  refine ⟨k.val, k.isLt, ?_⟩
  have e2 : (f k.val - 1).toNat = v - 1 := congrArg Fin.val hk
  have r1 := hrange k.val k.isLt
  omega

end Solver

/-! ## Assignments and grids -/

namespace Solver

open Board

theorem unitVars_nodup (unit : Nat → Nat × Nat) (hU : IsUnit unit) (v : Nat) (hv1 : 1 ≤ v)
    (hv9 : v ≤ 9) : (unitVars unit v).Nodup := by
  unfold unitVars
  apply List.Nodup.map_on _ (List.nodup_range 9)
  intro k₁ hk₁ k₂ hk₂ h
  have hk₁ := List.mem_range.mp hk₁
  have hk₂ := List.mem_range.mp hk₂
  obtain ⟨e1, e2, _⟩ := varIndex_inj _ _ _ _ _ _ (hU.1 k₁ hk₁).2 hv1 hv9 (hU.1 k₂ hk₂).2 hv1 hv9 h
  exact hU.2 k₁ hk₁ k₂ hk₂ (Prod.ext e1 e2)

theorem cellVars_nodup (r c : Nat) (hc : c < 9) :
    (digits.map fun v => varIndex r c v).Nodup := by
  apply List.Nodup.map_on _ (by decide)
  intro v hv w hw h
  have hv := (mem_digits v).mp hv
  have hw := (mem_digits w).mp hw
  exact (varIndex_inj _ _ _ _ _ _ hc hv.1 hv.2 hc hw.1 hw.2 h).2.2

theorem hot_iff (x : Nat → Rat) (r c v : Nat) (h01 : x (varIndex r c v) = 0 ∨ x (varIndex r c v) = 1) :
    Hot x r c v ↔ x (varIndex r c v) = 1 := by
  unfold Hot
  rcases h01 with h | h <;> rw [h] <;> norm_num

theorem decode_cell (x : Nat → Rat) (r c : Nat) (hr : r < 9) (hc : c < 9) :
    (decode x).cell r c = (findDigit x r c digits : Int) := by
  unfold cell decode
  simp only []
  have hlt : r * 9 + c < 81 := by omega
  rw [List.getD_eq_getElem?_getD, List.getElem?_map, List.getElem?_range hlt]
  have e1 : (r * 9 + c) / 9 = r := by omega
  have e2 : (r * 9 + c) % 9 = c := by omega
  simp only [Option.map_some', Option.getD_some, e1, e2]

/-- Under the indicator of a grid, the row of a digit and a unit holds exactly when the digit
occurs at one and only one position of the unit. -/
theorem valueRow_holds_iff (x : Nat → Rat) (g : Board) (hbin : Binary x)
    (hind : IsIndicator x g) (unit : Nat → Nat × Nat) (hU : IsUnit unit) (v : Nat)
    (hv1 : 1 ≤ v) (hv9 : v ≤ 9) :
    (unitRow (unitVars unit v)).Holds x ↔
      ∃ k < 9, g.cell (unit k).1 (unit k).2 = (v : Int) ∧
        ∀ k₂ < 9, g.cell (unit k₂).1 (unit k₂).2 = (v : Int) → k₂ = k := by
  have hx : ∀ k < 9, (x (varIndex (unit k).1 (unit k).2 v) = 1 ↔
      g.cell (unit k).1 (unit k).2 = (v : Int)) := by
    intro k hk
    rw [hind _ (hU.1 k hk).1 _ (hU.1 k hk).2 v hv1 hv9]
    split
    · simp [*]
    · simp [*]
  have h01 : ∀ i ∈ unitVars unit v, x i = 0 ∨ x i = 1 := by
    intro i hi
    obtain ⟨k, hk, rfl⟩ := List.mem_map.mp hi
    have hk := List.mem_range.mp hk
    exact hbin _ (varIndex_lt _ _ v (hU.1 k hk).1 (hU.1 k hk).2 hv1 hv9)
  rw [unitRow_holds, sum01_eq_one x _ (unitVars_nodup unit hU v hv1 hv9) h01]
  constructor
  · rintro ⟨i, hi, hxi, huniq⟩
    obtain ⟨k, hk, rfl⟩ := List.mem_map.mp hi
    have hk := List.mem_range.mp hk
    refine ⟨k, hk, (hx k hk).mp hxi, ?_⟩
    intro k₂ hk₂ hg
    have hmem : varIndex (unit k₂).1 (unit k₂).2 v ∈ unitVars unit v :=
      List.mem_map.mpr ⟨k₂, List.mem_range.mpr hk₂, rfl⟩
    have := huniq _ hmem ((hx k₂ hk₂).mpr hg)
    obtain ⟨e1, e2, _⟩ :=
      varIndex_inj _ _ _ _ _ _ (hU.1 k₂ hk₂).2 hv1 hv9 (hU.1 k hk).2 hv1 hv9 this
    exact hU.2 k₂ hk₂ k hk (Prod.ext e1 e2)
  · rintro ⟨k, hk, hg, huniq⟩
    refine ⟨_, List.mem_map.mpr ⟨k, List.mem_range.mpr hk, rfl⟩, (hx k hk).mpr hg, ?_⟩
    intro j hj hxj
    obtain ⟨k₂, hk₂, rfl⟩ := List.mem_map.mp hj
    have hk₂ := List.mem_range.mp hk₂
    rw [huniq k₂ hk₂ ((hx k₂ hk₂).mp hxj)]

theorem noDuplicates_iff_units (g : Board) :
    g.NoDuplicates ↔ ((∀ r < 9, UnitDistinct g (rowUnit r)) ∧
      (∀ c < 9, UnitDistinct g (colUnit c)) ∧
      ∀ br < 3, ∀ bc < 3, UnitDistinct g (blockUnit br bc)) := by
  have hblock : g.BlocksDistinct ↔ ∀ br < 3, ∀ bc < 3, UnitDistinct g (blockUnit br bc) := by
    unfold BlocksDistinct UnitDistinct blockUnit
    simp only []
    constructor
    · intro hs br hbr bc hbc i hi j hj hij h0
      exact hs _ (by omega) _ (by omega) _ (by omega) _ (by omega) (by omega) (by omega)
        (by omega) h0
    · intro hs r₁ hr₁ c₁ hc₁ r₂ hr₂ c₂ hc₂ er ec hne h0
      have := hs (r₁ / 3) (by omega) (c₁ / 3) (by omega)
        (r₁ % 3 * 3 + c₁ % 3) (by omega) (r₂ % 3 * 3 + c₂ % 3) (by omega) (by omega)
      have e1 : r₁ / 3 * 3 + (r₁ % 3 * 3 + c₁ % 3) / 3 = r₁ := by omega
      have e2 : c₁ / 3 * 3 + (r₁ % 3 * 3 + c₁ % 3) % 3 = c₁ := by omega
      have e3 : r₁ / 3 * 3 + (r₂ % 3 * 3 + c₂ % 3) / 3 = r₂ := by omega
      have e4 : c₁ / 3 * 3 + (r₂ % 3 * 3 + c₂ % 3) % 3 = c₂ := by omega
      rw [e1, e2, e3, e4] at this
      exact this h0
  unfold NoDuplicates
  rw [hblock]
  exact Iff.rfl

/-- In a grid with every cell in `1..9`, a unit holds no value twice exactly when every digit
occurs at one and only one of its positions. -/
theorem unitDistinct_iff (g : Board) (hg : ∀ r < 9, ∀ c < 9, 1 ≤ g.cell r c ∧ g.cell r c ≤ 9)
    (unit : Nat → Nat × Nat) (hU : IsUnit unit) :
    UnitDistinct g unit ↔ ∀ v : Nat, 1 ≤ v → v ≤ 9 →
      ∃ k < 9, g.cell (unit k).1 (unit k).2 = (v : Int) ∧
        ∀ k₂ < 9, g.cell (unit k₂).1 (unit k₂).2 = (v : Int) → k₂ = k := by
  have hr : ∀ k < 9, 1 ≤ g.cell (unit k).1 (unit k).2 ∧ g.cell (unit k).1 (unit k).2 ≤ 9 :=
    fun k hk => hg _ (hU.1 k hk).1 _ (hU.1 k hk).2
  constructor
  · intro hd v hv1 hv9
    have hinj : ∀ k₁ < 9, ∀ k₂ < 9,
        g.cell (unit k₁).1 (unit k₁).2 = g.cell (unit k₂).1 (unit k₂).2 → k₁ = k₂ := by
      intro k₁ hk₁ k₂ hk₂ e
      by_contra hne
      exact hd k₁ hk₁ k₂ hk₂ hne (by have := hr k₁ hk₁; omega) e
    obtain ⟨k, hk, e⟩ := unit_surjective (fun k => g.cell (unit k).1 (unit k).2) hr hinj v hv1 hv9
    refine ⟨k, hk, e, ?_⟩
    intro k₂ hk₂ e2
    exact hinj k₂ hk₂ k hk (by rw [e2]; exact e.symm)
  · intro h k₁ hk₁ k₂ hk₂ hne _ e
    have r1 := hr k₁ hk₁
    obtain ⟨k, _, _, huniq⟩ := h (g.cell (unit k₁).1 (unit k₁).2).toNat (by omega) (by omega)
    have c1 : (((g.cell (unit k₁).1 (unit k₁).2).toNat : Nat) : Int) =
        g.cell (unit k₁).1 (unit k₁).2 := by omega
    have a1 := huniq k₁ hk₁ c1.symm
    have a2 := huniq k₂ hk₂ (by rw [c1]; exact e.symm)
    omega

end Solver

/-! ## The formulation encodes the puzzle -/

namespace Solver

open Board

/-- The indicator of a solution of the board satisfies the formulation built for the board. -/
theorem feasible_of_solution (b : Board) (x : Nat → Rat) (hbin : Binary x) (g : Board)
    (hs : IsSolutionOf g b) (hind : IsIndicator x g) : Feasible (buildFormulation b) x := by
  have hg : ∀ r < 9, ∀ c < 9, 1 ≤ g.cell r c ∧ g.cell r c ≤ 9 :=
    fun r hr c hc => solution_cell g b hs r c hr hc
  have hnd := (noDuplicates_iff_units g).mp ((isValid_iff g (isValid_inRange g hs.1)).mp hs.1)
  constructor
  · intro i hi
    obtain ⟨r, hr, c, hc, v, hv1, hv9, rfl⟩ := varIndex_onto i hi
    obtain ⟨e1, e2⟩ := buildFormulation_bounds b r c v hr hc hv1 hv9
    rw [e1, e2, hind r hr c hc v hv1 hv9]
    by_cases hpre : 1 ≤ b.cell r c ∧ b.cell r c ≤ 9
    · rw [if_pos hpre, if_pos hpre, hs.2.2 r hr c hc (by omega)]
      by_cases hv : b.cell r c = (v : Int)
      · rw [if_pos hv, if_pos hv.symm]
        exact ⟨le_refl _, le_refl _⟩
      · rw [if_neg hv, if_neg (fun e => hv e.symm)]
        exact ⟨le_refl _, le_refl _⟩
    · rw [if_neg hpre]
      split <;> norm_num
  · intro row hrow
    rcases (mem_rows b row).mp hrow with ⟨r, hr, c, hc, rfl⟩ | ⟨r, hr, v, hv, rfl⟩ |
      ⟨c, hc, v, hv, rfl⟩ | ⟨br, hbr, bc, hbc, v, hv, rfl⟩
    · have h01 : ∀ i ∈ digits.map (fun v => varIndex r c v), x i = 0 ∨ x i = 1 := by
        intro i hi
        obtain ⟨v, hv, rfl⟩ := List.mem_map.mp hi
        have hv := (mem_digits v).mp hv
        exact hbin _ (varIndex_lt r c v hr hc hv.1 hv.2)
      have hcell := hg r hr c hc
      have hcast : (((g.cell r c).toNat : Nat) : Int) = g.cell r c := by omega
      rw [unitRow_holds, sum01_eq_one x _ (cellVars_nodup r c hc) h01]
      refine ⟨varIndex r c (g.cell r c).toNat,
        List.mem_map.mpr ⟨_, (mem_digits _).mpr (by omega), rfl⟩, ?_, ?_⟩
      · rw [hind r hr c hc _ (by omega) (by omega), if_pos hcast.symm]
      · intro j hj hxj
        obtain ⟨w, hw, rfl⟩ := List.mem_map.mp hj
        have hw := (mem_digits w).mp hw
        rw [hind r hr c hc w hw.1 hw.2] at hxj
        have : g.cell r c = (w : Int) := by
          by_contra hne
          rw [if_neg hne] at hxj
          norm_num at hxj
        have : w = (g.cell r c).toNat := by omega
        rw [this]
    · exact (valueRow_holds_iff x g hbin hind _ (isUnit_row r hr) v hv.1 hv.2).mpr
        ((unitDistinct_iff g hg _ (isUnit_row r hr)).mp (hnd.1 r hr) v hv.1 hv.2)
    · exact (valueRow_holds_iff x g hbin hind _ (isUnit_col c hc) v hv.1 hv.2).mpr
        ((unitDistinct_iff g hg _ (isUnit_col c hc)).mp (hnd.2.1 c hc) v hv.1 hv.2)
    · exact (valueRow_holds_iff x g hbin hind _ (isUnit_block br bc hbr hbc) v hv.1 hv.2).mpr
        ((unitDistinct_iff g hg _ (isUnit_block br bc hbr hbc)).mp
          (hnd.2.2 br hbr bc hbc) v hv.1 hv.2)

/-- A 0/1 assignment that satisfies the formulation built for a board with cells in `[0, 9]`
is the indicator of the grid read from it, and that grid is a solution of the board. -/
theorem solution_of_feasible (b : Board) (hb : b.InRange) (x : Nat → Rat) (hbin : Binary x)
    (hf : Feasible (buildFormulation b) x) :
    IsSolutionOf (decode x) b ∧ IsIndicator x (decode x) := by
  -- each cell has one and only one variable at 1, the one of the digit read from it
  have hfound : ∀ r < 9, ∀ c < 9,
      (1 ≤ findDigit x r c digits ∧ findDigit x r c digits ≤ 9) ∧
      ∀ w, 1 ≤ w → w ≤ 9 → (x (varIndex r c w) = 1 ↔ w = findDigit x r c digits) := by
    intro r hr c hc
    have h01 : ∀ i ∈ digits.map (fun v => varIndex r c v), x i = 0 ∨ x i = 1 := by
      intro i hi
      obtain ⟨v, hv, rfl⟩ := List.mem_map.mp hi
      have hv := (mem_digits v).mp hv
      exact hbin _ (varIndex_lt r c v hr hc hv.1 hv.2)
    have hrow := hf.2 _ ((mem_rows b _).mpr (Or.inl ⟨r, hr, c, hc, rfl⟩))
    rw [unitRow_holds, sum01_eq_one x _ (cellVars_nodup r c hc) h01] at hrow
    obtain ⟨i, hi, hxi, huniq⟩ := hrow
    obtain ⟨v0, hv0, rfl⟩ := List.mem_map.mp hi
    have hv0 := (mem_digits v0).mp hv0
    have huniq2 : ∀ w, 1 ≤ w → w ≤ 9 → x (varIndex r c w) = 1 → w = v0 := by
      intro w hw1 hw9 hxw
      have := huniq _ (List.mem_map.mpr ⟨w, (mem_digits w).mpr ⟨hw1, hw9⟩, rfl⟩) hxw
      exact (varIndex_inj _ _ _ _ _ _ hc hw1 hw9 hc hv0.1 hv0.2 this).2.2
    have hhot : ∀ w, 1 ≤ w → w ≤ 9 → (Hot x r c w ↔ x (varIndex r c w) = 1) :=
      fun w hw1 hw9 => hot_iff x r c w (hbin _ (varIndex_lt r c w hr hc hw1 hw9))
    obtain ⟨hzero, hpos⟩ := findDigit_digits x r c
    have hne : findDigit x r c digits ≠ 0 := by
      intro h0
      exact (hzero.mp h0) v0 hv0.1 hv0.2 ((hhot v0 hv0.1 hv0.2).mpr hxi)
    obtain ⟨f1, f9, fhot, _⟩ := hpos hne
    have hfv : findDigit x r c digits = v0 := huniq2 _ f1 f9 ((hhot _ f1 f9).mp fhot)
    refine ⟨⟨f1, f9⟩, fun w hw1 hw9 => ⟨fun h => ?_, fun h => ?_⟩⟩
    · rw [hfv]
      exact huniq2 w hw1 hw9 h
    · rw [h, hfv]
      exact hxi
  have hcell : ∀ r < 9, ∀ c < 9, (decode x).cell r c = (findDigit x r c digits : Int) :=
    fun r hr c hc => decode_cell x r c hr hc
  have hg : ∀ r < 9, ∀ c < 9, 1 ≤ (decode x).cell r c ∧ (decode x).cell r c ≤ 9 := by
    intro r hr c hc
    rw [hcell r hr c hc]
    have := (hfound r hr c hc).1
    omega
  have hind : IsIndicator x (decode x) := by
    intro r hr c hc v hv1 hv9
    rw [hcell r hr c hc]
    have hiff := (hfound r hr c hc).2 v hv1 hv9
    by_cases hv : v = findDigit x r c digits
    · rw [hiff.mpr hv, if_pos (by omega)]
    · rw [if_neg (by omega)]
      rcases hbin _ (varIndex_lt r c v hr hc hv1 hv9) with h | h
      · exact h
      · exact absurd (hiff.mp h) hv
  have hrange : (decode x).InRange :=
    inRange_of_cell _ (fun r hr c hc => by have := hg r hr c hc; omega)
  have hunits : ∀ unit, IsUnit unit →
      (∀ v, 1 ≤ v → v ≤ 9 → (unitRow (unitVars unit v)).Holds x) →
      UnitDistinct (decode x) unit := by
    intro unit hU hrows
    exact (unitDistinct_iff _ hg unit hU).mpr (fun v hv1 hv9 =>
      (valueRow_holds_iff x _ hbin hind unit hU v hv1 hv9).mp (hrows v hv1 hv9))
  have hnd : (decode x).NoDuplicates := by
    rw [noDuplicates_iff_units]
    refine ⟨?_, ?_, ?_⟩
    · intro r hr
      exact hunits _ (isUnit_row r hr) (fun v hv1 hv9 =>
        hf.2 _ ((mem_rows b _).mpr (Or.inr (Or.inl ⟨r, hr, v, ⟨hv1, hv9⟩, rfl⟩))))
    · intro c hc
      exact hunits _ (isUnit_col c hc) (fun v hv1 hv9 =>
        hf.2 _ ((mem_rows b _).mpr (Or.inr (Or.inr (Or.inl ⟨c, hc, v, ⟨hv1, hv9⟩, rfl⟩)))))
    · intro br hbr bc hbc
      exact hunits _ (isUnit_block br bc hbr hbc) (fun v hv1 hv9 =>
        hf.2 _ ((mem_rows b _).mpr
          (Or.inr (Or.inr (Or.inr ⟨br, hbr, bc, hbc, v, ⟨hv1, hv9⟩, rfl⟩)))))
  refine ⟨⟨(isValid_iff _ hrange).mpr hnd, ?_, ?_⟩, hind⟩
  · rw [isFilled_iff]
    intro r hr c hc
    have := hg r hr c hc
    omega
  · intro r hr c hc hne
    have hbc := inRange_cell b hb r c hr hc
    have hpre : 1 ≤ b.cell r c ∧ b.cell r c ≤ 9 := by omega
    have hcast : (((b.cell r c).toNat : Nat) : Int) = b.cell r c := by omega
    obtain ⟨e1, _⟩ := buildFormulation_bounds b r c (b.cell r c).toNat hr hc (by omega)
      (by omega)
    rw [if_pos hpre, if_pos hcast] at e1
    have hlow := (hf.1 _ (varIndex_lt r c (b.cell r c).toNat hr hc (by omega) (by omega))).1
    rw [e1] at hlow
    have hx1 : x (varIndex r c (b.cell r c).toNat) = 1 := by
      rcases hbin _ (varIndex_lt r c (b.cell r c).toNat hr hc (by omega) (by omega)) with h | h
      · rw [h] at hlow
        norm_num at hlow
      · exact h
    have := ((hfound r hr c hc).2 _ (by omega) (by omega)).mp hx1
    rw [hcell r hr c hc, ← this, hcast]

end Solver

/-! ## Termination of the search -/

namespace Solver

open Board

/-- The search returns on every board, valid or not, when the fuel exceeds the number of empty
cells; a search that fails leaves the board as it was. -/
theorem solveBacktrack_total (fuel : Nat) (b : Board) (hcount : emptyCount b < fuel) :
    ∃ ok b2, solveBacktrack fuel b = some (ok, b2) ∧ (ok = false → b2 = b) := by
  cases fuel with
  | zero => omega
  | succ n =>
    rw [solveBacktrack]
    cases hch : chooseCellMRV b with
    | none => exact ⟨b.isFilled, b, rfl, fun _ => rfl⟩
    | some x =>
      obtain ⟨r, c, mask⟩ := x
      obtain ⟨hr, hc, h0, hm⟩ := chooseCellMRV_some b r c mask hch
      subst hm
      simp only []
      obtain ⟨ok, b2, e, hf, _, _⟩ := tryDigits_spec (solveBacktrack n) n
        (fun b1 h1 h2 => solveBacktrack_spec n b1 h1 h2) b hcount r c
        hr hc h0 [1, 2, 3, 4, 5, 6, 7, 8, 9] (by
          intro v hv
          simp only [List.mem_cons, List.mem_singleton, List.not_mem_nil, or_false] at hv
          omega)
      exact ⟨ok, b2, e, hf⟩

/-- The loop gives the same result with a recursive call that returns more often. -/
theorem tryDigits_mono (rec1 rec2 : Board → Option (Bool × Board))
    (hrec : ∀ b1 x, rec1 b1 = some x → rec2 b1 = some x) (r c : Nat) (mask : Mask) :
    ∀ (vs : List Nat) (b : Board) (x : Bool × Board),
      tryDigits rec1 r c mask vs b = some x → tryDigits rec2 r c mask vs b = some x := by
  intro vs
  induction vs with
  | nil => intro b x h; exact h
  | cons v vs ih =>
    intro b x h
    rw [tryDigits] at h ⊢
    by_cases hbit : mask &&& (1 <<< v) = 0
    · rw [if_pos hbit] at h ⊢
      exact ih b x h
    · rw [if_neg hbit] at h ⊢
      simp only [] at h ⊢
      by_cases hval : (b.put r c v).isValid = true
      · rw [if_pos hval] at h ⊢
        cases h1 : rec1 (b.put r c v) with
        | none => rw [h1] at h; cases h
        | some y =>
          rw [h1] at h
          rw [hrec _ _ h1]
          obtain ⟨ok, b2⟩ := y
          cases ok
          · simp only [] at h ⊢
            exact ih _ x h
          · exact h
      · rw [if_neg hval] at h ⊢
        simp only [] at h ⊢
        exact ih _ x h

/-- A search that returns with some fuel returns the same with more fuel. -/
theorem solveBacktrack_mono : ∀ (fuel : Nat) (b : Board) (x : Bool × Board),
    solveBacktrack fuel b = some x → solveBacktrack (fuel + 1) b = some x := by
  intro fuel
  induction fuel with
  | zero => intro b x h; cases h
  | succ n ih =>
    intro b x h
    rw [solveBacktrack] at h ⊢
    cases hch : chooseCellMRV b with
    | none => rw [hch] at h; exact h
    | some y =>
      obtain ⟨r, c, mask⟩ := y
      rw [hch] at h
      simp only [] at h ⊢
      exact tryDigits_mono _ _ ih r c mask _ b x h

theorem solveBacktrack_add (fuel : Nat) (b : Board) (x : Bool × Board)
    (h : solveBacktrack fuel b = some x) : ∀ k, solveBacktrack (fuel + k) b = some x := by
  intro k
  induction k with
  | zero => exact h
  | succ k ih => exact solveBacktrack_mono _ b x ih

/-- The result of the search does not depend on the fuel, once the fuel exceeds the number of
empty cells. -/
theorem solveBacktrack_fuel (fuel : Nat) (b : Board) (hcount : emptyCount b < fuel) :
    solveBacktrack fuel b = solveBacktrack (emptyCount b + 1) b := by
  obtain ⟨ok, b2, e, _⟩ := solveBacktrack_total (emptyCount b + 1) b (by omega)
  have := solveBacktrack_add _ b _ e (fuel - (emptyCount b + 1))
  have e2 : emptyCount b + 1 + (fuel - (emptyCount b + 1)) = fuel := by omega
  rw [e2] at this
  rw [this, e]

/-- A search that fails leaves the board as it was, whatever the fuel. -/
theorem solveBacktrack_false (fuel : Nat) (b b2 : Board)
    (h : solveBacktrack fuel b = some (false, b2)) : b2 = b := by
  have h1 := solveBacktrack_add fuel b _ h (emptyCount b + 1)
  obtain ⟨ok, b3, e, hf⟩ := solveBacktrack_total (fuel + (emptyCount b + 1)) b (by omega)
  rw [h1] at e
  cases e
  exact hf rfl

/-- Every board on which the loop calls the search is the board of the loop with a digit in the
chosen cell: it is valid and has one empty cell fewer. -/
theorem tryDigitsCalls_spec (recurse : Board → Option (Bool × Board))
    (hrec : ∀ b1 b2, b1.isValid = true → recurse b1 = some (false, b2) → b2 = b1)
    (b : Board) (r c : Nat) (hr : r < 9) (hc : c < 9) (he : b.cell r c = 0) (mask : Mask) :
    ∀ vs : List Nat, (∀ v ∈ vs, 1 ≤ v ∧ v ≤ 9) →
      ∀ b1 ∈ tryDigitsCalls recurse r c mask vs b,
        b1.isValid = true ∧ emptyCount b1 + 1 = emptyCount b ∧
          ∃ v : Nat, 1 ≤ v ∧ v ≤ 9 ∧ mask.testBit v = true ∧ b1 = b.put r c v := by
  intro vs
  induction vs with
  | nil => intro _ b1 h; cases h
  | cons v vs ih =>
    intro hvs b1 h
    have ih2 := ih (fun w hw => hvs w (List.mem_cons_of_mem v hw))
    have hv := hvs v (List.mem_cons_self v vs)
    rw [tryDigitsCalls] at h
    by_cases hbit : mask &&& (1 <<< v) = 0
    · rw [if_pos hbit] at h
      exact ih2 b1 h
    · rw [if_neg hbit] at h
      simp only [] at h
      have hv0 : (v : Int) ≠ 0 := by omega
      have hrestore : (b.put r c v).put r c 0 = b := put_put b r c v hr hc he
      have hbit2 : mask.testBit v = true := by
        cases hb : mask.testBit v with
        | true => rfl
        | false => exact absurd ((mask_test_iff mask v).mpr hb) hbit
      by_cases hval : (b.put r c v).isValid = true
      · rw [if_pos hval] at h
        have hhere : (b.put r c v).isValid = true ∧
            emptyCount (b.put r c v) + 1 = emptyCount b ∧
            ∃ w : Nat, 1 ≤ w ∧ w ≤ 9 ∧ mask.testBit w = true ∧ b.put r c v = b.put r c w :=
          ⟨hval, emptyCount_put b r c v hr hc he hv0, v, hv.1, hv.2, hbit2, rfl⟩
        cases h1 : recurse (b.put r c v) with
        | none =>
          rw [h1] at h
          simp only [List.mem_singleton] at h
          rw [h]
          exact hhere
        | some y =>
          obtain ⟨ok, b2⟩ := y
          rw [h1] at h
          cases ok
          · simp only [List.mem_cons] at h
            rcases h with h | h
            · rw [h]
              exact hhere
            · rw [hrec _ _ hval h1, hrestore] at h
              exact ih2 b1 h
          · simp only [List.mem_singleton] at h
            rw [h]
            exact hhere
      · rw [if_neg hval, hrestore] at h
        exact ih2 b1 h

/-- Every recursive call of one activation of the search is made on a valid board with one
empty cell fewer, which is the board of the caller with a candidate digit in the chosen cell. -/
theorem recursiveCalls_spec (fuel : Nat) (b : Board) :
    ∀ b1 ∈ recursiveCalls fuel b, b1.isValid = true ∧ emptyCount b1 + 1 = emptyCount b ∧
      ∃ r c mask, chooseCellMRV b = some (r, c, mask) ∧
        ∃ v : Nat, 1 ≤ v ∧ v ≤ 9 ∧ mask.testBit v = true ∧ b1 = b.put r c v := by
  intro b1 h
  cases fuel with
  | zero => cases h
  | succ n =>
    rw [recursiveCalls] at h
    cases hch : chooseCellMRV b with
    | none => rw [hch] at h; cases h
    | some x =>
      obtain ⟨r, c, mask⟩ := x
      rw [hch] at h
      simp only [] at h
      obtain ⟨hr, hc, h0, _⟩ := chooseCellMRV_some b r c mask hch
      have key := tryDigitsCalls_spec (solveBacktrack n)
        (fun b3 b4 _ e => solveBacktrack_false n b3 b4 e) b r c hr hc h0 mask
        [1, 2, 3, 4, 5, 6, 7, 8, 9] (by
          intro v hv
          simp only [List.mem_cons, List.mem_singleton, List.not_mem_nil, or_false] at hv
          omega) b1 h
      exact ⟨key.1, key.2.1, r, c, mask, rfl, key.2.2⟩

theorem foldr_max_le (m : Nat) : ∀ l : List Nat, (∀ x ∈ l, x ≤ m) → l.foldr max 0 ≤ m := by
  intro l
  induction l with
  | nil => intro _; exact Nat.zero_le m
  | cons a l ih =>
    intro h
    rw [List.foldr_cons]
    exact Nat.max_le.mpr ⟨h a (List.mem_cons_self a l),
      ih fun x hx => h x (List.mem_cons_of_mem a hx)⟩

/-- The recursion below an activation of the search is never deeper than the number of empty
cells of its board. -/
theorem callDepth_le : ∀ (fuel : Nat) (b : Board), callDepth fuel b ≤ emptyCount b := by
  intro fuel
  induction fuel with
  | zero => intro b; exact Nat.zero_le _
  | succ n ih =>
    intro b
    rw [callDepth]
    apply foldr_max_le
    intro x hx
    obtain ⟨b1, hb1, e⟩ := List.mem_map.mp hx
    have h1 := (recursiveCalls_spec (n + 1) b b1 hb1).2.1
    have h2 := ih b1
    omega

end Solver

/-! ## The claims on parsing and rendering -/

/-- C7: `Board::fromString` fails with the invalid-format error (`std::invalid_argument`) if and
only if the string does not have exactly 81 characters or holds a character outside the alphabet
of the dot and the ten digits, and otherwise succeeds; every string of 80 characters is rejected;
the encoding `dupRowEncoding`, of legal length and alphabet with two 5s in row 0, is accepted
although the board it gives is not valid. -/
theorem C7_fromString_fails_iff (b : Board) (s : String) :
    ((b.fromString s).1 = .error .invalidArgument ↔
      (s.length ≠ 81 ∨
        ∃ ch ∈ s.data, ch ∉ ['.', '0', '1', '2', '3', '4', '5', '6', '7', '8', '9'])) ∧
    ((b.fromString s).1 = .error .invalidArgument ∨ (b.fromString s).1 = .ok ()) ∧
    (s.length = 80 → (b.fromString s).1 = .error .invalidArgument) ∧
    ((b.fromString dupRowEncoding).1 = .ok () ∧
      (b.fromString dupRowEncoding).2.cell 0 0 = 5 ∧
      (b.fromString dupRowEncoding).2.cell 0 1 = 5 ∧
      (b.fromString dupRowEncoding).2.isValid = false) := by
  have hiff := Board.fromString_error_iff b s
  refine ⟨?_, (Board.fromString_outcome b s).symm, ?_, ?_⟩
  · rw [hiff]
    simp only [Board.legalChar_iff_mem]
  · intro h
    exact hiff.mpr (Or.inl (by omega))
  · have hv : Board.ValidEncoding dupRowEncoding := by decide
    obtain ⟨e1, e2⟩ := Board.fromString_valid b dupRowEncoding hv
    have e3 := (Board.fromString_valid Board.clear dupRowEncoding hv).2
    have hb : (b.fromString dupRowEncoding).2 = (Board.clear.fromString dupRowEncoding).2 := by
      apply Board.ext_data
      intro j hj
      rw [e2 j hj, e3 j hj]
    rw [hb]
    refine ⟨?_, ?_, ?_, ?_⟩
    · exact e1
    · decide
    · decide
    · decide

/-- C8, counterexample: on the cleared board, `fromString` fails on `badCharEncoding` (81 characters,
the character at index 1 outside the alphabet), and the cell (0, 0), which held 0, holds 1 after
the failed call. -/
theorem C8_counterexample :
    (Board.clear.fromString badCharEncoding).1 = .error .invalidArgument ∧
    Board.clear.get 0 0 = .ok 0 ∧
    (Board.clear.fromString badCharEncoding).2.get 0 0 = .ok 1 ∧
    (Board.clear.fromString badCharEncoding).2 ≠ Board.clear := by
  decide

/-- C8, amended: when `fromString` fails on a string of the wrong length, the board is unchanged;
when it fails on a string of 81 characters, there is a first character outside the alphabet, at
an index `k`, every cell at a row-major index `k` or more is unchanged, and the cells before it
hold the values of the characters before index `k`. -/
theorem C8_fromString_failure_frame (b : Board) (s : String)
    (hfail : (b.fromString s).1 = .error .invalidArgument) :
    (s.length ≠ 81 → (b.fromString s).2 = b) ∧
    (s.length = 81 → ∃ k < 81, ¬ Board.LegalChar (s.data.getD k ' ') ∧
      (∀ j < k, Board.LegalChar (s.data.getD j ' ')) ∧
      ∀ r < 9, ∀ c < 9, (b.fromString s).2.cell r c =
        if r * 9 + c < k then Board.charValue (s.data.getD (r * 9 + c) ' ') else b.cell r c) := by
  constructor
  · intro h
    simp [Board.fromString, h]
  · intro hlen
    obtain ⟨k, hk, h1, h2⟩ := Board.exists_first_illegal s.data 81
    obtain ⟨e1, e2⟩ := Board.fromString_of_first_illegal b s k hlen hk h1 h2
    have hk2 : k < 81 := by
      by_contra hc
      have : k = 81 := by omega
      rw [e1, if_pos this] at hfail
      exact absurd hfail (by decide)
    refine ⟨k, hk2, h2 hk2, h1, ?_⟩
    intro r _ c _
    exact e2 (r * 9 + c)

/-- C8, witness: the amended statement at the cleared board and `badCharEncoding`. -/
theorem C8_fromString_failure_frame_witness :
    (Board.clear.fromString badCharEncoding).1 = .error .invalidArgument ∧
    ((badCharEncoding.length ≠ 81 → (Board.clear.fromString badCharEncoding).2 = Board.clear) ∧
    (badCharEncoding.length = 81 → ∃ k < 81,
      ¬ Board.LegalChar (badCharEncoding.data.getD k ' ') ∧
      (∀ j < k, Board.LegalChar (badCharEncoding.data.getD j ' ')) ∧
      ∀ r < 9, ∀ c < 9, (Board.clear.fromString badCharEncoding).2.cell r c =
        if r * 9 + c < k then Board.charValue (badCharEncoding.data.getD (r * 9 + c) ' ')
        else Board.clear.cell r c)) :=
  ⟨by decide, C8_fromString_failure_frame Board.clear badCharEncoding (by decide)⟩

/-- C9: for a valid encoding `s` of 81 characters, `fromString` succeeds and afterwards, for all
`r, c` in `[0, 9)`, `get(r, c)` returns 0 when `s[9 * r + c]` is the dot or the character 0, and
returns `d` when `s[9 * r + c]` is the digit character of `d` in `1..9`. -/
theorem C9_fromString_row_major (b : Board) (s : String) (h : Board.ValidEncoding s)
    (r c : Nat) (hr : r < 9) (hc : c < 9) :
    (b.fromString s).1 = .ok () ∧
    ((s.data.getD (9 * r + c) ' ' = '.' ∨ s.data.getD (9 * r + c) ' ' = '0') →
      (b.fromString s).2.get r c = .ok 0) ∧
    (∀ d : Nat, 1 ≤ d → d ≤ 9 → s.data.getD (9 * r + c) ' ' = Char.ofNat (48 + d) →
      (b.fromString s).2.get r c = .ok (d : Int)) := by
  obtain ⟨e1, e2⟩ := Board.fromString_valid b s h
  have hget : (b.fromString s).2.get r c =
      .ok (Board.charValue (s.data.getD (9 * r + c) ' ')) := by
    rw [Board.get_inRange _ r c hr hc]
    unfold Board.cell
    rw [e2 _ (by omega)]
    have : r * 9 + c = 9 * r + c := by omega
    rw [this]
  refine ⟨e1, ?_, ?_⟩
  · intro h0
    rw [hget]
    simp only [Board.charValue, if_pos h0]
  · intro d hd1 hd2 hch
    rw [hget, hch]
    interval_cases d <;> decide

/-- C9, witness: the statement at the cleared board, the puzzle of `board_test.cpp` and the
cell (0, 3), whose character is the digit 4. -/
theorem C9_fromString_row_major_witness :
    Board.ValidEncoding testPuzzle ∧
    ((Board.clear.fromString testPuzzle).1 = .ok () ∧
    ((testPuzzle.data.getD (9 * 0 + 3) ' ' = '.' ∨ testPuzzle.data.getD (9 * 0 + 3) ' ' = '0') →
      (Board.clear.fromString testPuzzle).2.get (0 : Nat) (3 : Nat) = .ok 0) ∧
    (∀ d : Nat, 1 ≤ d → d ≤ 9 → testPuzzle.data.getD (9 * 0 + 3) ' ' = Char.ofNat (48 + d) →
      (Board.clear.fromString testPuzzle).2.get (0 : Nat) (3 : Nat) = .ok (d : Int))) :=
  ⟨by decide, C9_fromString_row_major Board.clear testPuzzle (by decide) 0 3 (by decide)
    (by decide)⟩

/-- C10, counterexample: `zeroEncoding` is a valid encoding, but the string `Board::toString`
gives for the board parsed from it is not `zeroEncoding` (it has 338 characters), and neither
are its cell characters, which start with a dot where `zeroEncoding` has the character 0. -/
theorem C10_counterexample :
    Board.ValidEncoding zeroEncoding ∧
    (Board.clear.fromString zeroEncoding).1 = .ok () ∧
    (Board.clear.fromString zeroEncoding).2.toString ≠ zeroEncoding ∧
    (Board.clear.fromString zeroEncoding).2.toString.length = 338 ∧
    Board.stripFrame (Board.clear.fromString zeroEncoding).2.toString ≠ zeroEncoding ∧
    Board.stripFrame (Board.clear.fromString zeroEncoding).2.toString = emptyEncoding := by
  decide

/-- C10, amended: for every valid encoding `s`, the cell characters of the rendering
`Board::toString` of the board parsed from `s` (the rendering without its frame characters) are
`s` with every character 0 replaced by a dot; they are `s` itself when `s` has no character 0. -/
theorem C10_render_roundtrip (b : Board) (s : String) (h : Board.ValidEncoding s) :
    Board.stripFrame (b.fromString s).2.toString = Board.dotted s ∧
    ((∀ ch ∈ s.data, ch ≠ '0') → Board.stripFrame (b.fromString s).2.toString = s) := by
  have e := Board.stripFrame_fromString b s h
  refine ⟨e, fun h0 => ?_⟩
  rw [e, Board.dotted_eq_self s h0]

/-- C10, witness: the amended statement at the cleared board and the puzzle of
`board_test.cpp`. -/
theorem C10_render_roundtrip_witness :
    Board.ValidEncoding testPuzzle ∧
    (Board.stripFrame (Board.clear.fromString testPuzzle).2.toString = Board.dotted testPuzzle ∧
    ((∀ ch ∈ testPuzzle.data, ch ≠ '0') →
      Board.stripFrame (Board.clear.fromString testPuzzle).2.toString = testPuzzle)) :=
  ⟨by decide, C10_render_roundtrip Board.clear testPuzzle (by decide)⟩

/-! ## The claims on validity and solving -/

/-- C1: for every board with cells in `[0, 9]` and either method, `Solver::solve` returns, and if
it returns true then the board it leaves behind satisfies `isValid()` and `isFilled()`: no cell
is 0 and no row, column or 3x3 block holds a digit twice. -/
theorem C1_solve_sound (b : Board) (_hr : b.InRange) (m : Method) :
    ∃ ok b2, Solver.solve b m = some (ok, b2) ∧
      (ok = true → b2.isValid = true ∧ b2.isFilled = true ∧
        (∀ r < 9, ∀ c < 9, b2.cell r c ≠ 0) ∧ b2.NoDuplicates) := by
  rcases Solver.solve_spec b m with ⟨_, e⟩ | ⟨_, _, e⟩ | ⟨_, _, ok, b2, e, _, ht, _⟩
  · exact ⟨false, b, e, fun h => by cases h⟩
  · exact ⟨false, b, e, fun h => by cases h⟩
  · refine ⟨ok, b2, e, fun h => ?_⟩
    obtain ⟨h1, h2, _⟩ := ht h
    exact ⟨h1, h2, (Solver.isFilled_iff b2).mp h2,
      (Board.isValid_iff b2 (Board.isValid_inRange b2 h1)).mp h1⟩

/-- C1, witness: on `almostSolved` the backtracking method returns true and leaves
`solvedGrid`. -/
theorem C1_solve_sound_witness :
    almostSolved.InRange ∧
    Solver.solve almostSolved Method.Backtracking = some (true, solvedGrid) ∧
    ∃ ok b2, Solver.solve almostSolved Method.Backtracking = some (ok, b2) ∧
      (ok = true → b2.isValid = true ∧ b2.isFilled = true ∧
        (∀ r < 9, ∀ c < 9, b2.cell r c ≠ 0) ∧ b2.NoDuplicates) :=
  ⟨by decide, by decide, C1_solve_sound almostSolved (by decide) Method.Backtracking⟩

/-- C2: for every board with cells in `[0, 9]` that has a solution (a filled valid grid that
agrees with the board on every non-zero cell), `Solver::solve` with the backtracking method
returns true; and it returns true on the board built from the string of 81 dots. -/
theorem C2_backtracking_complete (b : Board) (_hr : b.InRange) (s : Board)
    (hs : Solver.IsSolutionOf s b) :
    (∃ b2, Solver.solve b Method.Backtracking = some (true, b2)) ∧
    (Board.clear.fromString emptyEncoding).1 = .ok () ∧
    ∃ b2, Solver.solve (Board.clear.fromString emptyEncoding).2 Method.Backtracking =
      some (true, b2) := by
  have main : ∀ (b s : Board), Solver.IsSolutionOf s b →
      ∃ b2, Solver.solve b Method.Backtracking = some (true, b2) := by
    intro b s hs
    rcases Solver.solve_spec b Method.Backtracking with
      ⟨hv, _⟩ | ⟨_, hm, _⟩ | ⟨_, _, ok, b2, e, _, _, hsol⟩
    · rw [Solver.solution_isValid s b hs] at hv
      cases hv
    · cases hm
    · have := hsol ⟨s, hs⟩
      subst this
      exact ⟨b2, e⟩
  exact ⟨main b s hs, by decide, main _ solvedGrid (by decide)⟩

/-- C2, witness: the board of `board_test.cpp` with its solution `testSolution`. -/
theorem C2_backtracking_complete_witness :
    testBoard.InRange ∧ Solver.IsSolutionOf testSolution testBoard ∧
    ((∃ b2, Solver.solve testBoard Method.Backtracking = some (true, b2)) ∧
    (Board.clear.fromString emptyEncoding).1 = .ok () ∧
    ∃ b2, Solver.solve (Board.clear.fromString emptyEncoding).2 Method.Backtracking =
      some (true, b2)) :=
  ⟨by decide, by decide, C2_backtracking_complete testBoard (by decide) testSolution (by decide)⟩

/-- C3: for every board with cells in `[0, 9]` and either method, `Solver::solve` returns, and if
it returns false then the board is the board before the call: all 81 cells read through `get` are
equal to their values before the call. -/
theorem C3_solve_restores (b : Board) (_hr : b.InRange) (m : Method) :
    ∃ ok b2, Solver.solve b m = some (ok, b2) ∧
      (ok = false → b2 = b ∧ ∀ r < 9, ∀ c < 9, b2.get r c = b.get r c) := by
  rcases Solver.solve_spec b m with ⟨_, e⟩ | ⟨_, _, e⟩ | ⟨_, _, ok, b2, e, hf, _, _⟩
  · exact ⟨false, b, e, fun _ => ⟨rfl, fun _ _ _ _ => rfl⟩⟩
  · exact ⟨false, b, e, fun _ => ⟨rfl, fun _ _ _ _ => rfl⟩⟩
  · refine ⟨ok, b2, e, fun h => ?_⟩
    rw [hf h]
    exact ⟨rfl, fun _ _ _ _ => rfl⟩

/-- C3, witness: on `deadEndBoard` the search places the digit 2 at (0, 0), fails below, undoes
the placement and returns false with the board as it was. -/
theorem C3_solve_restores_witness :
    deadEndBoard.InRange ∧ deadEndBoard.isValid = true ∧
    Solver.solve deadEndBoard Method.Backtracking = some (false, deadEndBoard) ∧
    ∃ ok b2, Solver.solve deadEndBoard Method.Backtracking = some (ok, b2) ∧
      (ok = false → b2 = deadEndBoard ∧
        ∀ r < 9, ∀ c < 9, b2.get r c = deadEndBoard.get r c) :=
  ⟨by decide, by decide, by decide,
    C3_solve_restores deadEndBoard (by decide) Method.Backtracking⟩

/-- C4: for every board that has two equal non-zero values in some row, column or 3x3 block,
`isValid()` is false and `Solver::solve` returns false for either method, with every cell
unchanged and without running the search: the result is the same whatever fuel the search is
given, also none. -/
theorem C4_solve_rejects_duplicates (b : Board) (h : b.HasDuplicate) (m : Method) :
    b.isValid = false ∧ Solver.solve b m = some (false, b) ∧
      ∀ fuel, Solver.solveFuel fuel b m = some (false, b) := by
  have hv : b.isValid = false := by
    apply Bool.eq_false_iff.mpr
    intro hv
    have hnd := (Board.isValid_iff b (Board.isValid_inRange b hv)).mp hv
    obtain ⟨r₁, hr₁, c₁, hc₁, r₂, hr₂, c₂, hc₂, hne, hunit, h0, e⟩ := h
    rcases hunit with e1 | e1 | ⟨e1, e2⟩
    · subst e1
      exact hnd.1 r₁ hr₁ c₁ hc₁ c₂ hc₂ (by omega) h0 e
    · subst e1
      exact hnd.2.1 c₁ hc₁ r₁ hr₁ r₂ hr₂ (by omega) h0 e
    · exact hnd.2.2 r₁ hr₁ c₁ hc₁ r₂ hr₂ c₂ hc₂ e1 e2 hne h0 e
  have hfuel : ∀ fuel, Solver.solveFuel fuel b m = some (false, b) := by
    intro fuel
    unfold Solver.solveFuel
    rw [hv]
    rfl
  exact ⟨hv, hfuel 82, hfuel⟩

/-- C4, witness: the board with two 5s in row 0, at the cells (0, 0) and (0, 1). -/
theorem C4_solve_rejects_duplicates_witness :
    dupRowBoard.HasDuplicate ∧
    (dupRowBoard.isValid = false ∧
      Solver.solve dupRowBoard Method.MILP = some (false, dupRowBoard) ∧
      ∀ fuel, Solver.solveFuel fuel dupRowBoard Method.MILP = some (false, dupRowBoard)) :=
  have h : dupRowBoard.HasDuplicate :=
    ⟨0, by decide, 0, by decide, 0, by decide, 1, by decide, by decide, by decide, by decide,
      by decide⟩
  ⟨h, C4_solve_rejects_duplicates dupRowBoard h Method.MILP⟩

/-- C5: for every board with cells in `[0, 9]` and either method, `Solver::solve` returns, and if
it returns true then every cell that was non-zero before the call holds the same value after
it. -/
theorem C5_solve_keeps_givens (b : Board) (_hr : b.InRange) (m : Method) :
    ∃ ok b2, Solver.solve b m = some (ok, b2) ∧
      (ok = true → ∀ r < 9, ∀ c < 9, b.cell r c ≠ 0 → b2.get r c = b.get r c) := by
  rcases Solver.solve_spec b m with ⟨_, e⟩ | ⟨_, _, e⟩ | ⟨_, _, ok, b2, e, _, ht, _⟩
  · exact ⟨false, b, e, fun h => by cases h⟩
  · exact ⟨false, b, e, fun h => by cases h⟩
  · refine ⟨ok, b2, e, fun h r hr c hc h0 => ?_⟩
    rw [Board.get_inRange b2 r c hr hc, Board.get_inRange b r c hr hc,
      (ht h).2.2 r hr c hc h0]

/-- C5, witness: on `almostSolved` the backtracking method returns true and the 78 given cells
are the same in the board `solvedGrid` it leaves. -/
theorem C5_solve_keeps_givens_witness :
    almostSolved.InRange ∧
    Solver.solve almostSolved Method.Backtracking = some (true, solvedGrid) ∧
    ∃ ok b2, Solver.solve almostSolved Method.Backtracking = some (ok, b2) ∧
      (ok = true → ∀ r < 9, ∀ c < 9, almostSolved.cell r c ≠ 0 →
        b2.get r c = almostSolved.get r c) :=
  ⟨by decide, by decide, C5_solve_keeps_givens almostSolved (by decide) Method.Backtracking⟩

/-- C6: for every grid with cells in `[0, 9]`, `isValid` is true if and only if no row, no
column and no 3x3 block of the grid contains two equal non-zero values. -/
theorem C6_isValid_iff_no_duplicates (g : Board) (hr : g.InRange) :
    g.isValid = true ↔ g.NoDuplicates :=
  Board.isValid_iff g hr

/-- C6, witness: the statement at the board with two 5s in row 0, which is not valid. -/
theorem C6_isValid_iff_no_duplicates_witness :
    dupRowBoard.InRange ∧ dupRowBoard.isValid = false ∧
    (dupRowBoard.isValid = true ↔ dupRowBoard.NoDuplicates) :=
  ⟨by decide, by decide, C6_isValid_iff_no_duplicates dupRowBoard (by decide)⟩

/-! ## The claims on accessors and views -/

/-- C11: `set(row, col, v)` fails with the out-of-range error if and only if `row` or `col` is
outside `[0, 9)` or `v` is outside `[0, 9]`, and then leaves the board unchanged; otherwise it
succeeds, `get(row, col)` returns `v` afterwards and `get` of every other cell returns what it
returned before.  `get(row, col)` fails if and only if `row` or `col` is outside `[0, 9)`, and
otherwise returns the stored value. -/
theorem C11_set_get_contract (b : Board) (row col v : Int) :
    ((b.set row col v).1 = .error .outOfRange ↔
      (row < 0 ∨ row ≥ 9 ∨ col < 0 ∨ col ≥ 9 ∨ v < 0 ∨ v > 9)) ∧
    ((b.set row col v).1 = .error .outOfRange → (b.set row col v).2 = b) ∧
    ((b.set row col v).1 ≠ .error .outOfRange →
      (b.set row col v).1 = .ok () ∧ (b.set row col v).2.get row col = .ok v ∧
      ∀ r2 c2 : Int, (r2 ≠ row ∨ c2 ≠ col) →
        (b.set row col v).2.get r2 c2 = b.get r2 c2) ∧
    (b.get row col = .error .outOfRange ↔ (row < 0 ∨ row ≥ 9 ∨ col < 0 ∨ col ≥ 9)) ∧
    (¬ (row < 0 ∨ row ≥ 9 ∨ col < 0 ∨ col ≥ 9) →
      b.get row col = .ok (b.cell row.toNat col.toNat)) := by
  have hget := Board.get_eq b row col
  have hset := Board.set_eq b row col v
  by_cases hidx : row < 0 ∨ row ≥ 9 ∨ col < 0 ∨ col ≥ 9
  · rw [if_pos hidx] at hget hset
    rw [hset, hget]
    refine ⟨⟨fun _ => (by omega), fun _ => rfl⟩, fun _ => rfl, fun h => absurd rfl h,
      ⟨fun _ => hidx, fun _ => rfl⟩, fun h => absurd hidx h⟩
  · rw [if_neg hidx] at hget hset
    have hget2 : b.get row col ≠ .error .outOfRange := by
      rw [hget]
      exact fun h => by cases h
    refine ⟨?_, ?_, ?_, ⟨fun h => absurd h hget2, fun h => absurd h hidx⟩, fun _ => hget⟩
    · by_cases hv : v < 0 ∨ v > 9
      · rw [if_pos hv] at hset
        rw [hset]
        exact ⟨fun _ => (by omega), fun _ => rfl⟩
      · rw [if_neg hv] at hset
        rw [hset]
        exact ⟨fun h => (by cases h), fun h => (by omega)⟩
    · by_cases hv : v < 0 ∨ v > 9
      · rw [if_pos hv] at hset
        rw [hset]
        exact fun _ => rfl
      · rw [if_neg hv] at hset
        rw [hset]
        exact fun h => by cases h
    · by_cases hv : v < 0 ∨ v > 9
      · rw [if_pos hv] at hset
        rw [hset]
        exact fun h => absurd rfl h
      · rw [if_neg hv] at hset
        rw [hset]
        intro _
        have hr : row.toNat < 9 := by omega
        have hc : col.toNat < 9 := by omega
        have e1 : ((row.toNat : Nat) : Int) = row := by omega
        have e2 : ((col.toNat : Nat) : Int) = col := by omega
        refine ⟨rfl, ?_, ?_⟩
        · rw [Board.get_put b _ _ v hr hc, if_pos ⟨e1.symm, e2.symm⟩]
        · intro r2 c2 hne
          rw [Board.get_put b _ _ v hr hc, if_neg (by omega)]

/-- C12: for all in-range indices, element `j` of `rowMap(r)` is the cell `(r, j)`, element `i`
of `colMap(c)` is the cell `(i, c)`, and element `(i, j)` of `blockMap(br, bc)` is the cell
`(3 * br + i, 3 * bc + j)`: reading the element returns `get` of that cell, and writing a value
to it changes exactly that cell as seen through `get`. -/
theorem C12_views_alias_cells (b : Board) :
    (∀ r < 9, ∀ j < 9, ∃ vw, Board.rowMap (r : Nat) = .ok vw ∧
      b.AliasesCell (vw.at1 j) r j) ∧
    (∀ c < 9, ∀ i < 9, ∃ vw, Board.colMap (c : Nat) = .ok vw ∧
      b.AliasesCell (vw.at1 i) i c) ∧
    (∀ br < 3, ∀ bc < 3, ∀ i < 3, ∀ j < 3, ∃ vw,
      Board.blockMap (br : Nat) (bc : Nat) = .ok vw ∧
      b.AliasesCell (vw.at2 i j) (3 * br + i) (3 * bc + j)) := by
  refine ⟨?_, ?_, ?_⟩
  · intro r hr j hj
    have h : ¬ ((r : Int) < 0 ∨ (r : Int) ≥ 9) := by omega
    refine ⟨⟨r * 9 + 0, 9, 1⟩, by simp only [Board.rowMap, if_neg h, Int.toNat_ofNat], ?_⟩
    apply Board.aliasesCell b r j hr hj
    simp only [View.at1]
    omega
  · intro c hc i hi
    have h : ¬ ((c : Int) < 0 ∨ (c : Int) ≥ 9) := by omega
    refine ⟨⟨0 * 9 + c, 1, 9⟩, by simp only [Board.colMap, if_neg h, Int.toNat_ofNat], ?_⟩
    apply Board.aliasesCell b i c hi hc
    simp only [View.at1]
    omega
  · intro br hbr bc hbc i hi j hj
    have h : ¬ ((br : Int) < 0 ∨ (br : Int) ≥ 3 ∨ (bc : Int) < 0 ∨ (bc : Int) ≥ 3) := by omega
    refine ⟨⟨br * 3 * 9 + bc * 3, 9, 1⟩,
      by simp only [Board.blockMap, if_neg h, Int.toNat_ofNat], ?_⟩
    apply Board.aliasesCell b (3 * br + i) (3 * bc + j) (by omega) (by omega)
    simp only [View.at2]
    omega

/-! ## The claims on the candidate masks and the choice of the cell -/

/-- C16: for every board with cells in `[0, 9]` and every cell `(r, c)`: when the cell is empty,
bit `v` of `candidatesFor(board, r, c)` is set if and only if `v` is in `1..9` and does not occur
in row `r`, in column `c` or in the 3x3 block of the cell (so bit 0 and the bits above 9 are
clear); when the cell is not empty, the mask is 0. -/
theorem C16_candidate_mask (b : Board) (hb : b.InRange) (r c : Nat) (hr : r < 9) (hc : c < 9) :
    (b.cell r c = 0 → ∀ v : Nat,
      ((Solver.candidatesFor b r c).testBit v = true ↔
        (1 ≤ v ∧ v ≤ 9 ∧ (∀ c₂ < 9, b.cell r c₂ ≠ (v : Int)) ∧
          (∀ r₂ < 9, b.cell r₂ c ≠ (v : Int)) ∧
          ∀ r₂ < 9, ∀ c₂ < 9, r / 3 = r₂ / 3 → c / 3 = c₂ / 3 → b.cell r₂ c₂ ≠ (v : Int)))) ∧
    (b.cell r c ≠ 0 → Solver.candidatesFor b r c = 0) := by
  refine ⟨fun he v => ?_, Solver.candidatesFor_of_filled b r c⟩
  rw [Solver.candidatesFor_testBit b hb r c hr hc he, Solver.not_mem_rowVals,
    Solver.not_mem_colVals, Solver.not_mem_blockVals b r c hr hc]

/-- C16, witness: the cell (0, 0) of the board of `board_test.cpp`, whose mask is 138, the bits
of the digits 1, 3 and 7. -/
theorem C16_candidate_mask_witness :
    testBoard.InRange ∧ testBoard.cell 0 0 = 0 ∧ Solver.candidatesFor testBoard 0 0 = 138 ∧
    ((testBoard.cell 0 0 = 0 → ∀ v : Nat,
      ((Solver.candidatesFor testBoard 0 0).testBit v = true ↔
        (1 ≤ v ∧ v ≤ 9 ∧ (∀ c₂ < 9, testBoard.cell 0 c₂ ≠ (v : Int)) ∧
          (∀ r₂ < 9, testBoard.cell r₂ 0 ≠ (v : Int)) ∧
          ∀ r₂ < 9, ∀ c₂ < 9, 0 / 3 = r₂ / 3 → 0 / 3 = c₂ / 3 →
            testBoard.cell r₂ c₂ ≠ (v : Int)))) ∧
    (testBoard.cell 0 0 ≠ 0 → Solver.candidatesFor testBoard 0 0 = 0)) :=
  ⟨by decide, by decide, by decide,
    C16_candidate_mask testBoard (by decide) 0 0 (by decide) (by decide)⟩

/-- C17, counterexample: `maskedDeadEnd` is a valid board with cells in `[0, 9]` whose empty cell
(0, 1) has the empty mask, but `chooseCellMRV` returns the choice of the cell (0, 0) with the
mask of the digit 2, and `solveBacktrack` places a digit and recurses: with fuel for this node
only the recursive call runs out of fuel.  The search still fails and restores the board. -/
theorem C17_counterexample :
    maskedDeadEnd.InRange ∧ maskedDeadEnd.isValid = true ∧
    maskedDeadEnd.cell 0 1 = 0 ∧ Solver.candidatesFor maskedDeadEnd 0 1 = 0 ∧
    Solver.chooseCellMRV maskedDeadEnd = some (0, 0, 4) ∧
    Solver.solveBacktrack 1 maskedDeadEnd = none ∧
    Solver.solveBacktrack 2 maskedDeadEnd = some (false, maskedDeadEnd) := by
  decide

/-- C17, amended: on a board with cells in `[0, 9]` in which some empty cell has the empty mask,
`solveBacktrack` reports failure and leaves the board as it was when the board is valid; and
when no empty cell with exactly one candidate precedes that cell in row-major order,
`chooseCellMRV` returns no choice and `solveBacktrack` reports failure without placing a digit
and without recursing, whatever fuel is left for a recursive call, also none. -/
theorem C17_dead_end (b : Board) (_hb : b.InRange) (r c : Nat) (hr : r < 9) (hc : c < 9)
    (he : b.cell r c = 0) (hmask : Solver.candidatesFor b r c = 0) :
    (b.isValid = true → Solver.solveBacktrack 82 b = some (false, b)) ∧
    ((∀ r₂ < 9, ∀ c₂ < 9, r₂ * 9 + c₂ < r * 9 + c → b.cell r₂ c₂ = 0 →
        Solver.popcount9 (Solver.candidatesFor b r₂ c₂) ≠ 1) →
      Solver.chooseCellMRV b = none ∧
      ∀ fuel, Solver.solveBacktrack (fuel + 1) b = some (false, b)) := by
  constructor
  · intro hvalid
    exact Solver.solveBacktrack_dead_end b hvalid r c hr hc he hmask 82
      (by have := Solver.emptyCount_le b; omega)
  · intro hfirst
    have hnone := Solver.chooseCellMRV_dead_end b r c hr hc he hmask hfirst
    refine ⟨hnone, fun fuel => ?_⟩
    rw [Solver.solveBacktrack_of_none b hnone fuel]
    have : b.isFilled = false := by
      apply Bool.eq_false_iff.mpr
      intro hf
      exact (Solver.isFilled_iff b).mp hf r hr c hc he
    rw [this]

/-- C17, witness: the cell (0, 0) of `firstCellDead`, which has no candidate and is the first
cell of the board. -/
theorem C17_dead_end_witness :
    firstCellDead.InRange ∧ firstCellDead.cell 0 0 = 0 ∧
    Solver.candidatesFor firstCellDead 0 0 = 0 ∧ firstCellDead.isValid = true ∧
    ((firstCellDead.isValid = true →
      Solver.solveBacktrack 82 firstCellDead = some (false, firstCellDead)) ∧
    ((∀ r₂ < 9, ∀ c₂ < 9, r₂ * 9 + c₂ < 0 * 9 + 0 → firstCellDead.cell r₂ c₂ = 0 →
        Solver.popcount9 (Solver.candidatesFor firstCellDead r₂ c₂) ≠ 1) →
      Solver.chooseCellMRV firstCellDead = none ∧
      ∀ fuel, Solver.solveBacktrack (fuel + 1) firstCellDead = some (false, firstCellDead))) :=
  ⟨by decide, by decide, by decide, by decide,
    C17_dead_end firstCellDead (by decide) 0 0 (by decide) (by decide) (by decide) (by decide)⟩

/-- C18: for every board with cells in `[0, 9]`, whenever `chooseCellMRV` returns a choice
`(r, c, m)`, the cell `(r, c)` is empty, `m` is `candidatesFor(board, r, c)` and has at least one
bit set, no empty cell with a non-empty mask has fewer candidates than `m`, and every empty cell
that precedes `(r, c)` in row-major order has strictly more candidates than `m`. -/
theorem C18_mrv_selection (b : Board) (_hb : b.InRange) (r c : Nat) (m : Solver.Mask)
    (h : Solver.chooseCellMRV b = some (r, c, m)) :
    r < 9 ∧ c < 9 ∧ b.cell r c = 0 ∧ m = Solver.candidatesFor b r c ∧
    1 ≤ Solver.popcount9 m ∧ (∃ v, m.testBit v = true) ∧
    (∀ r₂ < 9, ∀ c₂ < 9, b.cell r₂ c₂ = 0 → Solver.candidatesFor b r₂ c₂ ≠ 0 →
      Solver.popcount9 m ≤ Solver.popcount9 (Solver.candidatesFor b r₂ c₂)) ∧
    (∀ r₂ < 9, ∀ c₂ < 9, r₂ * 9 + c₂ < r * 9 + c → b.cell r₂ c₂ = 0 →
      Solver.popcount9 m < Solver.popcount9 (Solver.candidatesFor b r₂ c₂)) := by
  obtain ⟨hr, hc, he, hm⟩ := Solver.chooseCellMRV_some b r c m h
  obtain ⟨hpos, hmin, hbefore⟩ := Solver.chooseCellMRV_mrv b r c m h
  refine ⟨hr, hc, he, hm, by omega, ?_, hmin, hbefore⟩
  by_contra hno
  apply hpos
  rw [Solver.popcount9_eq_zero_iff]
  intro i _
  apply Bool.eq_false_iff.mpr
  intro hbit
  exact hno ⟨i, hbit⟩

/-- C18, witness: on the board of `board_test.cpp` the choice is the cell (1, 6) with the mask
of the digit 5, its one candidate; the empty cells before it have two candidates or more. -/
theorem C18_mrv_selection_witness :
    testBoard.InRange ∧ Solver.chooseCellMRV testBoard = some (1, 6, 32) ∧
    (1 < 9 ∧ 6 < 9 ∧ testBoard.cell 1 6 = 0 ∧ 32 = Solver.candidatesFor testBoard 1 6 ∧
    1 ≤ Solver.popcount9 32 ∧ (∃ v, Nat.testBit 32 v = true) ∧
    (∀ r₂ < 9, ∀ c₂ < 9, testBoard.cell r₂ c₂ = 0 → Solver.candidatesFor testBoard r₂ c₂ ≠ 0 →
      Solver.popcount9 32 ≤ Solver.popcount9 (Solver.candidatesFor testBoard r₂ c₂)) ∧
    (∀ r₂ < 9, ∀ c₂ < 9, r₂ * 9 + c₂ < 1 * 9 + 6 → testBoard.cell r₂ c₂ = 0 →
      Solver.popcount9 32 < Solver.popcount9 (Solver.candidatesFor testBoard r₂ c₂))) :=
  ⟨by decide, by decide, C18_mrv_selection testBoard (by decide) 1 6 32 (by decide)⟩

/-- C19: for every valid board with cells in `[0, 9]`, every empty cell `(r, c)` and every digit
`v` in `1..9`, `set(r, c, v)` succeeds and the board it gives satisfies `isValid()` if and only
if bit `v` is set in `candidatesFor(board, r, c)`; so a digit that passes the mask test of
`solveBacktrack` is never rejected by the `isValid()` test that follows. -/
theorem C19_revalidation_redundant (b : Board) (_hb : b.InRange) (hvalid : b.isValid = true)
    (r c : Nat) (hr : r < 9) (hc : c < 9) (he : b.cell r c = 0)
    (v : Nat) (hv1 : 1 ≤ v) (hv9 : v ≤ 9) :
    (b.set r c v).1 = .ok () ∧
    ((b.set r c v).2.isValid = true ↔ (Solver.candidatesFor b r c).testBit v = true) ∧
    (Solver.candidatesFor b r c &&& (1 <<< v) ≠ 0 → (b.set r c v).2.isValid = true) := by
  rw [Board.set_inRange b r c v hr hc (by omega)]
  have hiff := Solver.isValid_put_iff b hvalid r c hr hc he v hv1 hv9
  refine ⟨rfl, hiff, fun hbit => hiff.mpr ?_⟩
  by_contra hno
  exact hbit ((Solver.mask_test_iff _ _).mpr (Bool.eq_false_iff.mpr hno))

/-- C19, witness: the cell (0, 0) of `almostSolved` and the digit 5, the one candidate of the
cell. -/
theorem C19_revalidation_redundant_witness :
    almostSolved.InRange ∧ almostSolved.isValid = true ∧ almostSolved.cell 0 0 = 0 ∧
    Solver.candidatesFor almostSolved 0 0 = 32 ∧
    ((almostSolved.set (0 : Nat) (0 : Nat) (5 : Nat)).1 = .ok () ∧
    ((almostSolved.set (0 : Nat) (0 : Nat) (5 : Nat)).2.isValid = true ↔
      (Solver.candidatesFor almostSolved 0 0).testBit 5 = true) ∧
    (Solver.candidatesFor almostSolved 0 0 &&& (1 <<< 5) ≠ 0 →
      (almostSolved.set (0 : Nat) (0 : Nat) (5 : Nat)).2.isValid = true)) :=
  ⟨by decide, by decide, by decide, by decide,
    C19_revalidation_redundant almostSolved (by decide) (by decide) 0 0 (by decide) (by decide)
      (by decide) 5 (by decide) (by decide)⟩

/-! ## The claims on the ILP method -/

/-- C13, counterexample: the board of `board_test.cpp` is valid and has a solution, and with the
MILP method and no backend `solve` returns false for it, in `solver.hpp` and in `solvercbc.hpp`
compiled without CBC: the same result as for `deadEndBoard` with the backtracking method, a
valid board on which the search fails. -/
theorem C13_counterexample :
    testBoard.isValid = true ∧ Solver.IsSolutionOf testSolution testBoard ∧
    Solver.solve testBoard Method.MILP = some (false, testBoard) ∧
    Solver.solveCbc none 82 testBoard Method.MILP = some (false, testBoard) ∧
    deadEndBoard.isValid = true ∧
    Solver.solve deadEndBoard Method.Backtracking = some (false, deadEndBoard) ∧
    (Solver.solve testBoard Method.MILP).map Prod.fst =
      (Solver.solve deadEndBoard Method.Backtracking).map Prod.fst := by
  decide

/-- C13, amended: when the MILP method is requested and no ILP backend is present, `solve`
returns false and leaves the board unchanged, for every board, in `solver.hpp` and in
`solvercbc.hpp` compiled without CBC: the value it also returns for a puzzle without solution. -/
theorem C13_backend_unavailable (b : Board) :
    Solver.solve b Method.MILP = some (false, b) ∧
    Solver.solveMilpCbcUnavailable b = (false, b) ∧
    ∀ fuel, Solver.solveCbc none fuel b Method.MILP = some (false, b) := by
  have h1 : ∀ fuel, Solver.solveFuel fuel b Method.MILP = some (false, b) := by
    intro fuel
    unfold Solver.solveFuel
    split
    · rfl
    · rw [if_neg (by decide)]
  refine ⟨h1 82, rfl, fun fuel => ?_⟩
  unfold Solver.solveCbc
  split
  · rfl
  · rw [if_neg (by decide)]
    rfl

/-- C14, counterexample: with the vector `allOnes` every cell has nine digits above 0.5, and
`solveMilpCbc` succeeds on the cleared board and writes 1 into every cell; with the vector
`oneHot` the cell (0, 1) has no digit above 0.5, and `solveMilpCbc` fails after it has written
5 into the cell (0, 0), which held 0. -/
theorem C14_counterexample :
    Solver.Hot allOnes 0 0 1 ∧ Solver.Hot allOnes 0 0 2 ∧
    Solver.solveMilpCbc (fun _ => some allOnes) Board.clear = (true, onesBoard) ∧
    (Solver.solveMilpCbc (fun _ => some oneHot) Board.clear).1 = false ∧
    Board.clear.get 0 0 = .ok 0 ∧
    (Solver.solveMilpCbc (fun _ => some oneHot) Board.clear).2.get 0 0 = .ok 5 := by
  decide!

/-- C14, amended: for every board and every solution vector, the translation of `solveMilpCbc`
succeeds if and only if every cell `(r, c)` has at least one digit `v` with `x[r, c, v] > 0.5`,
and then each cell holds the least such digit; when it fails there is a first cell in row-major
order without such a digit, the cells before it hold their least such digit and the cells from
it on are unchanged.  Without a solution vector (`bestSolution()` null) the solve fails and the
board is unchanged. -/
theorem C14_result_translation (b : Board) (best : Nat → Rat) :
    ((Solver.applySolution best Solver.allCells b).1 = true ↔
      ∀ r < 9, ∀ c < 9, ∃ v, 1 ≤ v ∧ v ≤ 9 ∧ Solver.Hot best r c v) ∧
    ((Solver.applySolution best Solver.allCells b).1 = true →
      ∀ r < 9, ∀ c < 9, ∃ v : Nat, (Solver.applySolution best Solver.allCells b).2.cell r c = v ∧
        1 ≤ v ∧ v ≤ 9 ∧ Solver.Hot best r c v ∧ ∀ w, 1 ≤ w → w < v → ¬ Solver.Hot best r c w) ∧
    ((Solver.applySolution best Solver.allCells b).1 = false →
      ∃ k < 81, (∀ v, 1 ≤ v → v ≤ 9 → ¬ Solver.Hot best (k / 9) (k % 9) v) ∧
        (∀ r < 9, ∀ c < 9, r * 9 + c < k → ∃ v : Nat,
          (Solver.applySolution best Solver.allCells b).2.cell r c = v ∧
          1 ≤ v ∧ v ≤ 9 ∧ Solver.Hot best r c v ∧
          ∀ w, 1 ≤ w → w < v → ¬ Solver.Hot best r c w) ∧
        (∀ r < 9, ∀ c < 9, k ≤ r * 9 + c →
          (Solver.applySolution best Solver.allCells b).2.cell r c = b.cell r c)) ∧
    (∀ backend : Solver.Formulation → Option (Nat → Rat),
      (backend (Solver.buildFormulation b) = some best →
        Solver.solveMilpCbc backend b = Solver.applySolution best Solver.allCells b) ∧
      (backend (Solver.buildFormulation b) = none →
        Solver.solveMilpCbc backend b = (false, b))) := by
  obtain ⟨k, hk, hbefore, hat⟩ :=
    Solver.exists_first_not (fun j => Solver.findDigit best (j / 9) (j % 9) Solver.digits ≠ 0) 81
  have hat2 : k < 81 → Solver.findDigit best (k / 9) (k % 9) Solver.digits = 0 := by
    intro h
    have := hat h
    simpa using this
  obtain ⟨e1, e2⟩ := Solver.applySolution_allCells best b k hk hbefore hat2
  have hspec := Solver.findDigit_digits best
  have hwritten : ∀ r < 9, ∀ c < 9, r * 9 + c < k → ∃ v : Nat,
      (Solver.applySolution best Solver.allCells b).2.cell r c = v ∧
      1 ≤ v ∧ v ≤ 9 ∧ Solver.Hot best r c v ∧
      ∀ w, 1 ≤ w → w < v → ¬ Solver.Hot best r c w := by
    intro r hr c hc hlt
    have hne := hbefore (r * 9 + c) hlt
    have a1 : (r * 9 + c) / 9 = r := by omega
    have a2 : (r * 9 + c) % 9 = c := by omega
    rw [a1, a2] at hne
    obtain ⟨h1, h2, h3, h4⟩ := (hspec r c).2 hne
    exact ⟨_, by rw [e2 r hr c hc, if_pos hlt], h1, h2, h3, h4⟩
  refine ⟨?_, ?_, ?_, ?_⟩
  · rw [e1]
    simp only [decide_eq_true_eq]
    constructor
    · intro hk81 r hr c hc
      obtain ⟨v, _, h1, h2, h3, _⟩ := hwritten r hr c hc (by omega)
      exact ⟨v, h1, h2, h3⟩
    · intro hall
      by_contra hne
      have hlt : k < 81 := by omega
      obtain ⟨v, h1, h2, h3⟩ := hall (k / 9) (by omega) (k % 9) (by omega)
      exact ((hspec _ _).1.mp (hat2 hlt)) v h1 h2 h3
  · intro hok r hr c hc
    rw [e1] at hok
    have hk81 : k = 81 := by simpa using hok
    exact hwritten r hr c hc (by omega)
  · intro hfail
    rw [e1] at hfail
    have hk81 : k < 81 := by
      have : ¬ k = 81 := by simpa using hfail
      omega
    refine ⟨k, hk81, (hspec _ _).1.mp (hat2 hk81), hwritten, ?_⟩
    intro r hr c hc hle
    rw [e2 r hr c hc, if_neg (by omega)]
  · intro backend
    constructor
    · intro h
      unfold Solver.solveMilpCbc
      rw [h]
    · intro h
      unfold Solver.solveMilpCbc
      rw [h]

/-- C15, counterexample: the string of concrete scenario 1 has 78 characters, and
`Board::fromString` rejects it with the invalid-format error and leaves the board as it was. -/
theorem C15_counterexample :
    scenarioString.length = 78 ∧
    (Board.clear.fromString scenarioString).1 = .error .invalidArgument ∧
    (Board.clear.fromString scenarioString).2 = Board.clear := by
  decide

/-- C15, amended: the classical puzzle that the scenario abbreviates, the string of 81
characters of `qt-test.cpp`, is a flat encoding that `Board::fromString` accepts, and
`Solver::solve` with the backtracking method returns true on the board parsed from it, leaving
all 81 cells in `1..9` with `isValid()` true and every given cell as it was. -/
theorem C15_classic_scenario :
    classicPuzzle.length = 81 ∧ (Board.clear.fromString classicPuzzle).1 = .ok () ∧
    ∃ b2, Solver.solve classicBoard Method.Backtracking = some (true, b2) ∧
      b2.isValid = true ∧ b2.isFilled = true ∧
      (∀ r < 9, ∀ c < 9, 1 ≤ b2.cell r c ∧ b2.cell r c ≤ 9) ∧
      ∀ r < 9, ∀ c < 9, classicBoard.cell r c ≠ 0 → b2.cell r c = classicBoard.cell r c := by
  refine ⟨by decide, by decide, ?_⟩
  rcases Solver.solve_spec classicBoard Method.Backtracking with
    ⟨hv, _⟩ | ⟨_, hm, _⟩ | ⟨_, _, ok, b2, e, _, ht, hsol⟩
  · have : classicBoard.isValid = true := by decide
    rw [this] at hv
    cases hv
  · cases hm
  · have hok := hsol ⟨solvedGrid, by decide⟩
    subst hok
    obtain ⟨h1, h2, h3⟩ := ht rfl
    refine ⟨b2, e, h1, h2, ?_, h3⟩
    intro r hr c hc
    have hr1 := Board.inRange_cell b2 (Board.isValid_inRange b2 h1) r c hr hc
    have hr2 := (Solver.isFilled_iff b2).mp h2 r hr c hc
    omega

/-- C20: the formulation `solveMilpCbc` builds has 729 variables, indexed by
`varIndex(r, c, v) = (9 * r + c) * 9 + (v - 1)` injectively and onto `[0, 729)`, and 324 rows:
81 cell rows, 81 row-value rows, 81 column-value rows and 81 block-value rows, each with nine
coefficients 1 and both bounds 1; and for every board with cells in `[0, 9]`, a 0/1 assignment
satisfies the rows and the bounds of the variables if and only if it is the indicator of a
filled valid grid that agrees with the board on every pre-filled cell. -/
theorem C20_formulation_encodes_sudoku (b : Board) (hb : b.InRange) :
    (∀ r < 9, ∀ c < 9, ∀ v, 1 ≤ v → v ≤ 9 →
      Solver.varIndex r c v = (9 * r + c) * 9 + (v - 1) ∧ Solver.varIndex r c v < 729) ∧
    (∀ r < 9, ∀ c < 9, ∀ v, 1 ≤ v → v ≤ 9 → ∀ r₂ < 9, ∀ c₂ < 9, ∀ v₂, 1 ≤ v₂ → v₂ ≤ 9 →
      Solver.varIndex r c v = Solver.varIndex r₂ c₂ v₂ → r = r₂ ∧ c = c₂ ∧ v = v₂) ∧
    (∀ i < 729, ∃ r < 9, ∃ c < 9, ∃ v, 1 ≤ v ∧ v ≤ 9 ∧ Solver.varIndex r c v = i) ∧
    ((Solver.buildFormulation b).colLower.length = 729 ∧
      (Solver.buildFormulation b).colUpper.length = 729 ∧
      (Solver.buildFormulation b).objective.length = 729) ∧
    ((Solver.buildFormulation b).rows =
        Solver.cellRows ++ Solver.rowValueRows ++ Solver.colValueRows ++ Solver.blockValueRows ∧
      (Solver.buildFormulation b).rows.length = 324 ∧
      Solver.cellRows.length = 81 ∧ Solver.rowValueRows.length = 81 ∧
      Solver.colValueRows.length = 81 ∧ Solver.blockValueRows.length = 81 ∧
      ∀ row ∈ (Solver.buildFormulation b).rows, row.lower = 1 ∧ row.upper = 1 ∧
        row.entries.length = 9 ∧ ∀ e ∈ row.entries, e.2 = 1 ∧ e.1 < 729) ∧
    (∀ x, Solver.Binary x →
      (Solver.Feasible (Solver.buildFormulation b) x ↔
        ∃ g, Solver.IsSolutionOf g b ∧ Solver.IsIndicator x g)) := by
  have hrows : (Solver.buildFormulation b).rows =
      Solver.cellRows ++ Solver.rowValueRows ++ Solver.colValueRows ++ Solver.blockValueRows :=
    rfl
  obtain ⟨l1, l2, _⟩ := Solver.fixCells_spec b Solver.allCells (List.replicate 729 0)
    (List.replicate 729 1) (fun p hp => (Solver.mem_allCells p).mp hp) (by simp) (by simp)
  refine ⟨?_, ?_, Solver.varIndex_onto, ⟨l1, l2, by simp [Solver.buildFormulation]⟩,
    ⟨hrows, ?_⟩, ?_⟩
  · intro r hr c hc v hv1 hv9
    refine ⟨?_, Solver.varIndex_lt r c v hr hc hv1 hv9⟩
    unfold Solver.varIndex
    omega
  · intro r _ c hc v hv1 hv9 r₂ _ c₂ hc₂ v₂ hw1 hw9 h
    exact Solver.varIndex_inj r c v r₂ c₂ v₂ hc hv1 hv9 hc₂ hw1 hw9 h
  · rw [hrows]
    decide
  · intro x hbin
    constructor
    · intro hf
      exact ⟨Solver.decode x, Solver.solution_of_feasible b hb x hbin hf⟩
    · rintro ⟨g, hs, hind⟩
      exact Solver.feasible_of_solution b x hbin g hs hind

/-- C20, witness: the formulation built for the board of `board_test.cpp`. -/
theorem C20_formulation_encodes_sudoku_witness :
    testBoard.InRange ∧
    ((∀ r < 9, ∀ c < 9, ∀ v, 1 ≤ v → v ≤ 9 →
      Solver.varIndex r c v = (9 * r + c) * 9 + (v - 1) ∧ Solver.varIndex r c v < 729) ∧
    (∀ r < 9, ∀ c < 9, ∀ v, 1 ≤ v → v ≤ 9 → ∀ r₂ < 9, ∀ c₂ < 9, ∀ v₂, 1 ≤ v₂ → v₂ ≤ 9 →
      Solver.varIndex r c v = Solver.varIndex r₂ c₂ v₂ → r = r₂ ∧ c = c₂ ∧ v = v₂) ∧
    (∀ i < 729, ∃ r < 9, ∃ c < 9, ∃ v, 1 ≤ v ∧ v ≤ 9 ∧ Solver.varIndex r c v = i) ∧
    ((Solver.buildFormulation testBoard).colLower.length = 729 ∧
      (Solver.buildFormulation testBoard).colUpper.length = 729 ∧
      (Solver.buildFormulation testBoard).objective.length = 729) ∧
    ((Solver.buildFormulation testBoard).rows =
        Solver.cellRows ++ Solver.rowValueRows ++ Solver.colValueRows ++ Solver.blockValueRows ∧
      (Solver.buildFormulation testBoard).rows.length = 324 ∧
      Solver.cellRows.length = 81 ∧ Solver.rowValueRows.length = 81 ∧
      Solver.colValueRows.length = 81 ∧ Solver.blockValueRows.length = 81 ∧
      ∀ row ∈ (Solver.buildFormulation testBoard).rows, row.lower = 1 ∧ row.upper = 1 ∧
        row.entries.length = 9 ∧ ∀ e ∈ row.entries, e.2 = 1 ∧ e.1 < 729) ∧
    (∀ x, Solver.Binary x →
      (Solver.Feasible (Solver.buildFormulation testBoard) x ↔
        ∃ g, Solver.IsSolutionOf g testBoard ∧ Solver.IsIndicator x g))) :=
  ⟨by decide, C20_formulation_encodes_sudoku testBoard (by decide)⟩

/-! ## The claim on termination -/

/-- C21: for every board with cells in `[0, 9]`, `solveBacktrack` terminates.  With fuel for more
levels of recursion than the board has empty cells the search returns, with the same result for
every such amount of fuel, so with 82 levels on every board; every recursive call of an
activation of `solveBacktrack` is made on a valid board with exactly one empty cell fewer than
the board of its caller; and the depth of the recursion never exceeds the number of empty cells
of the starting board, which is at most 81. -/
theorem C21_search_terminates (b : Board) (_hb : b.InRange) :
    (∀ fuel, Solver.emptyCount b < fuel →
      ∃ ok b2, Solver.solveBacktrack fuel b = some (ok, b2) ∧
        Solver.solveBacktrack (Solver.emptyCount b + 1) b = some (ok, b2)) ∧
    (∃ ok b2, Solver.solveBacktrack 82 b = some (ok, b2)) ∧
    (∀ fuel, ∀ b1 ∈ Solver.recursiveCalls fuel b,
      b1.InRange ∧ b1.isValid = true ∧ Solver.emptyCount b1 + 1 = Solver.emptyCount b) ∧
    (∀ fuel, Solver.callDepth fuel b ≤ Solver.emptyCount b) ∧
    Solver.emptyCount b ≤ 81 := by
  have hle := Solver.emptyCount_le b
  refine ⟨fun fuel hfuel => ?_, ?_, fun fuel b1 h1 => ?_, fun fuel => Solver.callDepth_le fuel b,
    hle⟩
  · obtain ⟨ok, b2, e, _⟩ := Solver.solveBacktrack_total fuel b hfuel
    refine ⟨ok, b2, e, ?_⟩
    rw [← Solver.solveBacktrack_fuel fuel b hfuel]
    exact e
  · obtain ⟨ok, b2, e, _⟩ := Solver.solveBacktrack_total 82 b (by omega)
    exact ⟨ok, b2, e⟩
  · obtain ⟨hv, hc, _⟩ := Solver.recursiveCalls_spec fuel b b1 h1
    exact ⟨Board.isValid_inRange b1 hv, hv, hc⟩

/-- C21, witness: `almostSolved` has three empty cells; the search on it reaches the depth 3, so
that fuel for three levels is not enough and fuel for four is. -/
theorem C21_search_terminates_witness :
    almostSolved.InRange ∧ Solver.emptyCount almostSolved = 3 ∧
    Solver.solveBacktrack 3 almostSolved = none ∧
    Solver.solveBacktrack 4 almostSolved = some (true, solvedGrid) ∧
    Solver.callDepth 4 almostSolved = 3 ∧
    (Solver.recursiveCalls 4 almostSolved).length = 1 ∧
    ((∀ fuel, Solver.emptyCount almostSolved < fuel →
      ∃ ok b2, Solver.solveBacktrack fuel almostSolved = some (ok, b2) ∧
        Solver.solveBacktrack (Solver.emptyCount almostSolved + 1) almostSolved =
          some (ok, b2)) ∧
    (∃ ok b2, Solver.solveBacktrack 82 almostSolved = some (ok, b2)) ∧
    (∀ fuel, ∀ b1 ∈ Solver.recursiveCalls fuel almostSolved,
      b1.InRange ∧ b1.isValid = true ∧
        Solver.emptyCount b1 + 1 = Solver.emptyCount almostSolved) ∧
    (∀ fuel, Solver.callDepth fuel almostSolved ≤ Solver.emptyCount almostSolved) ∧
    Solver.emptyCount almostSolved ≤ 81) :=
  ⟨by decide, by decide, by decide, by decide, by decide, by decide,
    C21_search_terminates almostSolved (by decide)⟩

end Sudoku
